import Mathlib

/-!
# lazytrack: duration/count parser and summary aggregator

A shallow embedding of the Go packages `parser`, `summary`, `store` and of the
parts of `cmd` that call them, followed by theorems about the embedded code.

Conventions of the embedding

* Go `string` values are modelled by Lean `String` (valid Unicode text); the
  functions work on the list of runes `String.data`.
* Go `int` is the 64-bit signed integer of the supported 64-bit targets: values
  are `Int` and every arithmetic operation of the source that can leave the
  64-bit range is wrapped with `wrapInt64`.
* Go `float64` is modelled by `Float64`, an exact model of IEEE-754 binary64
  with round-to-nearest-even (the sign of zero is not tracked).
* `time.Time` is modelled by `Time`: an instant in nanoseconds since the Unix
  epoch together with a fixed zone offset.
-/

namespace Lazytrack

/-! ## Go `int` -/

/-- Two's-complement wrap-around of a mathematical integer into the range of a
64-bit `int`. -/
def wrapInt64 (x : Int) : Int := (x + 2 ^ 63) % 2 ^ 64 - 2 ^ 63

/-- Smallest value of a 64-bit `int`. -/
def minInt64 : Int := -(2 ^ 63)

/-- Largest value of a 64-bit `int`. -/
def maxInt64 : Int := 2 ^ 63 - 1

/-! ## Go `float64` -/

/-- IEEE-754 binary64 values. `fin m e` is the finite value `m * 2 ^ e`, kept in
the unique form with `2 ^ 52 ≤ |m| < 2 ^ 53` and `-1074 ≤ e ≤ 971` (normal),
`0 < |m| < 2 ^ 52` and `e = -1074` (subnormal), or `m = 0` and `e = 0` (zero; the
two signed zeros are identified, no function of the program tells them
apart). -/
inductive Float64 where
  | fin (m : Int) (e : Int)
  | inf (neg : Bool)
  | nan
deriving DecidableEq, Repr

namespace Float64

/-- Number of binary digits of `n`, by halving at most `fuel` times. -/
def bitLenAux : Nat → Nat → Nat
  | 0, _ => 0
  | fuel + 1, n => if n = 0 then 0 else bitLenAux fuel (n / 2) + 1

/-- Number of binary digits of `n` (`0` for `0`). -/
def bitLen (n : Nat) : Nat := bitLenAux n n

/-- Quotient `p / q` rounded to the nearest integer, ties to the even one. -/
def divRoundEven (p q : Nat) : Nat :=
  if 2 * (p % q) < q then p / q
  else if q < 2 * (p % q) then p / q + 1
  else if (p / q) % 2 = 0 then p / q else p / q + 1

/-- Floor of the binary logarithm of the positive rational `a / d`. -/
def log2Floor (a d : Nat) : Int :=
  let k : Int := (bitLen a : Int) - (bitLen d : Int)
  if d * 2 ^ k.toNat ≤ a * 2 ^ (-k).toNat then k else k - 1

/-- Exponent of the unit in the last place for the positive rational `a / d`:
52 below its binary exponent, which is taken to be at least `-1022` (below that
the values are subnormal). -/
def ulpExponent (a d : Nat) : Int := max (log2Floor a d) (-1022) - 52

/-- The positive rational `a / d` in units of the last place, rounded to the
nearest integer, ties to even: the significand, at most `2 ^ 53`. -/
def significand (a d : Nat) : Nat :=
  divRoundEven (a * 2 ^ (-(ulpExponent a d)).toNat) (d * 2 ^ (ulpExponent a d).toNat)

/-- Sign applied to a magnitude. -/
def signed (neg : Bool) (m : Nat) : Int := if neg then -(m : Int) else (m : Int)

/-- The binary64 value nearest to `± a / d` (`d > 0`), ties to even: the
significand times the unit in the last place, renormalised when the rounding
carried to `2 ^ 53`; a result of `2 ^ 1024` or more is an infinity. -/
def round (neg : Bool) (a d : Nat) : Float64 :=
  if a = 0 then fin 0 0
  else if significand a d = 0 then fin 0 0
  else if significand a d = 2 ^ 53 then
    (if 971 < ulpExponent a d + 1 then inf neg else fin (signed neg (2 ^ 52)) (ulpExponent a d + 1))
  else
    (if 971 < ulpExponent a d then inf neg else fin (signed neg (significand a d)) (ulpExponent a d))

/-- Rounding of the exact value `n / d * 2 ^ e`. -/
def roundScaled (n : Int) (d : Nat) (e : Int) : Float64 :=
  round (decide (n < 0)) (n.natAbs * 2 ^ e.toNat) (d * 2 ^ (-e).toNat)

/-- Conversion `float64(n)` of an integer. -/
def ofInt (n : Int) : Float64 := roundScaled n 1 0

/-- Unary minus. -/
def neg : Float64 → Float64
  | fin m e => fin (-m) e
  | inf s => inf (!s)
  | nan => nan

/-- Addition `x + y`. -/
def add : Float64 → Float64 → Float64
  | fin m1 e1, fin m2 e2 =>
      let e := min e1 e2
      roundScaled (m1 * 2 ^ (e1 - e).toNat + m2 * 2 ^ (e2 - e).toNat) 1 e
  | fin _ _, inf s => inf s
  | inf s, fin _ _ => inf s
  | inf s, inf t => if s = t then inf s else nan
  | _, _ => nan

/-- Subtraction `x - y`. -/
def sub (x y : Float64) : Float64 := add x (neg y)

/-- Multiplication `x * y`. -/
def mul : Float64 → Float64 → Float64
  | fin m1 e1, fin m2 e2 => roundScaled (m1 * m2) 1 (e1 + e2)
  | fin m _, inf s => if m = 0 then nan else inf (xor (decide (m < 0)) s)
  | inf s, fin m _ => if m = 0 then nan else inf (xor s (decide (m < 0)))
  | inf s, inf t => inf (xor s t)
  | _, _ => nan

/-- Division `x / y` (a zero divisor counts as `+0`). -/
def div : Float64 → Float64 → Float64
  | fin m1 e1, fin m2 e2 =>
      if m2 = 0 then (if m1 = 0 then nan else inf (decide (m1 < 0)))
      else roundScaled (if m2 < 0 then -m1 else m1) m2.natAbs (e1 - e2)
  | fin _ _, inf _ => fin 0 0
  | inf s, fin m _ => inf (xor s (decide (m < 0)))
  | _, _ => nan

/-- Comparison `x <= y` (false when an operand is NaN). -/
def le : Float64 → Float64 → Bool
  | fin m1 e1, fin m2 e2 =>
      let e := min e1 e2
      decide (m1 * 2 ^ (e1 - e).toNat ≤ m2 * 2 ^ (e2 - e).toNat)
  | fin _ _, inf s => !s
  | inf s, fin _ _ => s
  | inf s, inf t => s || !t
  | _, _ => false

/-- Comparison `x < y` (false when an operand is NaN). -/
def lt : Float64 → Float64 → Bool
  | fin m1 e1, fin m2 e2 =>
      let e := min e1 e2
      decide (m1 * 2 ^ (e1 - e).toNat < m2 * 2 ^ (e2 - e).toNat)
  | fin _ _, inf s => !s
  | inf s, fin _ _ => s
  | inf s, inf t => s && !t
  | _, _ => false

/-- Comparison `x == y` (false when an operand is NaN). -/
def eq : Float64 → Float64 → Bool
  | nan, _ => false
  | _, nan => false
  | x, y => decide (x = y)

/-- Conversion `int(x)`: truncation toward zero. A value outside the 64-bit
range, an infinity or a NaN gives the smallest `int`, as on amd64 (the Go
specification leaves that case to the implementation). -/
def toInt : Float64 → Int
  | fin m e =>
      let v : Int := if 0 ≤ e then m * 2 ^ e.toNat
        else (if m < 0 then -((m.natAbs / 2 ^ (-e).toNat : Nat) : Int)
              else ((m.natAbs / 2 ^ (-e).toNat : Nat) : Int))
      if minInt64 ≤ v ∧ v ≤ maxInt64 then v else minInt64
  | _ => minInt64

/-- The rational number denoted by a finite value (`0` for infinities and
NaN). -/
def toRat : Float64 → ℚ
  | fin m e => (m : ℚ) * (2 : ℚ) ^ e
  | _ => 0

/-- Finite values. -/
def isFinite : Float64 → Bool
  | fin _ _ => true
  | _ => false

end Float64

/-! ## Go strings: `strings`, `strconv`, `fmt` -/

/-- Predicate `unicode.IsSpace`: the Unicode White_Space code points. -/
def isSpace (c : Char) : Bool :=
  let n := c.toNat
  (0x09 ≤ n && n ≤ 0x0D) || n = 0x20 || n = 0x85 || n = 0xA0 || n = 0x1680 ||
    (0x2000 ≤ n && n ≤ 0x200A) || n = 0x2028 || n = 0x2029 || n = 0x202F ||
    n = 0x205F || n = 0x3000

/-- Function `strings.TrimSpace` on the runes of a string. -/
def TrimSpace (s : List Char) : List Char :=
  ((s.dropWhile isSpace).reverse.dropWhile isSpace).reverse

/-- Function `unicode.ToLower` as far as the program can observe it: ASCII
capitals, and the two code points outside ASCII whose lower case is an ASCII
letter (U+0130 gives `i`, U+212A gives `k`). Every other cased letter outside
ASCII is left as it is: Go maps it to another letter outside ASCII, and the
callers in `parser` only test the result for ASCII suffixes, digits, signs and
spaces. The habit name of `runLog` is lower-cased exactly when it is in
ASCII. -/
def toLowerRune (c : Char) : Char :=
  if c.toNat = 0x130 then 'i' else if c.toNat = 0x212A then 'k' else c.toLower

/-- Function `strings.ToLower`. -/
def ToLower (s : List Char) : List Char := s.map toLowerRune

/-- Function `strings.HasSuffix`. -/
def HasSuffix (s suffix : List Char) : Bool := suffix.isSuffixOf s

/-- Function `strings.TrimSuffix`. -/
def TrimSuffix (s suffix : List Char) : List Char :=
  if HasSuffix s suffix then s.take (s.length - suffix.length) else s

/-- Value of a run of ASCII decimal digits. -/
def digitsValue (cs : List Char) : Nat :=
  cs.foldl (fun n c => 10 * n + (c.toNat - 48)) 0

/-- Unsigned decimal number: a non-empty run of ASCII digits. -/
def parseDigits (cs : List Char) : Option Nat :=
  if cs ≠ [] ∧ cs.all Char.isDigit = true then some (digitsValue cs) else none

/-- Range check of `strconv.Atoi`: a value outside the 64-bit range is an
error. -/
def inInt64 (v : Int) : Option Int :=
  if minInt64 ≤ v ∧ v ≤ maxInt64 then some v else none

/-- Function `strconv.Atoi`: an optional sign followed by decimal digits, in
the 64-bit range; `none` stands for a non-nil error. -/
def Atoi (s : List Char) : Option Int :=
  match s with
  | '-' :: rest => (parseDigits rest).bind (fun n => inInt64 (-(n : Int)))
  | '+' :: rest => (parseDigits rest).bind (fun n => inInt64 (n : Int))
  | _ => (parseDigits s).bind (fun n => inInt64 (n : Int))

/-- Function `strconv.ParseFloat(s, 64)` on the inputs its only caller passes,
decimal digits with an optional fraction part (`\d+(\.\d+)?`): the correctly
rounded binary64 value, and an error (`none`) when it overflows to an
infinity. Other inputs are not modelled and give `none`. -/
def ParseFloat (s : List Char) : Option Float64 :=
  let ip := s.takeWhile Char.isDigit
  let x : Option Float64 :=
    match s.dropWhile Char.isDigit with
    | [] => if ip ≠ [] then some (Float64.round false (digitsValue ip) 1) else none
    | '.' :: fp =>
        if ip ≠ [] ∧ fp ≠ [] ∧ fp.all Char.isDigit = true then
          some (Float64.round false (digitsValue (ip ++ fp)) (10 ^ fp.length))
        else none
    | _ => none
  x.bind (fun v => if v.isFinite then some v else none)

/-- Decimal digits of a natural number, most significant first. -/
def natDigitsAux : Nat → Nat → List Char → List Char
  | 0, _, acc => acc
  | fuel + 1, n, acc =>
      if n / 10 = 0 then Char.ofNat (48 + n % 10) :: acc
      else natDigitsAux fuel (n / 10) (Char.ofNat (48 + n % 10) :: acc)

/-- Verb `%d` of `fmt.Sprintf` for a natural number. -/
def formatNat (n : Nat) : List Char := natDigitsAux (n + 1) n []

/-- Verb `%d` of `fmt.Sprintf`. -/
def formatInt (n : Int) : List Char :=
  if n < 0 then '-' :: formatNat n.natAbs else formatNat n.natAbs

/-! ## Go `regexp`: backtracking with leftmost-first priorities -/

/-- Regular expressions, as far as the pattern of `parseTimeDuration` needs
them. -/
inductive Regex where
  | lit (c : Char)
  | plus (p : Char → Bool)
  | cat (a b : Regex)
  | opt (a : Regex)
  | group (i : Nat) (a : Regex)

/-- Remainders of the input after a greedy `p+`: the longest run first. -/
def greedyRests (p : Char → Bool) : List Char → List (List Char)
  | [] => []
  | c :: cs => if p c then greedyRests p cs ++ [cs] else []

/-- All ways to match a prefix of the input, in the order a backtracking
matcher tries them (greedy operators prefer to match); each result is the
capture groups set so far and the remaining input. Go's `regexp` returns the
submatches of the first of them that completes the match. -/
def Regex.run : Regex → List Char → List (Nat × List Char) →
    List (List (Nat × List Char) × List Char)
  | .lit c, s, caps =>
      match s with
      | x :: xs => if x = c then [(caps, xs)] else []
      | [] => []
  | .plus p, s, caps => (greedyRests p s).map (fun r => (caps, r))
  | .cat a b, s, caps => (a.run s caps).flatMap (fun cr => b.run cr.2 cr.1)
  | .opt a, s, caps => a.run s caps ++ [(caps, s)]
  | .group i a, s, caps =>
      (a.run s caps).map (fun cr => ((i, s.take (s.length - cr.2.length)) :: cr.1, cr.2))

/-- Text of capture group `i`, empty when the group took no part. -/
def capture (caps : List (Nat × List Char)) (i : Nat) : List Char :=
  match caps.find? (fun g => g.1 = i) with
  | some g => g.2
  | none => []

/-- Method `FindStringSubmatch` of a pattern `^re$` with two groups: the whole
match and the text of groups 1 and 2, or the empty slice when the input does not
match. -/
def FindStringSubmatch (re : Regex) (s : List Char) : List (List Char) :=
  match (re.run s []).find? (fun cr => cr.2.isEmpty) with
  | some cr => [s, capture cr.1 1, capture cr.1 2]
  | none => []

/-! ## Package `types` -/

/-- Struct `types.ParsedDuration`. -/
structure ParsedDuration where
  Hours : Int
  Minutes : Int
  IsValid : Bool
deriving DecidableEq, Repr

/-! ## Package `parser` -/

/-- The three errors of the parser (`fmt.Errorf` values; the echo of the input
in the message is not modelled). -/
inductive ParseError where
  | emptyDuration
  | invalidDurationFormat
  | invalidCountFormat
deriving DecidableEq, Repr

/-- Pattern `^(\d+(?:\.\d+)?)?h?(\d+)?m?$` of `parseTimeDuration`, without the
anchors. -/
def timeRegex : Regex :=
  .cat (.opt (.group 1 (.cat (.plus Char.isDigit)
      (.opt (.cat (.lit '.') (.plus Char.isDigit))))))
    (.cat (.opt (.lit 'h'))
      (.cat (.opt (.group 2 (.plus Char.isDigit))) (.opt (.lit 'm'))))

/-- Hours and minutes contributed by the first capture group. -/
def parseHours (g : List Char) : Int × Int :=
  if g ≠ [] then
    match ParseFloat g with
    | some h =>
        let hours := h.toInt
        if !(Float64.eq h (Float64.ofInt h.toInt)) then
          (hours, (Float64.mul (Float64.sub h (Float64.ofInt h.toInt)) (Float64.ofInt 60)).toInt)
        else (hours, 0)
    | none => (0, 0)
  else (0, 0)

/-- Minutes after adding the second capture group. -/
def parseMinutes (g : List Char) (minutes : Int) : Int :=
  if g ≠ [] then
    match Atoi g with
    | some m => wrapInt64 (minutes + m)
    | none => minutes
  else minutes

/-- Function `parseTimeDuration`: hours, minutes and the error. -/
def parseTimeDuration (input : List Char) : Int × Int × Option ParseError :=
  let found := FindStringSubmatch timeRegex input
  if found.length = 0 then (0, 0, some .invalidDurationFormat)
  else
    let hm := if found.length > 1 then parseHours (found.getD 1 []) else (0, 0)
    let hours := hm.1
    let minutes := if found.length > 2 then parseMinutes (found.getD 2 []) hm.2 else hm.2
    if minutes ≥ 60 then (wrapInt64 (hours + minutes / 60), minutes % 60, none)
    else (hours, minutes, none)

/-- Function `parseCount`. -/
def parseCount (input : List Char) : ParsedDuration × Option ParseError :=
  let input := ToLower (TrimSpace input)
  let viaX : Option Int :=
    if HasSuffix input ['x'] then
      (Atoi (TrimSuffix input ['x'])).bind (fun count => if count > 0 then some count else none)
    else none
  match viaX with
  | some count => (⟨count, 0, true⟩, none)
  | none =>
    let viaTimes : Option Int :=
      if HasSuffix input "times".data then
        (Atoi (TrimSpace (TrimSuffix input "times".data))).bind
          (fun count => if count > 0 then some count else none)
      else none
    match viaTimes with
    | some count => (⟨count, 0, true⟩, none)
    | none => (⟨0, 0, false⟩, some .invalidCountFormat)

/-- Function `ParseDuration`. -/
def ParseDuration (input : String) : ParsedDuration × Option ParseError :=
  let input := TrimSpace input.data
  if input = [] then (⟨0, 0, false⟩, some .emptyDuration)
  else if HasSuffix input ['x'] || HasSuffix input "times".data then parseCount input
  else
    match parseTimeDuration input with
    | (_, _, some err) => (⟨0, 0, false⟩, some err)
    | (hours, minutes, none) => (⟨hours, minutes, true⟩, none)

/-- Function `FormatDuration`. -/
def FormatDuration (duration : ParsedDuration) : String :=
  if !duration.IsValid then "0m"
  else if duration.Hours > 0 ∧ duration.Minutes > 0 then
    ⟨formatInt duration.Hours ++ ['h'] ++ formatInt duration.Minutes ++ ['m']⟩
  else if duration.Hours > 0 then ⟨formatInt duration.Hours ++ ['h']⟩
  else ⟨formatInt duration.Minutes ++ ['m']⟩

/-- Function `FormatCount`. -/
def FormatCount (count : Int) : String :=
  if count = 1 then "1 time" else ⟨formatInt count ++ " times".data⟩

/-- Function `IsCountBased`. -/
def IsCountBased (input : String) : Bool :=
  let input := ToLower (TrimSpace input.data)
  HasSuffix input ['x'] || HasSuffix input "times".data

/-- Function `GetTotalMinutes`. -/
def GetTotalMinutes (duration : ParsedDuration) : Int :=
  wrapInt64 (wrapInt64 (duration.Hours * 60) + duration.Minutes)

/-- Function `GetTotalHours`. -/
def GetTotalHours (duration : ParsedDuration) : Float64 :=
  Float64.add (Float64.ofInt duration.Hours)
    (Float64.div (Float64.ofInt duration.Minutes) (Float64.ofInt 60))

/-! ## Go `time` -/

/-- Value of type `time.Time` in a location with a fixed offset (UTC, or a zone
without daylight saving changes): the instant in nanoseconds since the Unix
epoch, and the zone offset in seconds east of UTC. -/
structure Time where
  unixNano : Int
  offset : Int
deriving DecidableEq, Repr

namespace Time

/-- Nanoseconds of `time.Hour`. -/
def Hour : Int := 3600 * 1000000000

/-- Nanoseconds of a 24 hour day. -/
def nanosPerDay : Int := 24 * Hour

/-- Nanoseconds from the zero time (1 January of year 1, 00:00 UTC) to the Unix
epoch: 719162 whole days. -/
def unixToZero : Int := 719162 * nanosPerDay

/-- Method `After`: the instant `t` is after `u`. -/
def After (t u : Time) : Bool := decide (u.unixNano < t.unixNano)

/-- Method `Before`: the instant `t` is before `u`. -/
def Before (t u : Time) : Bool := decide (t.unixNano < u.unixNano)

/-- Days from 1 January 1970 to the calendar day of `t` in its own zone. -/
def localDay (t : Time) : Int := (t.unixNano / 1000000000 + t.offset) / 86400

/-- Seconds since midnight on the wall clock of `t` in its own zone. -/
def secondOfDay (t : Time) : Int := (t.unixNano / 1000000000 + t.offset) % 86400

/-- Method `Weekday`: Sunday is 0; 1 January 1970 was a Thursday. -/
def Weekday (t : Time) : Int := (t.localDay + 4) % 7

/-- Method `AddDate(0, 0, days)`: the same wall clock time `days` calendar days
later; with a fixed zone offset that is `days` times 24 hours later. -/
def AddDays (t : Time) (days : Int) : Time :=
  { t with unixNano := t.unixNano + days * nanosPerDay }

/-- Method `Truncate(d)`: `t` rounded down to a multiple of `d` nanoseconds
since the zero time. It works on the absolute time, not on the wall clock of the
zone of `t`. -/
def Truncate (t : Time) (d : Int) : Time :=
  if d ≤ 0 then t else { t with unixNano := t.unixNano - (t.unixNano + unixToZero) % d }

/-- Year, month and day of the proleptic Gregorian calendar for a day number
counted from 1 January 1970. -/
def civil (days : Int) : Int × Int × Int :=
  let z := days + 719468
  let era := z / 146097
  let doe := z % 146097
  let yoe := (doe - doe / 1460 + doe / 36524 - doe / 146096) / 365
  let doy := doe - (365 * yoe + yoe / 4 - yoe / 100)
  let mp := (5 * doy + 2) / 153
  let d := doy - (153 * mp + 2) / 5 + 1
  let m := if mp < 10 then mp + 3 else mp - 9
  (if m ≤ 2 then yoe + era * 400 + 1 else yoe + era * 400, m, d)

/-- Helper `appendInt` of `time.Format`: decimal digits padded with zeros to
`width`, after a minus sign for a negative number. -/
def appendInt (x : Int) (width : Nat) : List Char :=
  let ds := formatNat x.natAbs
  let padded := List.replicate (width - ds.length) '0' ++ ds
  if x < 0 then '-' :: padded else padded

/-- Method `Date`: year, month and day of `t` in its zone. -/
def Date (t : Time) : Int × Int × Int := civil t.localDay

/-- Layout `"2006-01-02"` applied to a year, a month and a day. -/
def layoutDate (ymd : Int × Int × Int) : String :=
  ⟨appendInt ymd.1 4 ++ ['-'] ++ appendInt ymd.2.1 2 ++ ['-'] ++ appendInt ymd.2.2 2⟩

/-- Method `Format("2006-01-02")`: year, month and day of `t` in its zone. -/
def FormatDate (t : Time) : String := layoutDate t.Date

end Time

/-! ## Package `types` (continued) -/

/-- Struct `types.Habit`. -/
structure Habit where
  ID : Int
  Name : String
  Emoji : String
  DefaultDuration : String
  DailyGoal : Int
  GoalType : String
  CreatedAt : Time
deriving DecidableEq, Repr

/-- Struct `types.Log`. -/
structure Log where
  ID : Int
  HabitID : Int
  HabitName : String
  Duration : String
  Count : Int
  LoggedAt : Time
  Notes : String
deriving DecidableEq, Repr

/-- Struct `types.Summary`. -/
structure Summary where
  HabitName : String
  Emoji : String
  TotalTime : Float64
  TotalCount : Int
  GoalProgress : Float64
  Streak : Int
  BarChart : String
deriving DecidableEq, Repr

/-- Struct `types.WeeklySummary`. -/
structure WeeklySummary where
  StartDate : Time
  EndDate : Time
  Habits : List Summary
  TotalTime : Float64
deriving DecidableEq, Repr

/-! ## Package `store` -/

/-- Struct `store.Store`; the two maps are association lists. -/
structure Store where
  dataPath : String
  habits : List (String × Habit)
  logs : List Log
  config : List (String × String)
deriving DecidableEq, Repr

/-- Method `Store.GetLogsByHabit` (its error result is always nil): the loop
appends every log of the habit that lies strictly inside the range. -/
def Store.GetLogsByHabit (s : Store) (habitName : String) (startDate endDate : Time) :
    List Log :=
  s.logs.foldl (fun filteredLogs log =>
    if log.HabitName = habitName ∧ log.LoggedAt.After startDate = true
        ∧ log.LoggedAt.Before endDate = true then
      filteredLogs ++ [log]
    else filteredLogs) []

/-! ## Package `summary` -/

/-- Loop body of the two accumulations over logs of a duration habit: the hours
of a log whose duration string is non-empty and parses, added to `total`. -/
def addLogHours (total : Float64) (log : Log) : Float64 :=
  if log.Duration ≠ "" then
    match ParseDuration log.Duration with
    | (duration, none) => Float64.add total (GetTotalHours duration)
    | (_, some _) => total
  else total

/-- Function `generateBarChart`. -/
def generateBarChart (habit : Habit) (totalTime : Float64) (totalCount : Int)
    (dailyGoal : Int) : String :=
  let value := if habit.GoalType = "count" then Float64.ofInt totalCount else totalTime
  let maxValue0 := Float64.ofInt (wrapInt64 (dailyGoal * 7))
  let maxValue := if Float64.eq maxValue0 (Float64.ofInt 0) then Float64.ofInt 10 else maxValue0
  let barLength0 := (Float64.mul (Float64.div value maxValue) (Float64.ofInt 20)).toInt
  let barLength1 := if barLength0 > 20 then 20 else barLength0
  let barLength := if barLength1 < 0 then 0 else barLength1
  let bar := List.replicate barLength.toNat '█'
  if barLength < 20 then ⟨bar ++ List.replicate (20 - barLength).toNat '░'⟩ else ⟨bar⟩

/-- Function `calculateStreak`: the map `uniqueDays` is the list of its keys. -/
def calculateStreak (logs : List Log) : Int :=
  if logs.length = 0 then 0
  else
    let uniqueDays := logs.foldl (fun (uniqueDays : List String) log =>
      let day := log.LoggedAt.FormatDate
      if day ∈ uniqueDays then uniqueDays else uniqueDays ++ [day]) []
    (uniqueDays.length : Int)

/-- Function `getWeekStart` (the same text in `summary` and in `cmd`). -/
def getWeekStart (t : Time) : Time :=
  let weekday := if t.Weekday = 0 then 7 else t.Weekday
  let daysToSubtract := weekday - 1
  (t.AddDays (-daysToSubtract)).Truncate (24 * Time.Hour)

/-- The logs of the week: first loop of `calculateHabitSummary`. -/
def weekLogs (logs : List Log) (startDate endDate : Time) : List Log :=
  logs.foldl (fun weekLogs log =>
    if log.LoggedAt.After startDate = true ∧ log.LoggedAt.Before endDate = true then
      weekLogs ++ [log]
    else weekLogs) []

/-- The totals `(totalTime, totalCount)`: second loop of
`calculateHabitSummary`. -/
def weekTotals (habit : Habit) (logs : List Log) : Float64 × Int :=
  logs.foldl (fun (tot : Float64 × Int) log =>
    if habit.GoalType = "count" then (tot.1, wrapInt64 (tot.2 + log.Count))
    else (addLogHours tot.1 log, tot.2)) (Float64.ofInt 0, 0)

/-- Function `calculateHabitSummary`. -/
def calculateHabitSummary (habit : Habit) (logs : List Log) (startDate endDate : Time) :
    Summary :=
  let weekLogs := weekLogs logs startDate endDate
  let totals := weekTotals habit weekLogs
  let totalTime := totals.1
  let totalCount := totals.2
  let goalProgress :=
    if habit.DailyGoal > 0 then
      if habit.GoalType = "count" then
        Float64.mul (Float64.div (Float64.ofInt totalCount)
          (Float64.ofInt (wrapInt64 (habit.DailyGoal * 7)))) (Float64.ofInt 100)
      else
        Float64.mul (Float64.div totalTime
          (Float64.ofInt (wrapInt64 (habit.DailyGoal * 7)))) (Float64.ofInt 100)
    else Float64.ofInt 0
  let streak := calculateStreak weekLogs
  let barChart := generateBarChart habit totalTime totalCount habit.DailyGoal
  { HabitName := habit.Name, Emoji := habit.Emoji, TotalTime := totalTime,
    TotalCount := totalCount, GoalProgress := goalProgress, Streak := streak,
    BarChart := barChart }

/-- Function `CalculateWeeklySummary`; `now` is the value of `time.Now()` and
the map `logsByHabit` is its lookup function (no logs for an absent key). -/
def CalculateWeeklySummary (now : Time) (habits : List Habit)
    (logsByHabit : String → List Log) : WeeklySummary :=
  let startDate := getWeekStart now
  let endDate := startDate.AddDays 7
  let acc := habits.foldl (fun (acc : List Summary × Float64) habit =>
    let summary := calculateHabitSummary habit (logsByHabit habit.Name) startDate endDate
    (acc.1 ++ [summary], Float64.add acc.2 summary.TotalTime)) ([], Float64.ofInt 0)
  { StartDate := startDate, EndDate := endDate, Habits := acc.1, TotalTime := acc.2 }

/-- Function `GetMotivationalMessage`. The counter `completedHabits` is at most
the length of the slice, so it does not leave the 64-bit range. -/
def GetMotivationalMessage (summary : WeeklySummary) : String :=
  let acc := summary.Habits.foldl (fun (acc : Float64 × Int) habit =>
    if Float64.lt (Float64.ofInt 0) habit.GoalProgress = true then
      (Float64.add acc.1 habit.GoalProgress, acc.2 + 1)
    else acc) (Float64.ofInt 0, 0)
  let totalProgress := acc.1
  let completedHabits := acc.2
  if completedHabits = 0 then
    "🌟 Every journey starts with a single step! Log your first habit today!"
  else
    let avgProgress := Float64.div totalProgress (Float64.ofInt completedHabits)
    if Float64.le (Float64.ofInt 100) avgProgress = true then
      "🎉 Amazing! You're crushing your goals this week!"
    else if Float64.le (Float64.ofInt 80) avgProgress = true then
      "🚀 Great progress! You're so close to your goals!"
    else if Float64.le (Float64.ofInt 60) avgProgress = true then
      "💪 Good work! Keep up the momentum!"
    else if Float64.le (Float64.ofInt 40) avgProgress = true then
      "👍 You're making progress! Every bit counts!"
    else if Float64.le (Float64.ofInt 20) avgProgress = true then
      "🌱 Getting started is the hardest part. You're doing great!"
    else "🌟 Every small step counts! Keep going!"

/-- The total of `CalculateDailyProgress`: its loop over today's logs. -/
def dailyTotal (habit : Habit) (todayLogs : List Log) : Float64 :=
  todayLogs.foldl (fun total log =>
    if habit.GoalType = "count" then Float64.add total (Float64.ofInt log.Count)
    else addLogHours total log) (Float64.ofInt 0)

/-- Function `CalculateDailyProgress`. -/
def CalculateDailyProgress (habit : Habit) (todayLogs : List Log) : Float64 :=
  if habit.DailyGoal = 0 then Float64.ofInt 0
  else
    Float64.mul (Float64.div (dailyTotal habit todayLogs) (Float64.ofInt habit.DailyGoal))
      (Float64.ofInt 100)

/-- Function `IsGoalReached`. -/
def IsGoalReached (habit : Habit) (todayLogs : List Log) : Bool :=
  Float64.le (Float64.ofInt 100) (CalculateDailyProgress habit todayLogs)

/-! ## Package `store` (continued) -/

/-- Errors of the store (`fmt.Errorf` values; the texts are not modelled). -/
inductive StoreError where
  | habitNotFound
  | configNotFound
deriving DecidableEq, Repr

/-- Statement `m[key] = value` on a Go map kept as an association list with
distinct keys: the value of the key is replaced, or the entry is added at the
end. -/
def mapSet {β : Type} (m : List (String × β)) (key : String) (value : β) : List (String × β) :=
  if (m.lookup key).isSome then m.map (fun kv => if kv.1 = key then (key, value) else kv)
  else m ++ [(key, value)]

/-- Map literal `emojiMap` of `getDefaultEmoji`, with the texts of the source
file, code point by code point. -/
def emojiMap : List (String × String) :=
  [("code", "\u011f\u0178\u2019\u00bb"), ("read", "\u011f\u0178\u201c\u2013"),
   ("walk", "\u011f\u0178\u0161\u00b6"), ("run", "\u011f\u0178\u0192"),
   ("exercise", "\u011f\u0178\u2019\u00aa"), ("water", "\u011f\u0178\u2019\u00a7"),
   ("sleep", "\u011f\u0178\u02dc\u00b4"), ("meditate", "\u011f\u0178\u00a7\u02dc"),
   ("write", "\u00e2\u0153\u00ef\u00b8"), ("study", "\u011f\u0178\u201c\u0161"),
   ("work", "\u011f\u0178\u2019\u00bc"), ("gym", "\u011f\u0178\u2039\u00ef\u00b8"),
   ("yoga", "\u011f\u0178\u00a7\u02dc\u00e2\u20ac\u00e2\u2122\u20ac\u00ef\u00b8"),
   ("cook", "\u011f\u0178\u2018\u00a8\u00e2\u20ac\u011f\u0178\u00b3"),
   ("clean", "\u011f\u0178\u00a7\u00b9"), ("paint", "\u011f\u0178\u00a8"),
   ("music", "\u011f\u0178\u00b5"), ("game", "\u011f\u0178\u00ae"),
   ("social", "\u011f\u0178\u2018\u00a5"),
   ("family", "\u011f\u0178\u2018\u00a8\u00e2\u20ac\u011f\u0178\u2018\u00a9\u00e2\u20ac\u011f\u0178\u2018\u00a7\u00e2\u20ac\u011f\u0178\u2018\u00a6")]

/-- Function `getDefaultEmoji`. -/
def getDefaultEmoji (name : String) : String :=
  match emojiMap.lookup name with
  | some emoji => emoji
  | none => "\u011f\u0178\u201c"

/-- Map literal `countBasedHabits` (the same literal in `getDefaultDuration` and
in `getDefaultGoalType`). -/
def countBasedHabits : List (String × Bool) :=
  [("water", true), ("medicine", true), ("vitamins", true), ("pills", true), ("steps", true),
   ("pushups", true), ("squats", true), ("pullups", true)]

/-- Function `getDefaultDuration`; a key that is not in the map reads as
`false`. -/
def getDefaultDuration (name : String) : String :=
  if (countBasedHabits.lookup name).getD false = true then "1x" else "30m"

/-- Map literal `goalMap` of `getDefaultGoal`. -/
def goalMap : List (String × Int) :=
  [("water", 8), ("medicine", 1), ("vitamins", 1), ("pills", 1), ("steps", 10000),
   ("pushups", 20), ("squats", 50), ("pullups", 10)]

/-- Function `getDefaultGoal`. -/
def getDefaultGoal (name : String) : Int :=
  match goalMap.lookup name with
  | some goal => goal
  | none => 0

/-- Function `getDefaultGoalType`. -/
def getDefaultGoalType (name : String) : String :=
  if (countBasedHabits.lookup name).getD false = true then "count" else "duration"

/-- Method `Store.GetOrCreateHabit`: the habit, the error and the store
afterwards; `now` is the value of `time.Now()`. The number of entries of a map is
far below `2 ^ 63`, so `len(s.habits) + 1` does not wrap. -/
def Store.GetOrCreateHabit (s : Store) (now : Time) (name : String) :
    Habit × Option StoreError × Store :=
  match s.habits.lookup name with
  | some habit => (habit, none, s)
  | none =>
    let habit : Habit :=
      { ID := (s.habits.length : Int) + 1
        Name := name
        Emoji := getDefaultEmoji name
        DefaultDuration := getDefaultDuration name
        DailyGoal := getDefaultGoal name
        GoalType := getDefaultGoalType name
        CreatedAt := now }
    (habit, none, { s with habits := mapSet s.habits name habit })

/-- Method `Store.GetHabitByName`. -/
def Store.GetHabitByName (s : Store) (name : String) : Except StoreError Habit :=
  match s.habits.lookup name with
  | some habit => .ok habit
  | none => .error .habitNotFound

/-- Method `Store.AddLog`: the error and the store afterwards; `now` is the value
of `time.Now()`. The length of a slice of logs is far below `2 ^ 63`, so
`len(s.logs) + 1` does not wrap. -/
def Store.AddLog (s : Store) (now : Time) (habitID : Int) (habitName duration : String)
    (count : Int) (notes : String) : Option StoreError × Store :=
  let log : Log :=
    { ID := (s.logs.length : Int) + 1
      HabitID := habitID
      HabitName := habitName
      Duration := duration
      Count := count
      LoggedAt := now
      Notes := notes }
  (none, { s with logs := s.logs ++ [log] })

/-- Method `Store.GetAllHabits` (its error result is always nil). Go ranges over
a map in an unspecified order; the model takes the order of the association
list. -/
def Store.GetAllHabits (s : Store) : List Habit :=
  s.habits.foldl (fun habits kv => habits ++ [kv.2]) []

/-! ## Package `notification` -/

/-- Loop of `joinHabits` over `habits[:len(habits)-1]`: `i` is the index of the
next name. -/
def joinLoop : Nat → String → List String → String
  | _, result, [] => result
  | i, result, habit :: rest =>
      joinLoop (i + 1) ((if i > 0 then result ++ ", " else result) ++ habit) rest

/-- Function `joinHabits` of package `notification`. -/
def joinHabits (habits : List String) : String :=
  if habits.length = 0 then "none"
  else if habits.length = 1 then habits.getD 0 ""
  else if habits.length = 2 then habits.getD 0 "" ++ " and " ++ habits.getD 1 ""
  else
    let result := joinLoop 0 "" (habits.take (habits.length - 1))
    result ++ (" and " ++ habits.getD (habits.length - 1) "")

/-! ## Package `cmd` -/

/-- Function `joinHabits` of package `cmd` (file `reminder.go`). -/
def cmdJoinHabits (habits : List String) : String :=
  if habits.length = 0 then "none"
  else if habits.length = 1 then habits.getD 0 ""
  else if habits.length = 2 then habits.getD 0 "" ++ " and " ++ habits.getD 1 ""
  else
    let result := joinLoop 0 "" (habits.take (habits.length - 1))
    result ++ (" and " ++ habits.getD (habits.length - 1) "")

/-- Function `joinHabitsDaemon` (file `daemon.go`). -/
def joinHabitsDaemon (habits : List String) : String :=
  if habits.length = 0 then "none"
  else if habits.length = 1 then habits.getD 0 ""
  else if habits.length = 2 then habits.getD 0 "" ++ " and " ++ habits.getD 1 ""
  else
    let result := joinLoop 0 "" (habits.take (habits.length - 1))
    result ++ (" and " ++ habits.getD (habits.length - 1) "")

/-- Errors of `runLog`. -/
inductive LogError where
  | getOrCreateHabit
  | invalidCountFormat
  | invalidDurationFormat
  | invalidDefaultCountFormat
  | addLog
deriving DecidableEq, Repr

/-- The block of `runLog` that reads the amount: `rest` is `args[1:]`, and the
result is the error, or the values of `duration`, `count` and `isCountBased`
that go on to `Store.AddLog`. -/
def logAmount (habit : Habit) (rest : List String) : Except LogError (String × Int × Bool) :=
  match rest with
  | arg1 :: _ =>
    let durationInput : String := ⟨TrimSpace arg1.data⟩
    if IsCountBased durationInput = true then
      match ParseDuration durationInput with
      | (_, some _) => .error .invalidCountFormat
      | (parsed, none) => .ok ("", parsed.Hours, true)
    else
      match ParseDuration durationInput with
      | (_, some _) => .error .invalidDurationFormat
      | (parsed, none) => .ok (FormatDuration parsed, 0, false)
  | [] =>
    if IsCountBased habit.DefaultDuration = true then
      match ParseDuration habit.DefaultDuration with
      | (_, some _) => .error .invalidDefaultCountFormat
      | (parsed, none) => .ok (habit.DefaultDuration, parsed.Hours, true)
    else .ok (habit.DefaultDuration, 0, false)

/-- Function `runLog` on a store that is already open: the error and the store
that `Close` saves. The arguments are `args[0]` and `args[1:]` (the command
requires at least one argument); `created` and `logged` are the two values of
`time.Now()`. The messages on the console are not modelled. The habit name is
lower-cased with `ToLower`, exact for names in ASCII. -/
def runLog (s : Store) (created logged : Time) (arg0 : String) (rest : List String)
    (notes : String) : Option LogError × Store :=
  let habitName : String := ⟨ToLower (TrimSpace arg0.data)⟩
  match s.GetOrCreateHabit created habitName with
  | (_, some _, s1) => (some .getOrCreateHabit, s1)
  | (habit, none, s1) =>
    match logAmount habit rest with
    | .error err => (some err, s1)
    | .ok (duration, count, _) =>
      match s1.AddLog logged habit.ID habit.Name duration count notes with
      | (some _, s2) => (some .addLog, s2)
      | (none, s2) => (none, s2)

/-- The progress that `runReminder` and `checkAndShowLateReminder` compute for
a habit from the logs of today (the same text in both). -/
def currentProgress (habit : Habit) (logs : List Log) : Int :=
  if habit.GoalType = "count" then
    logs.foldl (fun currentProgress log => wrapInt64 (currentProgress + log.Count)) 0
  else
    logs.foldl (fun currentProgress log =>
      if log.Duration ≠ "" then wrapInt64 (currentProgress + 30) else currentProgress) 0

/-- The loop of `checkAndShowLateReminder` (and the same loop of `runReminder`,
for its slice `pendingHabits`): the names of the habits with a goal whose
progress of today is below the goal. -/
def pendingHabits (s : Store) (now : Time) : List String :=
  s.GetAllHabits.foldl (fun pendingHabits habit =>
    if habit.DailyGoal = 0 then pendingHabits
    else
      let today := now.Truncate (24 * Time.Hour)
      let tomorrow := today.AddDays 1
      let logs := s.GetLogsByHabit habit.Name today tomorrow
      if currentProgress habit logs < habit.DailyGoal then pendingHabits ++ [habit.Name]
      else pendingHabits) []

/-! ## Definitions used to state the theorems -/

/-- Instants strictly between the two ends of a window. -/
def insideWindow (startDate endDate : Time) (log : Log) : Bool :=
  decide (startDate.unixNano < log.LoggedAt.unixNano ∧ log.LoggedAt.unixNano < endDate.unixNano)

/-- Sum of the counts of a list of logs. -/
def countSum (logs : List Log) : Int := (logs.map (fun log => log.Count)).sum

/-- Sum of a list of `float64` values, added from left to right from 0. -/
def sumFloat64 (xs : List Float64) : Float64 := xs.foldl Float64.add (Float64.ofInt 0)

/-- Hours of a log: the parsed duration of a log whose non-empty duration text
is accepted by `ParseDuration`. -/
def parsedHours (log : Log) : Option Float64 :=
  if log.Duration ≠ "" then
    match ParseDuration log.Duration with
    | (duration, none) => some (GetTotalHours duration)
    | (_, some _) => none
  else none

/-- The accumulated total of a habit over a list of logs: the sum of the counts
for a count habit, the sum of the parsed hours otherwise. -/
def accumulatedTotal (habit : Habit) (logs : List Log) : Float64 :=
  if habit.GoalType = "count" then sumFloat64 (logs.map (fun log => Float64.ofInt log.Count))
  else sumFloat64 (logs.filterMap parsedHours)

/-- Goal progress in the words of the specification: the total divided by
`dailyGoal * windowDays`, times 100. -/
def progressOf (total : Float64) (dailyGoal windowDays : Int) : Float64 :=
  Float64.mul (Float64.div total (Float64.ofInt (dailyGoal * windowDays))) (Float64.ofInt 100)

/-- Words matched by a regular expression (capture groups do not change
them). -/
def Regex.Matches : Regex → List Char → Prop
  | .lit c, w => w = [c]
  | .plus p, w => w ≠ [] ∧ ∀ x ∈ w, p x = true
  | .cat a b, w => ∃ u v, w = u ++ v ∧ a.Matches u ∧ b.Matches v
  | .opt a, w => w = [] ∨ a.Matches w
  | .group _ a, w => a.Matches w

/-- The text `t` can be the capture of group `i` of the expression: `i` is the
index of a group of the expression and `t` matches the body of that group. -/
def Regex.Explains : Regex → Nat → List Char → Prop
  | .lit _, _, _ => False
  | .plus _, _, _ => False
  | .cat a b, i, t => a.Explains i t ∨ b.Explains i t
  | .opt a, i, t => a.Explains i t
  | .group j a, i, t => (j = i ∧ a.Matches t) ∨ a.Explains i t

/-- A non-empty run of ASCII decimal digits. -/
def IsDigits (cs : List Char) : Prop := cs ≠ [] ∧ ∀ c ∈ cs, c.isDigit = true

/-- The grammar of durations in the words of the specification:
`[digits[.digits]] [h] [digits] [m]`, every part optional. -/
def durationGrammar (s : List Char) : Prop :=
  ∃ a b c d : List Char, s = a ++ b ++ c ++ d ∧
    (a = [] ∨ IsDigits a ∨ ∃ i f, a = i ++ '.' :: f ∧ IsDigits i ∧ IsDigits f) ∧
    (b = [] ∨ b = ['h']) ∧ (c = [] ∨ IsDigits c) ∧ (d = [] ∨ d = ['m'])

/-- The tiers of `GetMotivationalMessage` for a mean progress. -/
def tierMessage (mean : Float64) : String :=
  if Float64.le (Float64.ofInt 100) mean = true then
    "🎉 Amazing! You're crushing your goals this week!"
  else if Float64.le (Float64.ofInt 80) mean = true then
    "🚀 Great progress! You're so close to your goals!"
  else if Float64.le (Float64.ofInt 60) mean = true then
    "💪 Good work! Keep up the momentum!"
  else if Float64.le (Float64.ofInt 40) mean = true then
    "👍 You're making progress! Every bit counts!"
  else if Float64.le (Float64.ofInt 20) mean = true then
    "🌱 Getting started is the hardest part. You're doing great!"
  else "🌟 Every small step counts! Keep going!"

/-- The goal progress values that are greater than 0, in the order of the
habits. -/
def positiveProgress (summary : WeeklySummary) : List Float64 :=
  (summary.Habits.map (fun habit => habit.GoalProgress)).filter
    (fun p => Float64.lt (Float64.ofInt 0) p)

/-- Mean of a non-empty list of `float64` values: their sum from left to right
divided by their number. -/
def meanFloat64 (xs : List Float64) : Float64 :=
  Float64.div (sumFloat64 xs) (Float64.ofInt (xs.length : Int))

/-- The value drawn by `generateBarChart`. -/
def barValue (habit : Habit) (totalTime : Float64) (totalCount : Int) : Float64 :=
  if habit.GoalType = "count" then Float64.ofInt totalCount else totalTime

/-- The full scale of `generateBarChart`: the weekly goal, or 10 when it is
0. -/
def barMaxValue (dailyGoal : Int) : Float64 :=
  if Float64.eq (Float64.ofInt (wrapInt64 (dailyGoal * 7))) (Float64.ofInt 0) = true then
    Float64.ofInt 10
  else Float64.ofInt (wrapInt64 (dailyGoal * 7))

/-- The quotient of value and full scale, times 20, as `generateBarChart`
computes it. -/
def barScaled (habit : Habit) (totalTime : Float64) (totalCount : Int) (dailyGoal : Int) :
    Float64 :=
  Float64.mul (Float64.div (barValue habit totalTime totalCount) (barMaxValue dailyGoal))
    (Float64.ofInt 20)

/-- The number of filled glyphs of `generateBarChart`: its variable `barLength`
after the two clamps. -/
def barLength (habit : Habit) (totalTime : Float64) (totalCount : Int) (dailyGoal : Int) : Int :=
  let barLength0 := (barScaled habit totalTime totalCount dailyGoal).toInt
  let barLength1 := if barLength0 > 20 then 20 else barLength0
  if barLength1 < 0 then 0 else barLength1

/-- The test of the loop of `runReminder` and of `checkAndShowLateReminder` for
one habit and its logs of today: the habit is listed as pending. -/
def listedAsPending (habit : Habit) (logs : List Log) : Bool :=
  if habit.DailyGoal = 0 then false
  else decide (currentProgress habit logs < habit.DailyGoal)

/-! ## Theorems: rounding to `float64` -/

set_option maxRecDepth 100000

namespace Float64

theorem bitLenAux_zero (fuel : Nat) : bitLenAux fuel 0 = 0 := by
  cases fuel <;> simp [bitLenAux]

theorem bitLenAux_spec (fuel : Nat) : ∀ n : Nat, 0 < n → n ≤ fuel →
    1 ≤ bitLenAux fuel n ∧ 2 ^ (bitLenAux fuel n - 1) ≤ n ∧ n < 2 ^ bitLenAux fuel n := by
  induction fuel with
  | zero => intro n h1 h2; omega
  | succ fuel ih =>
    intro n hn hle
    have hne : n ≠ 0 := by omega
    simp only [bitLenAux, hne, if_false]
    by_cases h2 : n / 2 = 0
    · have h1 : n = 1 := by omega
      subst h1
      simp [bitLenAux_zero]
    · obtain ⟨a1, a2, a3⟩ := ih (n / 2) (by omega) (by omega)
      refine ⟨by omega, ?_, ?_⟩
      · have e1 : bitLenAux fuel (n / 2) + 1 - 1 = (bitLenAux fuel (n / 2) - 1) + 1 := by omega
        rw [e1, pow_succ]
        omega
      · rw [pow_succ]
        omega

theorem bitLen_spec (n : Nat) (hn : 0 < n) :
    1 ≤ bitLen n ∧ 2 ^ (bitLen n - 1) ≤ n ∧ n < 2 ^ bitLen n :=
  bitLenAux_spec n n hn le_rfl

/-- Scaling numerator and denominator does not change the rounded quotient. -/
theorem divRoundEven_mul_right (p q k : Nat) (hk : 0 < k) :
    divRoundEven (p * k) (q * k) = divRoundEven p q := by
  unfold divRoundEven
  have h1 : p * k / (q * k) = p / q := Nat.mul_div_mul_right p q hk
  have h2 : p * k % (q * k) = p % q * k := Nat.mul_mod_mul_right k p q
  rw [h1, h2]
  have e1 : (2 * (p % q * k) < q * k) ↔ (2 * (p % q) < q) := by
    rw [← mul_assoc]
    exact Nat.mul_lt_mul_right hk
  have e2 : (q * k < 2 * (p % q * k)) ↔ (q < 2 * (p % q)) := by
    rw [← mul_assoc]
    exact Nat.mul_lt_mul_right hk
  simp only [e1, e2]

theorem divRoundEven_congr (p q p2 q2 : Nat) (hq : 0 < q) (hq2 : 0 < q2)
    (h : p * q2 = p2 * q) : divRoundEven p q = divRoundEven p2 q2 := by
  rw [← divRoundEven_mul_right p q q2 hq2, ← divRoundEven_mul_right p2 q2 q hq, h,
    Nat.mul_comm q q2]

/-- The rounded quotient is at least every natural number below the quotient. -/
theorem le_divRoundEven (p q N : Nat) (hq : 0 < q) (h : N * q ≤ p) : N ≤ divRoundEven p q := by
  have h1 : N ≤ p / q := (Nat.le_div_iff_mul_le hq).mpr h
  unfold divRoundEven
  split_ifs <;> omega

/-- The rounded quotient is at most `N` when the quotient is below `N + 1/2`. -/
theorem divRoundEven_le (p q N : Nat) (hq : 0 < q) (h : 2 * p < (2 * N + 1) * q) :
    divRoundEven p q ≤ N := by
  have hdm := Nat.div_add_mod p q
  have hr : p % q < q := Nat.mod_lt p hq
  have ht : p / q ≤ N := by
    by_contra hc
    have h3 : (N + 1) * q ≤ p / q * q := Nat.mul_le_mul_right q (by omega)
    have h4 : p / q * q ≤ p := Nat.div_mul_le_self p q
    have h5 : (N + 1) * q = N * q + q := by ring
    have h6 : (2 * N + 1) * q = 2 * (N * q) + q := by ring
    omega
  unfold divRoundEven
  rcases Nat.lt_or_ge (p / q) N with h1 | h1
  · split_ifs <;> omega
  · have heq : p / q = N := by omega
    have h2 : 2 * (p % q) < q := by
      rw [heq] at hdm
      have h6 : (2 * N + 1) * q = 2 * (q * N) + q := by ring
      omega
    simp [h2, heq]

theorem divRoundEven_exact (q N : Nat) (hq : 0 < q) : divRoundEven (N * q) q = N := by
  apply le_antisymm
  · apply divRoundEven_le _ _ _ hq
    have h6 : (2 * N + 1) * q = 2 * (N * q) + q := by ring
    omega
  · exact le_divRoundEven _ _ _ hq le_rfl

theorem two_zpow_split (k : ℤ) :
    (2 : ℚ) ^ k = (2 : ℚ) ^ k.toNat / (2 : ℚ) ^ (-k).toNat := by
  rcases le_total 0 k with h | h
  · have h1 : (-k).toNat = 0 := by omega
    have h2 : (k.toNat : ℤ) = k := Int.toNat_of_nonneg h
    rw [h1, pow_zero, div_one, ← zpow_natCast, h2]
  · have h1 : k.toNat = 0 := by omega
    have h2 : ((-k).toNat : ℤ) = -k := Int.toNat_of_nonneg (by omega)
    rw [h1, pow_zero, one_div, ← zpow_natCast, h2, zpow_neg, inv_inv]

/-- The pair of naturals `a * 2 ^ (-k)⁺` and `d * 2 ^ k⁺` has the quotient
`a / d / 2 ^ k`. -/
theorem scaled_quot (a d : Nat) (k : ℤ) :
    ((a * 2 ^ (-k).toNat : Nat) : ℚ) / ((d * 2 ^ k.toNat : Nat) : ℚ)
      = (a : ℚ) / d / (2 : ℚ) ^ k := by
  rw [two_zpow_split k]
  push_cast
  have h1 : (2 : ℚ) ^ k.toNat ≠ 0 := by positivity
  have h2 : (2 : ℚ) ^ (-k).toNat ≠ 0 := by positivity
  by_cases hd : (d : ℚ) = 0
  · simp [hd]
  · field_simp

theorem scaled_pos (d : Nat) (k : ℤ) (hd : 0 < d) : 0 < d * 2 ^ k.toNat :=
  Nat.mul_pos hd (by positivity)

/-- Comparison of naturals against the scaled pair, read in the rationals. -/
theorem scaled_le_iff (a d N : Nat) (k : ℤ) (hd : 0 < d) :
    N * (d * 2 ^ k.toNat) ≤ a * 2 ^ (-k).toNat ↔ (N : ℚ) ≤ (a : ℚ) / d / (2 : ℚ) ^ k := by
  rw [← scaled_quot]
  have hq : (0 : ℚ) < ((d * 2 ^ k.toNat : Nat) : ℚ) := by exact_mod_cast scaled_pos d k hd
  rw [le_div_iff₀ hq]
  exact_mod_cast Iff.rfl

theorem scaled_lt_iff (a d N : Nat) (k : ℤ) (hd : 0 < d) :
    2 * (a * 2 ^ (-k).toNat) < (2 * N + 1) * (d * 2 ^ k.toNat)
      ↔ (a : ℚ) / d / (2 : ℚ) ^ k < (N : ℚ) + 1 / 2 := by
  rw [← scaled_quot]
  have hq : (0 : ℚ) < ((d * 2 ^ k.toNat : Nat) : ℚ) := by exact_mod_cast scaled_pos d k hd
  rw [div_lt_iff₀ hq]
  have : ((N : ℚ) + 1 / 2) * ((d * 2 ^ k.toNat : Nat) : ℚ)
      = ((((2 * N + 1) * (d * 2 ^ k.toNat) : Nat)) : ℚ) / 2 := by
    push_cast
    ring
  rw [this, lt_div_iff₀ (by norm_num : (0 : ℚ) < 2)]
  constructor
  · intro h
    have : ((2 * (a * 2 ^ (-k).toNat) : Nat) : ℚ) < (((2 * N + 1) * (d * 2 ^ k.toNat) : Nat) : ℚ) := by
      exact_mod_cast h
    push_cast at this ⊢
    linarith
  · intro h
    have : ((2 * (a * 2 ^ (-k).toNat) : Nat) : ℚ) < (((2 * N + 1) * (d * 2 ^ k.toNat) : Nat) : ℚ) := by
      push_cast at h ⊢
      linarith
    exact_mod_cast this

theorem log2Floor_spec (a d : Nat) (ha : 0 < a) (hd : 0 < d) :
    (2 : ℚ) ^ (log2Floor a d) ≤ (a : ℚ) / d ∧ (a : ℚ) / d < (2 : ℚ) ^ (log2Floor a d + 1) := by
  obtain ⟨a1, a2, a3⟩ := bitLen_spec a ha
  obtain ⟨d1, d2, d3⟩ := bitLen_spec d hd
  have hdq : (0 : ℚ) < d := by exact_mod_cast hd
  have a2q : (2 : ℚ) ^ ((bitLen a : ℤ) - 1) ≤ a := by
    have : ((2 ^ (bitLen a - 1) : Nat) : ℚ) ≤ a := by exact_mod_cast a2
    rw [Nat.cast_pow, ← zpow_natCast] at this
    have e : ((bitLen a - 1 : Nat) : ℤ) = (bitLen a : ℤ) - 1 := by omega
    rwa [e] at this
  have a3q : (a : ℚ) < (2 : ℚ) ^ (bitLen a : ℤ) := by
    have : (a : ℚ) < ((2 ^ bitLen a : Nat) : ℚ) := by exact_mod_cast a3
    rwa [Nat.cast_pow, ← zpow_natCast] at this
  have d2q : (2 : ℚ) ^ ((bitLen d : ℤ) - 1) ≤ d := by
    have : ((2 ^ (bitLen d - 1) : Nat) : ℚ) ≤ d := by exact_mod_cast d2
    rw [Nat.cast_pow, ← zpow_natCast] at this
    have e : ((bitLen d - 1 : Nat) : ℤ) = (bitLen d : ℤ) - 1 := by omega
    rwa [e] at this
  have d3q : (d : ℚ) < (2 : ℚ) ^ (bitLen d : ℤ) := by
    have : (d : ℚ) < ((2 ^ bitLen d : Nat) : ℚ) := by exact_mod_cast d3
    rwa [Nat.cast_pow, ← zpow_natCast] at this
  set k : ℤ := (bitLen a : ℤ) - (bitLen d : ℤ) with hk
  have two_ne : (2 : ℚ) ≠ 0 := by norm_num
  -- a / d < 2 ^ (k + 1)
  have up : (a : ℚ) / d < (2 : ℚ) ^ (k + 1) := by
    rw [div_lt_iff₀ hdq]
    have e : (2 : ℚ) ^ (k + 1) * (2 : ℚ) ^ ((bitLen d : ℤ) - 1) = (2 : ℚ) ^ (bitLen a : ℤ) := by
      rw [← zpow_add₀ two_ne]
      congr 1
      omega
    have hp : (0 : ℚ) < (2 : ℚ) ^ (k + 1) := by positivity
    calc (a : ℚ) < (2 : ℚ) ^ (bitLen a : ℤ) := a3q
      _ = (2 : ℚ) ^ (k + 1) * (2 : ℚ) ^ ((bitLen d : ℤ) - 1) := e.symm
      _ ≤ (2 : ℚ) ^ (k + 1) * d := by
          exact mul_le_mul_of_nonneg_left d2q hp.le
  have low : (2 : ℚ) ^ (k - 1) ≤ (a : ℚ) / d := by
    rw [le_div_iff₀ hdq]
    have e : (2 : ℚ) ^ (k - 1) * (2 : ℚ) ^ (bitLen d : ℤ) = (2 : ℚ) ^ ((bitLen a : ℤ) - 1) := by
      rw [← zpow_add₀ two_ne]
      congr 1
      omega
    have hp : (0 : ℚ) < (2 : ℚ) ^ (k - 1) := by positivity
    calc (2 : ℚ) ^ (k - 1) * d ≤ (2 : ℚ) ^ (k - 1) * (2 : ℚ) ^ (bitLen d : ℤ) :=
          mul_le_mul_of_nonneg_left d3q.le hp.le
      _ = (2 : ℚ) ^ ((bitLen a : ℤ) - 1) := e
      _ ≤ a := a2q
  have test : (d * 2 ^ k.toNat ≤ a * 2 ^ (-k).toNat) ↔ (2 : ℚ) ^ k ≤ (a : ℚ) / d := by
    have := scaled_le_iff a d 1 k hd
    rw [one_mul, Nat.cast_one] at this
    rw [this, le_div_iff₀ (by positivity : (0 : ℚ) < (2 : ℚ) ^ k), one_mul]
  unfold log2Floor
  simp only [← hk]
  by_cases ht : d * 2 ^ k.toNat ≤ a * 2 ^ (-k).toNat
  · simp only [ht, if_true]
    exact ⟨test.mp ht, up⟩
  · simp only [ht, if_false]
    refine ⟨low, ?_⟩
    have : ¬ (2 : ℚ) ^ k ≤ (a : ℚ) / d := fun h => ht (test.mpr h)
    rw [sub_add_cancel]
    exact lt_of_not_le this

/-- The binade of a positive rational is unique. -/
theorem zpow_bracket_mono (q1 q2 : ℚ) (e f : ℤ) (h1 : (2 : ℚ) ^ e ≤ q1) (h : q1 ≤ q2)
    (h2 : q2 < (2 : ℚ) ^ (f + 1)) : e ≤ f := by
  have : (2 : ℚ) ^ e < (2 : ℚ) ^ (f + 1) := lt_of_le_of_lt (h1.trans h) h2
  have := (zpow_lt_zpow_iff_right₀ (by norm_num : (1 : ℚ) < 2)).mp this
  omega

theorem log2Floor_congr (a d a2 d2 : Nat) (ha : 0 < a) (hd : 0 < d) (ha2 : 0 < a2)
    (hd2 : 0 < d2) (h : (a : ℚ) / d = (a2 : ℚ) / d2) : log2Floor a d = log2Floor a2 d2 := by
  obtain ⟨l1, u1⟩ := log2Floor_spec a d ha hd
  obtain ⟨l2, u2⟩ := log2Floor_spec a2 d2 ha2 hd2
  have h1 := zpow_bracket_mono _ _ _ _ l1 h.le u2
  have h2 := zpow_bracket_mono _ _ _ _ l2 h.ge u1
  omega

theorem ulpExponent_congr (a d a2 d2 : Nat) (ha : 0 < a) (hd : 0 < d) (ha2 : 0 < a2)
    (hd2 : 0 < d2) (h : (a : ℚ) / d = (a2 : ℚ) / d2) : ulpExponent a d = ulpExponent a2 d2 := by
  unfold ulpExponent
  rw [log2Floor_congr a d a2 d2 ha hd ha2 hd2 h]

theorem significand_congr (a d a2 d2 : Nat) (ha : 0 < a) (hd : 0 < d) (ha2 : 0 < a2)
    (hd2 : 0 < d2) (h : (a : ℚ) / d = (a2 : ℚ) / d2) : significand a d = significand a2 d2 := by
  unfold significand
  rw [ulpExponent_congr a d a2 d2 ha hd ha2 hd2 h]
  apply divRoundEven_congr _ _ _ _ (scaled_pos d _ hd) (scaled_pos d2 _ hd2)
  have hdq : (d : ℚ) ≠ 0 := by exact_mod_cast hd.ne'
  have hd2q : (d2 : ℚ) ≠ 0 := by exact_mod_cast hd2.ne'
  have hc : a * d2 = a2 * d := by
    have : (a : ℚ) * d2 = a2 * d := by
      field_simp at h
      linarith
    exact_mod_cast this
  calc a * 2 ^ (-(ulpExponent a2 d2)).toNat * (d2 * 2 ^ (ulpExponent a2 d2).toNat)
      = (a * d2) * (2 ^ (-(ulpExponent a2 d2)).toNat * 2 ^ (ulpExponent a2 d2).toNat) := by ring
    _ = (a2 * d) * (2 ^ (-(ulpExponent a2 d2)).toNat * 2 ^ (ulpExponent a2 d2).toNat) := by rw [hc]
    _ = a2 * 2 ^ (-(ulpExponent a2 d2)).toNat * (d * 2 ^ (ulpExponent a2 d2).toNat) := by ring

/-- The result of `round` depends only on the sign and on the rational `a / d`. -/
theorem round_congr (neg : Bool) (a d a2 d2 : Nat) (hd : 0 < d) (hd2 : 0 < d2)
    (h : (a : ℚ) / d = (a2 : ℚ) / d2) : round neg a d = round neg a2 d2 := by
  have hdq : (0 : ℚ) < d := by exact_mod_cast hd
  have hd2q : (0 : ℚ) < d2 := by exact_mod_cast hd2
  by_cases ha : a = 0
  · have ha2 : a2 = 0 := by
      subst ha
      simp only [Nat.cast_zero, zero_div] at h
      have := (div_eq_zero_iff.mp h.symm).resolve_right hd2q.ne'
      exact_mod_cast this
    simp [round, ha, ha2]
  · have ha2 : a2 ≠ 0 := by
      intro h0
      subst h0
      simp only [Nat.cast_zero, zero_div] at h
      have := (div_eq_zero_iff.mp h).resolve_right hdq.ne'
      exact ha (by exact_mod_cast this)
    have p1 : 0 < a := Nat.pos_of_ne_zero ha
    have p2 : 0 < a2 := Nat.pos_of_ne_zero ha2
    unfold round
    rw [significand_congr a d a2 d2 p1 hd p2 hd2 h, ulpExponent_congr a d a2 d2 p1 hd p2 hd2 h]
    simp [ha, ha2]

/-- The quotient in units of the last place. -/
theorem significand_ge (a d N : Nat) (hd : 0 < d)
    (h : (N : ℚ) * (2 : ℚ) ^ (ulpExponent a d) ≤ (a : ℚ) / d) : N ≤ significand a d := by
  unfold significand
  apply le_divRoundEven _ _ _ (scaled_pos d _ hd)
  rw [scaled_le_iff a d N _ hd, le_div_iff₀ (by positivity)]
  exact h

theorem significand_le (a d N : Nat) (hd : 0 < d)
    (h : (a : ℚ) / d < ((N : ℚ) + 1 / 2) * (2 : ℚ) ^ (ulpExponent a d)) :
    significand a d ≤ N := by
  unfold significand
  apply divRoundEven_le _ _ _ (scaled_pos d _ hd)
  rw [scaled_lt_iff a d N _ hd, div_lt_iff₀ (by positivity)]
  exact h

theorem ulpExponent_ge (a d : Nat) : -1074 ≤ ulpExponent a d := by
  unfold ulpExponent
  have := le_max_right (log2Floor a d) (-1022)
  omega

theorem ulpExponent_ge_log (a d : Nat) : log2Floor a d - 52 ≤ ulpExponent a d := by
  unfold ulpExponent
  have := le_max_left (log2Floor a d) (-1022)
  omega

theorem ulpExponent_of_gt (a d : Nat) (h : -1074 < ulpExponent a d) :
    ulpExponent a d = log2Floor a d - 52 := by
  unfold ulpExponent at h ⊢
  rcases max_cases (log2Floor a d) (-1022) with ⟨h1, _⟩ | ⟨h1, _⟩
  · rw [h1]
  · rw [h1] at h
    omega

theorem significand_le_pow (a d : Nat) (ha : 0 < a) (hd : 0 < d) : significand a d ≤ 2 ^ 53 := by
  apply significand_le a d _ hd
  obtain ⟨_, u1⟩ := log2Floor_spec a d ha hd
  have hu := ulpExponent_ge_log a d
  have h1 : (2 : ℚ) ^ (log2Floor a d + 1) ≤ (2 : ℚ) ^ (ulpExponent a d + 53) :=
    zpow_le_zpow_right₀ (by norm_num) (by omega)
  have h2 : (2 : ℚ) ^ (ulpExponent a d + 53) = (2 : ℚ) ^ (53 : ℕ) * (2 : ℚ) ^ (ulpExponent a d) := by
    rw [zpow_add₀ (by norm_num), ← zpow_natCast]
    push_cast
    ring
  have hp : (0 : ℚ) < (2 : ℚ) ^ (ulpExponent a d) := by positivity
  push_cast
  calc (a : ℚ) / d < (2 : ℚ) ^ (log2Floor a d + 1) := u1
    _ ≤ (2 : ℚ) ^ (ulpExponent a d + 53) := h1
    _ = (2 : ℚ) ^ (53 : ℕ) * (2 : ℚ) ^ (ulpExponent a d) := h2
    _ < ((2 : ℚ) ^ (53 : ℕ) + 1 / 2) * (2 : ℚ) ^ (ulpExponent a d) := by
        apply mul_lt_mul_of_pos_right _ hp
        linarith

theorem significand_ge_pow (a d : Nat) (ha : 0 < a) (hd : 0 < d) (h : -1074 < ulpExponent a d) :
    2 ^ 52 ≤ significand a d := by
  apply significand_ge a d _ hd
  obtain ⟨l1, _⟩ := log2Floor_spec a d ha hd
  have hu := ulpExponent_of_gt a d h
  have h2 : (2 : ℚ) ^ (log2Floor a d) = (2 : ℚ) ^ (52 : ℕ) * (2 : ℚ) ^ (ulpExponent a d) := by
    rw [hu, ← zpow_natCast, ← zpow_add₀ (by norm_num)]
    congr 1
    push_cast
    ring
  rw [Nat.cast_pow, Nat.cast_ofNat, ← h2]
  exact l1

theorem two_zpow_succ_mul (n : ℕ) (u : ℤ) :
    (2 : ℚ) ^ (n + 1) * (2 : ℚ) ^ u = (2 : ℚ) ^ n * (2 : ℚ) ^ (u + 1) := by
  rw [zpow_add₀ (by norm_num : (2 : ℚ) ≠ 0), zpow_one, pow_succ]
  ring

/-- A positive rational rounds to an infinity or to a finite value that is the
significand times the unit in the last place. -/
theorem significand_zero (d : Nat) : significand 0 d = 0 := by
  unfold significand divRoundEven
  simp

theorem round_false_cases (a d : Nat) :
    round false a d = inf false ∨
    (∃ M E, round false a d = fin M E ∧ 0 ≤ M ∧
      (M : ℚ) * (2 : ℚ) ^ E = (significand a d : ℚ) * (2 : ℚ) ^ (ulpExponent a d)) := by
  by_cases ha : a = 0
  · right
    subst ha
    exact ⟨0, 0, by simp [round], le_rfl, by simp [significand_zero]⟩
  · unfold round
    simp only [ha, if_false]
    by_cases h0 : significand a d = 0
    · right
      refine ⟨0, 0, by simp [h0], le_rfl, ?_⟩
      simp [h0]
    · simp only [h0, if_false]
      by_cases h53 : significand a d = 2 ^ 53
      · simp only [h53, if_true]
        by_cases hu : 971 < ulpExponent a d + 1
        · left; simp [hu]
        · right
          refine ⟨2 ^ 52, ulpExponent a d + 1, by simp [hu, signed], by positivity, ?_⟩
          have := two_zpow_succ_mul 52 (ulpExponent a d)
          push_cast at this ⊢
          linarith
      · simp only [h53, if_false]
        by_cases hu : 971 < ulpExponent a d
        · left; simp [hu]
        · right
          exact ⟨significand a d, ulpExponent a d, by simp [hu, signed], by positivity, by simp⟩

theorem round_false_ne_inf (a d : Nat) (ha : 0 < a) (hd : 0 < d)
    (h : (significand a d : ℚ) * (2 : ℚ) ^ (ulpExponent a d) < (2 : ℚ) ^ (1024 : ℤ)) :
    round false a d ≠ inf false := by
  intro hinf
  have hge : 971 < ulpExponent a d + 1 → (2 : ℚ) ^ (1024 : ℤ) ≤ (2 : ℚ) ^ (53 : ℕ) * (2 : ℚ) ^ (ulpExponent a d) := by
    intro hu
    rw [← zpow_natCast, ← zpow_add₀ (by norm_num : (2 : ℚ) ≠ 0)]
    exact zpow_le_zpow_right₀ (by norm_num) (by push_cast; omega)
  have hge2 : 971 < ulpExponent a d → (2 : ℚ) ^ (1024 : ℤ) ≤ (2 : ℚ) ^ (52 : ℕ) * (2 : ℚ) ^ (ulpExponent a d) := by
    intro hu
    rw [← zpow_natCast, ← zpow_add₀ (by norm_num : (2 : ℚ) ≠ 0)]
    exact zpow_le_zpow_right₀ (by norm_num) (by push_cast; omega)
  unfold round at hinf
  simp only [ha.ne', if_false] at hinf
  by_cases h0 : significand a d = 0
  · simp [h0] at hinf
  · simp only [h0, if_false] at hinf
    by_cases h53 : significand a d = 2 ^ 53
    · simp only [h53, if_true] at hinf
      by_cases hu : 971 < ulpExponent a d + 1
      · have := hge hu
        rw [h53] at h
        push_cast at h this
        linarith
      · simp [hu] at hinf
    · simp only [h53, if_false] at hinf
      by_cases hu : 971 < ulpExponent a d
      · have h1 := hge2 hu
        have h2 := significand_ge_pow a d ha hd (by omega)
        have h3 : ((2 ^ 52 : ℕ) : ℚ) ≤ (significand a d : ℚ) := by exact_mod_cast h2
        have hp : (0 : ℚ) < (2 : ℚ) ^ (ulpExponent a d) := by positivity
        have h4 := mul_le_mul_of_nonneg_right h3 hp.le
        push_cast at h4 h1
        linarith
      · simp [hu] at hinf

theorem le_fin_iff (m1 e1 m2 e2 : ℤ) :
    le (fin m1 e1) (fin m2 e2) = true ↔ (m1 : ℚ) * (2 : ℚ) ^ e1 ≤ (m2 : ℚ) * (2 : ℚ) ^ e2 := by
  unfold le
  simp only [decide_eq_true_eq]
  have two_ne : (2 : ℚ) ≠ 0 := by norm_num
  have c : ∀ (m e : ℤ), (((m * 2 ^ (e - min e1 e2).toNat : ℤ)) : ℚ) * (2 : ℚ) ^ (min e1 e2)
      = (m : ℚ) * (2 : ℚ) ^ e → True := fun _ _ _ => trivial
  have k1 : (((m1 * 2 ^ (e1 - min e1 e2).toNat : ℤ)) : ℚ) * (2 : ℚ) ^ (min e1 e2)
      = (m1 : ℚ) * (2 : ℚ) ^ e1 := by
    push_cast
    rw [mul_assoc, ← zpow_natCast, ← zpow_add₀ two_ne]
    congr 2
    have := min_le_left e1 e2
    rw [Int.toNat_of_nonneg (by omega)]
    ring
  have k2 : (((m2 * 2 ^ (e2 - min e1 e2).toNat : ℤ)) : ℚ) * (2 : ℚ) ^ (min e1 e2)
      = (m2 : ℚ) * (2 : ℚ) ^ e2 := by
    push_cast
    rw [mul_assoc, ← zpow_natCast, ← zpow_add₀ two_ne]
    congr 2
    have := min_le_right e1 e2
    rw [Int.toNat_of_nonneg (by omega)]
    ring
  have hp : (0 : ℚ) < (2 : ℚ) ^ (min e1 e2) := by positivity
  rw [← k1, ← k2, mul_le_mul_right hp]
  exact_mod_cast Iff.rfl

/-- Rounding does not go below a representable value below the input. -/
theorem round_ge (a d Mf : Nat) (Uf : ℤ) (ha : 0 < a) (hd : 0 < d) (hM1 : 2 ^ 52 ≤ Mf)
    (hM2 : Mf < 2 ^ 53) (hU : -1074 ≤ Uf) (h : (Mf : ℚ) * (2 : ℚ) ^ Uf ≤ (a : ℚ) / d) :
    (Mf : ℚ) * (2 : ℚ) ^ Uf ≤ (significand a d : ℚ) * (2 : ℚ) ^ (ulpExponent a d) := by
  obtain ⟨l1, u1⟩ := log2Floor_spec a d ha hd
  have two_ne : (2 : ℚ) ≠ 0 := by norm_num
  have hpU : (0 : ℚ) < (2 : ℚ) ^ Uf := by positivity
  have hM1q : ((2 : ℚ) ^ (52 : ℕ)) ≤ (Mf : ℚ) := by exact_mod_cast hM1
  have hM2q : (Mf : ℚ) ≤ ((2 : ℚ) ^ (53 : ℕ)) := by exact_mod_cast hM2.le
  have hF : (2 : ℚ) ^ (Uf + 52) ≤ (Mf : ℚ) * (2 : ℚ) ^ Uf := by
    rw [zpow_add₀ two_ne, mul_comm]
    exact mul_le_mul_of_nonneg_right (by exact_mod_cast hM1q) hpU.le
  have he : Uf + 52 ≤ log2Floor a d := zpow_bracket_mono _ _ _ _ hF h u1
  have hu := ulpExponent_ge_log a d
  rcases eq_or_lt_of_le (show Uf ≤ ulpExponent a d by omega) with heq | hlt
  · have := significand_ge a d Mf hd (by rw [← heq]; exact h)
    rw [← heq]
    exact mul_le_mul_of_nonneg_right (by exact_mod_cast this) hpU.le
  · have h2 := significand_ge_pow a d ha hd (by omega)
    have h3 : ((2 : ℚ) ^ (52 : ℕ)) ≤ (significand a d : ℚ) := by exact_mod_cast h2
    have hp : (0 : ℚ) < (2 : ℚ) ^ (ulpExponent a d) := by positivity
    have h4 : (2 : ℚ) ^ (Uf + 1) ≤ (2 : ℚ) ^ (ulpExponent a d) :=
      zpow_le_zpow_right₀ (by norm_num) (by omega)
    calc (Mf : ℚ) * (2 : ℚ) ^ Uf ≤ (2 : ℚ) ^ (53 : ℕ) * (2 : ℚ) ^ Uf :=
          mul_le_mul_of_nonneg_right hM2q hpU.le
      _ = (2 : ℚ) ^ (52 : ℕ) * (2 : ℚ) ^ (Uf + 1) := two_zpow_succ_mul 52 Uf
      _ ≤ (2 : ℚ) ^ (52 : ℕ) * (2 : ℚ) ^ (ulpExponent a d) :=
          mul_le_mul_of_nonneg_left h4 (by positivity)
      _ ≤ (significand a d : ℚ) * (2 : ℚ) ^ (ulpExponent a d) :=
          mul_le_mul_of_nonneg_right h3 hp.le

/-- Rounding does not go above a representable value when the input is below
the midpoint to the next one. -/
theorem round_le (a d Mf : Nat) (Uf : ℤ) (ha : 0 < a) (hd : 0 < d)
    (hM1 : 2 ^ 52 ≤ Mf ∨ Uf = -1074) (hM2 : Mf < 2 ^ 53) (hU : -1074 ≤ Uf)
    (h : (a : ℚ) / d < ((Mf : ℚ) + 1 / 2) * (2 : ℚ) ^ Uf) :
    (significand a d : ℚ) * (2 : ℚ) ^ (ulpExponent a d) ≤ (Mf : ℚ) * (2 : ℚ) ^ Uf := by
  obtain ⟨l1, u1⟩ := log2Floor_spec a d ha hd
  have two_ne : (2 : ℚ) ≠ 0 := by norm_num
  have hpU : (0 : ℚ) < (2 : ℚ) ^ Uf := by positivity
  have hM2q : (Mf : ℚ) + 1 ≤ ((2 : ℚ) ^ (53 : ℕ)) := by exact_mod_cast hM2
  have hF : (a : ℚ) / d < (2 : ℚ) ^ (Uf + 52 + 1) := by
    have e : (2 : ℚ) ^ (Uf + 52 + 1) = (2 : ℚ) ^ (53 : ℕ) * (2 : ℚ) ^ Uf := by
      rw [← zpow_natCast, ← zpow_add₀ two_ne]
      congr 1
      push_cast
      ring
    rw [e]
    refine lt_of_lt_of_le h (mul_le_mul_of_nonneg_right ?_ hpU.le)
    linarith
  have he : log2Floor a d ≤ Uf + 52 := zpow_bracket_mono _ _ _ _ l1 le_rfl hF
  have hu : ulpExponent a d ≤ Uf := by
    unfold ulpExponent
    rcases max_cases (log2Floor a d) (-1022) with ⟨h1, _⟩ | ⟨h1, _⟩ <;> rw [h1] <;> omega
  rcases eq_or_lt_of_le hu with heq | hlt
  · have := significand_le a d Mf hd (by rw [heq]; exact h)
    rw [heq]
    exact mul_le_mul_of_nonneg_right (by exact_mod_cast this) hpU.le
  · have hge := ulpExponent_ge a d
    have hM : 2 ^ 52 ≤ Mf := by
      rcases hM1 with h1 | h1
      · exact h1
      · omega
    have hMq : ((2 : ℚ) ^ (52 : ℕ)) ≤ (Mf : ℚ) := by exact_mod_cast hM
    have h2 := significand_le_pow a d ha hd
    have h3 : (significand a d : ℚ) ≤ ((2 : ℚ) ^ (53 : ℕ)) := by exact_mod_cast h2
    have hp : (0 : ℚ) < (2 : ℚ) ^ (ulpExponent a d) := by positivity
    have h4 : (2 : ℚ) ^ (ulpExponent a d + 1) ≤ (2 : ℚ) ^ Uf :=
      zpow_le_zpow_right₀ (by norm_num) (by omega)
    calc (significand a d : ℚ) * (2 : ℚ) ^ (ulpExponent a d)
        ≤ (2 : ℚ) ^ (53 : ℕ) * (2 : ℚ) ^ (ulpExponent a d) :=
          mul_le_mul_of_nonneg_right h3 hp.le
      _ = (2 : ℚ) ^ (52 : ℕ) * (2 : ℚ) ^ (ulpExponent a d + 1) :=
          two_zpow_succ_mul 52 (ulpExponent a d)
      _ ≤ (2 : ℚ) ^ (52 : ℕ) * (2 : ℚ) ^ Uf := mul_le_mul_of_nonneg_left h4 (by positivity)
      _ ≤ (Mf : ℚ) * (2 : ℚ) ^ Uf := mul_le_mul_of_nonneg_right hMq hpU.le

/-- A non-negative exact value `n / d * 2 ^ e` is rounded as the quotient of
two naturals with that value. -/
theorem roundScaled_of_nonneg (n : ℤ) (hn : 0 ≤ n) (d : Nat) (hd : 0 < d) (e : ℤ) :
    roundScaled n d e = round false (n.natAbs * 2 ^ e.toNat) (d * 2 ^ (-e).toNat) ∧
    0 < d * 2 ^ (-e).toNat ∧
    ((n.natAbs * 2 ^ e.toNat : Nat) : ℚ) / ((d * 2 ^ (-e).toNat : Nat) : ℚ)
      = (n : ℚ) / d * (2 : ℚ) ^ e := by
  refine ⟨?_, scaled_pos d (-e) hd, ?_⟩
  · unfold roundScaled
    have : decide (n < 0) = false := by simp [hn]
    rw [this]
  · have h := scaled_quot n.natAbs d (-e)
    rw [neg_neg] at h
    rw [h, zpow_neg, div_inv_eq_mul]
    have h0 : ((n.natAbs : ℤ) : ℚ) = (n : ℚ) := by
      rw [Int.natAbs_of_nonneg hn]
    rw [Int.cast_natCast] at h0
    rw [h0]

theorem roundScaled_eq_round (n : ℤ) (hn : 0 ≤ n) (d : Nat) (hd : 0 < d) (e : ℤ)
    (a2 d2 : Nat) (hd2 : 0 < d2) (h : (n : ℚ) / d * (2 : ℚ) ^ e = (a2 : ℚ) / d2) :
    roundScaled n d e = round false a2 d2 := by
  obtain ⟨h1, h2, h3⟩ := roundScaled_of_nonneg n hn d hd e
  rw [h1]
  exact round_congr false _ _ _ _ h2 hd2 (h3.trans h)

theorem ofInt_natCast (n : Nat) : ofInt (n : ℤ) = round false n 1 := by
  unfold ofInt
  apply roundScaled_eq_round _ (by positivity) _ (by norm_num) _ _ _ (by norm_num)
  simp

/-- A value `K * 2 ^ U` with `K < 2 ^ 53` and `U ≥ -1074` is rounded to
itself. -/
theorem round_exact (a d K : Nat) (U : ℤ) (hd : 0 < d) (hK : K < 2 ^ 53) (hU : -1074 ≤ U)
    (h : (a : ℚ) / d = (K : ℚ) * (2 : ℚ) ^ U) :
    (significand a d : ℚ) * (2 : ℚ) ^ (ulpExponent a d) = (a : ℚ) / d := by
  have hdq : (0 : ℚ) < d := by exact_mod_cast hd
  by_cases ha : a = 0
  · subst ha
    simp [significand_zero]
  have hap : 0 < a := Nat.pos_of_ne_zero ha
  obtain ⟨l1, u1⟩ := log2Floor_spec a d hap hd
  have two_ne : (2 : ℚ) ≠ 0 := by norm_num
  have hpU : (0 : ℚ) < (2 : ℚ) ^ U := by positivity
  have hKq : (K : ℚ) < ((2 : ℚ) ^ (53 : ℕ)) := by exact_mod_cast hK
  have hF : (a : ℚ) / d < (2 : ℚ) ^ (U + 52 + 1) := by
    have e : (2 : ℚ) ^ (U + 52 + 1) = (2 : ℚ) ^ (53 : ℕ) * (2 : ℚ) ^ U := by
      rw [← zpow_natCast, ← zpow_add₀ two_ne]
      congr 1
      push_cast
      ring
    rw [e, h]
    exact mul_lt_mul_of_pos_right hKq hpU
  have he : log2Floor a d ≤ U + 52 := zpow_bracket_mono _ _ _ _ l1 le_rfl hF
  have hu : ulpExponent a d ≤ U := by
    unfold ulpExponent
    rcases max_cases (log2Floor a d) (-1022) with ⟨h1, _⟩ | ⟨h1, _⟩ <;> rw [h1] <;> omega
  have hp : (0 : ℚ) < (2 : ℚ) ^ (ulpExponent a d) := by positivity
  -- the value in units of the last place is the natural number N
  have hN : ((K * 2 ^ (U - ulpExponent a d).toNat : Nat) : ℚ) * (2 : ℚ) ^ (ulpExponent a d)
      = (a : ℚ) / d := by
    rw [h]
    push_cast
    rw [mul_assoc, ← zpow_natCast, ← zpow_add₀ two_ne, Int.toNat_of_nonneg (by omega)]
    congr 2
    ring
  have h1 := significand_ge a d (K * 2 ^ (U - ulpExponent a d).toNat) hd hN.le
  have h2 := significand_le a d (K * 2 ^ (U - ulpExponent a d).toNat) hd (by
    rw [← hN]
    apply mul_lt_mul_of_pos_right _ hp
    linarith)
  have h3 : significand a d = K * 2 ^ (U - ulpExponent a d).toNat := le_antisymm h2 h1
  rw [h3]
  exact hN

/-- Naturals up to `2 ^ 53` convert exactly. -/
theorem ofInt_exact (n : Nat) (hn : n ≤ 2 ^ 53) :
    ∃ M E, ofInt (n : ℤ) = fin M E ∧ 0 ≤ M ∧ (M : ℚ) * (2 : ℚ) ^ E = (n : ℚ) := by
  rw [ofInt_natCast]
  have hval : (significand n 1 : ℚ) * (2 : ℚ) ^ (ulpExponent n 1) = ((n : ℚ) / (1 : ℕ)) := by
    rcases Nat.lt_or_ge n (2 ^ 53) with h | h
    · exact round_exact n 1 n 0 (by norm_num) h (by norm_num) (by simp)
    · have : n = 2 ^ 53 := le_antisymm hn h
      subst this
      exact round_exact (2 ^ 53) 1 (2 ^ 52) 1 (by norm_num) (by norm_num) (by norm_num)
        (by norm_num)
  simp only [Nat.cast_one, div_one] at hval
  rcases round_false_cases n 1 with h | ⟨M, E, h1, h2, h3⟩
  · exfalso
    by_cases h0 : n = 0
    · subst h0
      simp [round] at h
    · refine round_false_ne_inf n 1 (Nat.pos_of_ne_zero h0) (by norm_num) ?_ h
      rw [hval]
      have : (n : ℚ) ≤ ((2 : ℚ) ^ (53 : ℕ)) := by exact_mod_cast hn
      have h2 : ((2 : ℚ) ^ (53 : ℕ)) < (2 : ℚ) ^ (1024 : ℤ) := by
        rw [← zpow_natCast]
        exact zpow_lt_zpow_right₀ (by norm_num) (by norm_num)
      linarith
  · exact ⟨M, E, h1, h2, h3.trans hval⟩

theorem align_min_left (m e1 e2 : ℤ) :
    (((m * 2 ^ (e1 - min e1 e2).toNat : ℤ)) : ℚ) * (2 : ℚ) ^ (min e1 e2)
      = (m : ℚ) * (2 : ℚ) ^ e1 := by
  push_cast
  rw [mul_assoc, ← zpow_natCast, ← zpow_add₀ (by norm_num : (2 : ℚ) ≠ 0)]
  congr 2
  have := min_le_left e1 e2
  rw [Int.toNat_of_nonneg (by omega)]
  ring

theorem align_min_right (m e1 e2 : ℤ) :
    (((m * 2 ^ (e2 - min e1 e2).toNat : ℤ)) : ℚ) * (2 : ℚ) ^ (min e1 e2)
      = (m : ℚ) * (2 : ℚ) ^ e2 := by
  rw [min_comm]
  exact align_min_left m e2 e1

/-- Sum of two exactly converted naturals: the rounding of the exact sum. -/
theorem add_ofInt (a b : Nat) (ha : a ≤ 2 ^ 53) (hb : b ≤ 2 ^ 53) :
    add (ofInt (a : ℤ)) (ofInt (b : ℤ)) = ofInt ((a + b : Nat) : ℤ) := by
  obtain ⟨M1, E1, h1, p1, v1⟩ := ofInt_exact a ha
  obtain ⟨M2, E2, h2, p2, v2⟩ := ofInt_exact b hb
  rw [h1, h2, ofInt_natCast]
  unfold add
  simp only
  apply roundScaled_eq_round _ _ _ (by norm_num) _ _ _ (by norm_num)
  · push_cast
    rw [div_one, div_one, add_mul]
    have k1 := align_min_left M1 E1 E2
    have k2 := align_min_right M2 E1 E2
    push_cast at k1 k2
    rw [k1, k2, v1, v2]
  · positivity

theorem ofInt_100 : ofInt 100 = fin 7036874417766400 (-46) := by decide

theorem ofInt_zero : ofInt 0 = fin 0 0 := by decide

/-- Quotient of two exactly converted naturals: the rounding of the exact
quotient. -/
theorem div_ofInt (S g : Nat) (hS : S ≤ 2 ^ 53) (hg : 0 < g) (hg2 : g ≤ 2 ^ 53) :
    div (ofInt (S : ℤ)) (ofInt (g : ℤ)) = round false S g := by
  obtain ⟨M1, E1, h1, p1, v1⟩ := ofInt_exact S hS
  obtain ⟨M2, E2, h2, p2, v2⟩ := ofInt_exact g hg2
  have hgq : (0 : ℚ) < g := by exact_mod_cast hg
  have hM2 : 0 < M2 := by
    rcases lt_or_eq_of_le p2 with h | h
    · exact h
    · rw [← h] at v2
      simp at v2
      linarith
  rw [h1, h2]
  unfold div
  simp only [hM2.ne', if_false, not_lt.mpr hM2.le]
  apply roundScaled_eq_round _ p1 _ (by omega) _ _ _ hg
  have hn : ((M2.natAbs : ℕ) : ℚ) = (M2 : ℚ) := by
    have h0 : ((M2.natAbs : ℤ) : ℚ) = (M2 : ℚ) := by rw [Int.natAbs_of_nonneg p2]
    rwa [Int.cast_natCast] at h0
  rw [hn, ← v1, ← v2, zpow_sub₀ (by norm_num : (2 : ℚ) ≠ 0)]
  have hM2q : (M2 : ℚ) ≠ 0 := by exact_mod_cast hM2.ne'
  have hp : (2 : ℚ) ^ E2 ≠ 0 := by positivity
  field_simp

/-- Product of a non-negative finite value with 100: the rounding of the exact
product. -/
theorem mul_100 (M E : ℤ) (hM : 0 ≤ M) :
    ∃ A D : Nat, 0 < D ∧ mul (fin M E) (ofInt 100) = round false A D ∧
      (A : ℚ) / D = (M : ℚ) * (2 : ℚ) ^ E * 100 := by
  rw [ofInt_100]
  unfold mul
  simp only
  obtain ⟨h1, h2, h3⟩ := roundScaled_of_nonneg (M * 7036874417766400) (by positivity) 1
    (by norm_num) (E + -46)
  refine ⟨_, _, h2, h1, ?_⟩
  rw [h3, zpow_add₀ (by norm_num : (2 : ℚ) ≠ 0)]
  push_cast
  have : (2 : ℚ) ^ (-46 : ℤ) = 1 / 70368744177664 := by norm_num [zpow_neg]
  rw [this]
  ring

theorem le_100_of_round (A D : Nat) (hD : 0 < D) (h : (100 : ℚ) ≤ (A : ℚ) / D) :
    le (ofInt 100) (round false A D) = true := by
  have hDq : (0 : ℚ) < D := by exact_mod_cast hD
  have hA : 0 < A := by
    rcases Nat.eq_zero_or_pos A with h0 | h0
    · subst h0
      simp at h
      linarith
    · exact h0
  have e46 : (2 : ℚ) ^ (-46 : ℤ) = 1 / 70368744177664 := by norm_num [zpow_neg]
  have hb := round_ge A D 7036874417766400 (-46) hA hD (by norm_num) (by norm_num) (by norm_num)
    (by rw [e46]; norm_num; linarith)
  rw [ofInt_100]
  rcases round_false_cases A D with hi | ⟨M, E, h1, h2, h3⟩
  · rw [hi]
    rfl
  · rw [h1, le_fin_iff, h3]
    exact_mod_cast hb

theorem not_le_100_of_round (A D : Nat) (hD : 0 < D)
    (h : (A : ℚ) / D ≤ 100 * (((2 : ℚ) ^ (53 : ℕ) - 1) / (2 : ℚ) ^ (53 : ℕ))) :
    le (ofInt 100) (round false A D) = false := by
  have e46 : (2 : ℚ) ^ (-46 : ℤ) = 1 / 70368744177664 := by norm_num [zpow_neg]
  rw [ofInt_100]
  by_cases hA : A = 0
  · subst hA
    have : round false 0 D = fin 0 0 := by simp [round]
    rw [this]
    decide
  have hb := round_le A D 7036874417766399 (-46) (Nat.pos_of_ne_zero hA) hD
    (Or.inl (by norm_num)) (by norm_num) (by norm_num)
    (by rw [e46]; norm_num at h ⊢; linarith)
  rcases round_false_cases A D with hi | ⟨M, E, h1, h2, h3⟩
  · exfalso
    refine round_false_ne_inf A D (Nat.pos_of_ne_zero hA) hD ?_ hi
    refine lt_of_le_of_lt hb ?_
    rw [e46]
    have : (1 : ℚ) ≤ (2 : ℚ) ^ (1024 : ℤ) := one_le_zpow₀ (by norm_num) (by norm_num)
    have h100 : ((7036874417766399 : ℕ) : ℚ) * (1 / 70368744177664) < 100 := by norm_num
    have : (2 : ℚ) ^ (7 : ℤ) ≤ (2 : ℚ) ^ (1024 : ℤ) := zpow_le_zpow_right₀ (by norm_num) (by norm_num)
    norm_num at this h100 ⊢
  · rw [h1]
    rw [← Bool.not_eq_true, le_fin_iff, h3, not_le]
    refine lt_of_le_of_lt hb ?_
    rw [e46]
    norm_num

/-- The goal test on exact natural totals: progress reaches 100 exactly when
the total reaches the goal. -/
theorem progress_ge_100_iff (S g : Nat) (hS : S ≤ 2 ^ 53) (hg : 0 < g) (hg2 : g ≤ 2 ^ 53) :
    le (ofInt 100) (mul (div (ofInt (S : ℤ)) (ofInt (g : ℤ))) (ofInt 100)) = true ↔ g ≤ S := by
  rw [div_ofInt S g hS hg hg2]
  have hgq : (0 : ℚ) < g := by exact_mod_cast hg
  constructor
  · intro h
    by_contra hlt
    push_neg at hlt
    have hSg : (S : ℚ) / g ≤ ((2 : ℚ) ^ (53 : ℕ) - 1) / (2 : ℚ) ^ (53 : ℕ) := by
      rw [div_le_div_iff₀ hgq (by positivity)]
      have h1 : (S : ℚ) + 1 ≤ g := by exact_mod_cast hlt
      have h2 : (g : ℚ) ≤ (2 : ℚ) ^ (53 : ℕ) := by exact_mod_cast hg2
      have h3 : (0 : ℚ) ≤ S := by positivity
      nlinarith
    have hfin : ∃ M E, round false S g = fin M E ∧ 0 ≤ M ∧
        (M : ℚ) * (2 : ℚ) ^ E ≤ ((2 : ℚ) ^ (53 : ℕ) - 1) / (2 : ℚ) ^ (53 : ℕ) := by
      by_cases hS0 : S = 0
      · subst hS0
        refine ⟨0, 0, by simp [round], le_rfl, ?_⟩
        norm_num
      have e53 : (2 : ℚ) ^ (-53 : ℤ) = 1 / 9007199254740992 := by norm_num [zpow_neg]
      have hb := round_le S g 9007199254740991 (-53) (Nat.pos_of_ne_zero hS0) hg
        (Or.inl (by norm_num)) (by norm_num) (by norm_num)
        (by rw [e53]; norm_num at hSg ⊢; linarith)
      rcases round_false_cases S g with hi | ⟨M, E, h1, h2, h3⟩
      · exfalso
        refine round_false_ne_inf S g (Nat.pos_of_ne_zero hS0) hg ?_ hi
        refine lt_of_le_of_lt hb ?_
        rw [e53]
        have : (2 : ℚ) ^ (0 : ℤ) ≤ (2 : ℚ) ^ (1024 : ℤ) :=
          zpow_le_zpow_right₀ (by norm_num) (by norm_num)
        norm_num at this ⊢
      · refine ⟨M, E, h1, h2, ?_⟩
        rw [h3]
        refine le_trans hb ?_
        rw [e53]
        norm_num
    obtain ⟨M, E, h1, h2, h3⟩ := hfin
    rw [h1] at h
    obtain ⟨A, D, hD, hm, hr⟩ := mul_100 M E h2
    rw [hm] at h
    have := not_le_100_of_round A D hD (by rw [hr]; linarith)
    rw [this] at h
    exact Bool.false_ne_true h
  · intro hle
    have hS0 : 0 < S := lt_of_lt_of_le hg hle
    have hq : (1 : ℚ) ≤ (S : ℚ) / g := by
      rw [le_div_iff₀ hgq, one_mul]
      exact_mod_cast hle
    have e52 : (2 : ℚ) ^ (-52 : ℤ) = 1 / 4503599627370496 := by norm_num [zpow_neg]
    have hb := round_ge S g 4503599627370496 (-52) hS0 hg (by norm_num) (by norm_num)
      (by norm_num) (by rw [e52]; norm_num; exact hq)
    rcases round_false_cases S g with hi | ⟨M, E, h1, h2, h3⟩
    · rw [hi, ofInt_100]
      rfl
    · rw [h1]
      obtain ⟨A, D, hD, hm, hr⟩ := mul_100 M E h2
      rw [hm]
      apply le_100_of_round A D hD
      rw [hr, h3]
      rw [e52] at hb
      norm_num at hb
      linarith

end Float64

/-! ## Theorems: the parser -/

/-- C1: on minute-only inputs the digits are taken by the first (hours) group
of the pattern, so `ParseDuration` returns `n` hours and no minutes: "30m" gives
30 hours, "45m" gives 45 hours and "90m" gives 90 hours, not `n div 60` hours
and `n mod 60` minutes. -/
theorem ParseDuration_minutes_only_read_as_hours :
    ParseDuration "30m" = (⟨30, 0, true⟩, none) ∧
    ParseDuration "45m" = (⟨45, 0, true⟩, none) ∧
    ParseDuration "90m" = (⟨90, 0, true⟩, none) ∧
    FindStringSubmatch timeRegex "30m".data = ["30m".data, "30".data, []] := by
  decide

/-- C2: the round trip through `FormatDuration` changes a result with zero
hours and positive minutes: "0h30m" and "0.5h" parse to 0 hours 30 minutes,
which is formatted as "30m", which parses to 30 hours 0 minutes. -/
theorem ParseDuration_FormatDuration_round_trip_breaks :
    ParseDuration "0h30m" = (⟨0, 30, true⟩, none) ∧
    ParseDuration "0.5h" = (⟨0, 30, true⟩, none) ∧
    FormatDuration (ParseDuration "0h30m").1 = "30m" ∧
    ParseDuration (FormatDuration (ParseDuration "0h30m").1) = (⟨30, 0, true⟩, none) ∧
    ParseDuration (FormatDuration (ParseDuration "0.5h").1) = (⟨30, 0, true⟩, none) := by
  decide

/-- C3: `ParseDuration` tests the suffix before lower-casing, so the upper-case
forms "8X" and "3 TIMES", which `IsCountBased` accepts, are sent to the duration
branch and rejected with the invalid-duration-format error. -/
theorem ParseDuration_upper_case_count_rejected :
    IsCountBased "8X" = true ∧
    ParseDuration "8X" = (⟨0, 0, false⟩, some .invalidDurationFormat) ∧
    IsCountBased "3 TIMES" = true ∧
    ParseDuration "3 TIMES" = (⟨0, 0, false⟩, some .invalidDurationFormat) ∧
    parseCount "8X".data = (⟨8, 0, true⟩, none) ∧
    parseCount "3 TIMES".data = (⟨3, 0, true⟩, none) := by
  decide

/-- C4: the `x` branch of `parseCount` does not trim the remainder, so "8 x" is
rejected with the invalid-count error although the trimmed remainder is the
integer 8; the `times` branch trims, and "8 times" gives the count 8. The
inputs "0x" and "-3x" are rejected. -/
theorem parseCount_x_branch_does_not_trim :
    ParseDuration "8 x" = (⟨0, 0, false⟩, some .invalidCountFormat) ∧
    Atoi (TrimSpace (TrimSuffix "8 x".data ['x'])) = some 8 ∧
    ParseDuration "8 times" = (⟨8, 0, true⟩, none) ∧
    ParseDuration "0x" = (⟨0, 0, false⟩, some .invalidCountFormat) ∧
    ParseDuration "-3x" = (⟨0, 0, false⟩, some .invalidCountFormat) := by
  decide

/-! ## Theorems: the window of a summary -/

/-- A loop that appends the elements satisfying a test is a filter. -/
theorem foldl_append_if_eq_filter {α : Type} (p : α → Prop) [DecidablePred p]
    (l init : List α) :
    l.foldl (fun acc x => if p x then acc ++ [x] else acc) init
      = init ++ l.filter (fun x => decide (p x)) := by
  induction l generalizing init with
  | nil => simp
  | cons x xs ih =>
    by_cases h : p x
    · simp [List.foldl_cons, ih, h, List.filter_cons]
    · simp [List.foldl_cons, ih, h, List.filter_cons]

theorem weekLogs_eq_filter (logs : List Log) (startDate endDate : Time) :
    weekLogs logs startDate endDate = logs.filter (insideWindow startDate endDate) := by
  unfold weekLogs
  rw [foldl_append_if_eq_filter]
  simp only [List.nil_append]
  congr 1
  funext log
  simp [insideWindow, Time.After, Time.Before]

theorem GetLogsByHabit_eq_filter (s : Store) (habitName : String) (startDate endDate : Time) :
    s.GetLogsByHabit habitName startDate endDate
      = s.logs.filter (fun log => decide (log.HabitName = habitName) &&
          insideWindow startDate endDate log) := by
  unfold Store.GetLogsByHabit
  rw [foldl_append_if_eq_filter]
  simp only [List.nil_append]
  congr 1
  funext log
  simp [insideWindow, Time.After, Time.Before]

/-- C7: the window of `calculateHabitSummary` and of `Store.GetLogsByHabit` is
open at both ends: the logs taken into account are exactly those with
`startDate < LoggedAt < endDate`, in their original order, the summary is a
function of those logs only, and a log stamped exactly at the start or at the
end of the window, wherever it stands in the list, changes neither the summary
(total time, total count, goal progress, streak) nor the logs returned by the
store. -/
theorem window_is_exclusive_at_both_ends (habit : Habit) (logs : List Log)
    (s : Store) (habitName : String) (startDate endDate : Time) :
    weekLogs logs startDate endDate = logs.filter (insideWindow startDate endDate) ∧
    s.GetLogsByHabit habitName startDate endDate
      = s.logs.filter (fun log => decide (log.HabitName = habitName) &&
          insideWindow startDate endDate log) ∧
    calculateHabitSummary habit logs startDate endDate
      = calculateHabitSummary habit (logs.filter (insideWindow startDate endDate))
          startDate endDate ∧
    (∀ (before after : List Log) (b : Log),
      (b.LoggedAt.unixNano = startDate.unixNano ∨ b.LoggedAt.unixNano = endDate.unixNano) →
      calculateHabitSummary habit (before ++ b :: after) startDate endDate
        = calculateHabitSummary habit (before ++ after) startDate endDate ∧
      ({ s with logs := before ++ b :: after } : Store).GetLogsByHabit habitName startDate endDate
        = ({ s with logs := before ++ after } : Store).GetLogsByHabit habitName
            startDate endDate) := by
  refine ⟨weekLogs_eq_filter _ _ _, GetLogsByHabit_eq_filter _ _ _ _, ?_, ?_⟩
  · unfold calculateHabitSummary
    simp only [weekLogs_eq_filter, List.filter_filter, Bool.and_self]
  · intro before after b hb
    have hout : insideWindow startDate endDate b = false := by
      unfold insideWindow
      rcases hb with h | h <;> simp [h]
    constructor
    · unfold calculateHabitSummary
      simp only [weekLogs_eq_filter, List.filter_append, List.filter_cons, hout]
      simp
    · simp only [GetLogsByHabit_eq_filter, List.filter_append, List.filter_cons, hout]
      simp

/-! ## Theorems: decimal digits and dates -/

/-- The decimal digit character of a number below ten. -/
theorem digitChar_spec (k : Nat) (hk : k < 10) :
    (Char.ofNat (48 + k)).toNat = 48 + k ∧ (Char.ofNat (48 + k)).isDigit = true ∧
    Char.ofNat (48 + k) ≠ '-' := by
  interval_cases k <;> decide

theorem natDigitsAux_append (fuel : Nat) : ∀ (n : Nat) (acc : List Char),
    natDigitsAux fuel n acc = natDigitsAux fuel n [] ++ acc := by
  induction fuel with
  | zero => intro n acc; simp [natDigitsAux]
  | succ fuel ih =>
    intro n acc
    simp only [natDigitsAux]
    by_cases h : n / 10 = 0
    · simp [h]
    · simp only [h, if_false]
      rw [ih (n / 10) (Char.ofNat (48 + n % 10) :: acc), ih (n / 10) [Char.ofNat (48 + n % 10)]]
      simp

theorem natDigitsAux_fuel (fuel1 : Nat) : ∀ (fuel2 n : Nat), n < fuel1 → n < fuel2 →
    natDigitsAux fuel1 n [] = natDigitsAux fuel2 n [] := by
  induction fuel1 with
  | zero => intro fuel2 n h; omega
  | succ f1 ih =>
    intro fuel2 n h1 h2
    obtain ⟨f2, rfl⟩ : ∃ f2, fuel2 = f2 + 1 := ⟨fuel2 - 1, by omega⟩
    simp only [natDigitsAux]
    by_cases h0 : n / 10 = 0
    · simp [h0]
    · simp only [h0, if_false]
      rw [natDigitsAux_append f1, natDigitsAux_append f2, ih f2 (n / 10) (by omega) (by omega)]

/-- Decimal digits, most significant first: the last digit follows the digits
of the tenth. -/
theorem formatNat_eq (n : Nat) :
    formatNat n = if n < 10 then [Char.ofNat (48 + n)]
      else formatNat (n / 10) ++ [Char.ofNat (48 + n % 10)] := by
  by_cases h : n < 10
  · have h0 : n / 10 = 0 := by omega
    have h1 : n % 10 = n := by omega
    simp [formatNat, natDigitsAux, h, h0, h1]
  · have h0 : ¬ n / 10 = 0 := by omega
    have e1 : formatNat n = natDigitsAux n (n / 10) [Char.ofNat (48 + n % 10)] := by
      unfold formatNat
      simp only [natDigitsAux, h0, if_false]
    have e2 : formatNat (n / 10) = natDigitsAux (n / 10 + 1) (n / 10) [] := rfl
    rw [e1, e2, natDigitsAux_append n,
      natDigitsAux_fuel n (n / 10 + 1) (n / 10) (by omega) (by omega)]
    simp [h]

theorem digitsValue_append (xs : List Char) (c : Char) :
    digitsValue (xs ++ [c]) = 10 * digitsValue xs + (c.toNat - 48) := by
  unfold digitsValue
  rw [List.foldl_append]
  rfl

/-- The digits of `n` are a non-empty run of ASCII digits with value `n`. -/
theorem formatNat_spec (n : Nat) :
    formatNat n ≠ [] ∧ (formatNat n).all Char.isDigit = true ∧ digitsValue (formatNat n) = n := by
  induction n using Nat.strong_induction_on with
  | _ n ih =>
    rw [formatNat_eq]
    by_cases h : n < 10
    · simp only [h, if_true]
      obtain ⟨a, b, _⟩ := digitChar_spec n h
      refine ⟨by simp, by simp [b], ?_⟩
      simp [digitsValue, a]
    · simp only [h, if_false]
      obtain ⟨i1, i2, i3⟩ := ih (n / 10) (by omega)
      obtain ⟨a, b, _⟩ := digitChar_spec (n % 10) (by omega)
      refine ⟨by simp, ?_, ?_⟩
      · rw [List.all_append, i2]
        simp [b]
      · rw [digitsValue_append, i3, a]
        omega

theorem digitsValue_zeros (k : Nat) (ds : List Char) :
    digitsValue (List.replicate k '0' ++ ds) = digitsValue ds := by
  unfold digitsValue
  rw [List.foldl_append]
  congr 1
  induction k with
  | zero => rfl
  | succ k ih =>
    rw [List.replicate_succ, List.foldl_cons]
    simpa using ih

/-- The padded digits of `appendInt` determine the number. -/
theorem appendInt_injective (x y : Int) (w : Nat) (h : Time.appendInt x w = Time.appendInt y w) :
    x = y := by
  unfold Time.appendInt at h
  simp only at h
  have hx := formatNat_spec x.natAbs
  have hy := formatNat_spec y.natAbs
  have val : ∀ z : Int, digitsValue (List.replicate (w - (formatNat z.natAbs).length) '0'
      ++ formatNat z.natAbs) = z.natAbs := fun z => by
    rw [digitsValue_zeros]
    exact (formatNat_spec z.natAbs).2.2
  have head : ∀ z : Int, ∀ rest, List.replicate (w - (formatNat z.natAbs).length) '0'
      ++ formatNat z.natAbs ≠ '-' :: rest := by
    intro z rest hc
    have hall : (List.replicate (w - (formatNat z.natAbs).length) '0'
        ++ formatNat z.natAbs).all Char.isDigit = true := by
      rw [List.all_append, (formatNat_spec z.natAbs).2.1]
      simp
    rw [hc] at hall
    simp at hall
  by_cases hx0 : x < 0 <;> by_cases hy0 : y < 0
  · simp only [hx0, hy0, if_true, List.cons.injEq, true_and] at h
    have := congrArg digitsValue h
    rw [val, val] at this
    omega
  · simp only [hx0, hy0, if_true, if_false] at h
    exact absurd h.symm (head y _)
  · simp only [hx0, hy0, if_true, if_false] at h
    exact absurd h (head x _)
  · simp only [hx0, hy0, if_false] at h
    have := congrArg digitsValue h
    rw [val, val] at this
    omega

theorem civil_bounds (days : Int) :
    1 ≤ (Time.civil days).2.1 ∧ (Time.civil days).2.1 ≤ 12 ∧
    1 ≤ (Time.civil days).2.2 ∧ (Time.civil days).2.2 ≤ 31 := by
  unfold Time.civil
  simp only
  split_ifs <;> omega

theorem appendInt_two_length (x : Int) (h1 : 1 ≤ x) (h2 : x ≤ 31) :
    (Time.appendInt x 2).length = 2 := by
  interval_cases x <;> decide

/-- The text of `Format("2006-01-02")` determines year, month and day. -/
theorem FormatDate_eq_iff (t1 t2 : Time) :
    t1.FormatDate = t2.FormatDate ↔ t1.Date = t2.Date := by
  constructor
  · intro h
    unfold Time.FormatDate Time.layoutDate Time.Date at h
    replace h := congrArg String.data h
    simp only [List.append_assoc] at h
    obtain ⟨m1, m2, d1, d2⟩ := civil_bounds t1.localDay
    obtain ⟨n1, n2, e1, e2⟩ := civil_bounds t2.localDay
    have lm1 := appendInt_two_length _ m1 (by omega)
    have ld1 := appendInt_two_length _ d1 d2
    have lm2 := appendInt_two_length _ n1 (by omega)
    have ld2 := appendInt_two_length _ e1 e2
    obtain ⟨hy, ht⟩ := List.append_inj' h (by simp [lm1, ld1, lm2, ld2])
    simp only [List.singleton_append, List.cons.injEq, true_and] at ht
    obtain ⟨hm, ht2⟩ := List.append_inj ht (by rw [lm1, lm2])
    simp only [List.cons.injEq, true_and] at ht2
    have y := appendInt_injective _ _ _ hy
    have m := appendInt_injective _ _ _ hm
    have d := appendInt_injective _ _ _ ht2
    exact Prod.ext y (Prod.ext m d)
  · intro h
    unfold Time.FormatDate
    rw [h]

/-! ## Theorems: the streak -/

/-- Inserting keys one by one into a set kept as a duplicate-free list. -/
theorem foldl_insert_keys (days : List String) (init : List String) (hinit : init.Nodup) :
    (days.foldl (fun (u : List String) d => if d ∈ u then u else u ++ [d]) init).Nodup ∧
    (days.foldl (fun (u : List String) d => if d ∈ u then u else u ++ [d]) init).toFinset
      = init.toFinset ∪ days.toFinset := by
  induction days generalizing init with
  | nil => simp [hinit]
  | cons d ds ih =>
    simp only [List.foldl_cons]
    by_cases h : d ∈ init
    · simp only [h, if_true]
      obtain ⟨h1, h2⟩ := ih init hinit
      refine ⟨h1, ?_⟩
      rw [h2]
      ext x
      simp only [Finset.mem_union, List.mem_toFinset, List.mem_cons]
      constructor
      · rintro (hx | hx)
        · exact Or.inl hx
        · exact Or.inr (Or.inr hx)
      · rintro (hx | hx | hx)
        · exact Or.inl hx
        · exact Or.inl (hx ▸ h)
        · exact Or.inr hx
    · simp only [h, if_false]
      have hn : (init ++ [d]).Nodup := by
        rw [List.nodup_append]
        refine ⟨hinit, List.nodup_singleton d, ?_⟩
        intro a ha hb
        simp only [List.mem_singleton] at hb
        exact h (hb ▸ ha)
      obtain ⟨h1, h2⟩ := ih (init ++ [d]) hn
      refine ⟨h1, ?_⟩
      rw [h2]
      ext x
      simp only [Finset.mem_union, List.mem_toFinset, List.mem_append, List.mem_singleton,
        List.mem_cons]
      tauto

/-- The streak is the number of distinct day texts of the logs. -/
theorem calculateStreak_eq_card (logs : List Log) :
    calculateStreak logs
      = ((logs.map (fun log => log.LoggedAt.FormatDate)).toFinset.card : Int) := by
  unfold calculateStreak
  by_cases h0 : logs.length = 0
  · have : logs = [] := List.length_eq_zero.mp h0
    subst this
    simp
  · simp only [h0, if_false]
    have hf : logs.foldl (fun (uniqueDays : List String) log =>
          if log.LoggedAt.FormatDate ∈ uniqueDays then uniqueDays
          else uniqueDays ++ [log.LoggedAt.FormatDate]) []
        = (logs.map (fun log => log.LoggedAt.FormatDate)).foldl
            (fun (u : List String) d => if d ∈ u then u else u ++ [d]) [] := by
      rw [List.foldl_map]
    rw [hf]
    obtain ⟨h1, h2⟩ := foldl_insert_keys (logs.map (fun log => log.LoggedAt.FormatDate)) []
      List.nodup_nil
    rw [← List.toFinset_card_of_nodup h1, h2]
    simp

/-- The number of distinct day texts is the number of distinct dates. -/
theorem card_FormatDate_eq_card_Date (logs : List Log) :
    (logs.map (fun log => log.LoggedAt.FormatDate)).toFinset.card
      = (logs.map (fun log => log.LoggedAt.Date)).toFinset.card := by
  have e : logs.map (fun log => log.LoggedAt.FormatDate)
      = (logs.map (fun log => log.LoggedAt.Date)).map Time.layoutDate := by
    rw [List.map_map]
    rfl
  have e2 : ((logs.map (fun log => log.LoggedAt.Date)).map Time.layoutDate).toFinset
      = ((logs.map (fun log => log.LoggedAt.Date)).toFinset).image Time.layoutDate := by
    ext x
    simp
  rw [e, e2]
  apply Finset.card_image_of_injOn
  intro x hx y hy hxy
  simp only [Finset.mem_coe, List.mem_toFinset, List.mem_map] at hx hy
  obtain ⟨a, _, rfl⟩ := hx
  obtain ⟨b, _, rfl⟩ := hy
  exact (FormatDate_eq_iff a.LoggedAt b.LoggedAt).mp hxy

/-- C8: `calculateStreak` is the number of distinct calendar days (year, month
and day of the log timestamp, the key being their text `Format("2006-01-02")`)
among the logs, however many logs share a day; it is 0 for no logs, at most the
number of logs, and 3 when the logs fall on 3 distinct days. -/
theorem calculateStreak_counts_distinct_days (logs : List Log) :
    calculateStreak logs
      = ((logs.map (fun log => log.LoggedAt.Date)).toFinset.card : Int) ∧
    calculateStreak logs
      = ((logs.map (fun log => log.LoggedAt.FormatDate)).toFinset.card : Int) ∧
    calculateStreak [] = 0 ∧
    calculateStreak logs ≤ (logs.length : Int) ∧
    ((logs.map (fun log => log.LoggedAt.Date)).toFinset.card = 3 →
      calculateStreak logs = 3) := by
  have key : calculateStreak logs
      = ((logs.map (fun log => log.LoggedAt.Date)).toFinset.card : Int) := by
    rw [calculateStreak_eq_card, card_FormatDate_eq_card_Date]
  refine ⟨key, calculateStreak_eq_card logs, by simp [calculateStreak], ?_, ?_⟩
  · rw [calculateStreak_eq_card]
    have := List.toFinset_card_le (logs.map (fun log => log.LoggedAt.FormatDate))
    simp only [List.length_map] at this
    exact_mod_cast this
  · intro h
    rw [key, h]
    rfl

/-- Witness for C7: a log stamped exactly at the window start, between two logs
inside the window, leaves the summary as it is. -/
theorem window_is_exclusive_at_both_ends_witness :
    calculateHabitSummary ⟨1, "water", "", "1x", 8, "count", ⟨0, 0⟩⟩
        ([⟨1, 1, "water", "", 2, ⟨5, 0⟩, ""⟩] ++
          (⟨2, 1, "water", "", 3, ⟨0, 0⟩, ""⟩ : Log) :: [⟨3, 1, "water", "", 4, ⟨7, 0⟩, ""⟩])
        ⟨0, 0⟩ ⟨10, 0⟩
      = calculateHabitSummary ⟨1, "water", "", "1x", 8, "count", ⟨0, 0⟩⟩
        ([⟨1, 1, "water", "", 2, ⟨5, 0⟩, ""⟩] ++ [⟨3, 1, "water", "", 4, ⟨7, 0⟩, ""⟩])
        ⟨0, 0⟩ ⟨10, 0⟩ :=
  ((window_is_exclusive_at_both_ends ⟨1, "water", "", "1x", 8, "count", ⟨0, 0⟩⟩ []
      ⟨"", [], [], []⟩ "water" ⟨0, 0⟩ ⟨10, 0⟩).2.2.2
    [⟨1, 1, "water", "", 2, ⟨5, 0⟩, ""⟩] [⟨3, 1, "water", "", 4, ⟨7, 0⟩, ""⟩]
    ⟨2, 1, "water", "", 3, ⟨0, 0⟩, ""⟩ (Or.inl rfl)).1

/-- Witness for C8: four logs on three distinct days give a streak of 3. -/
theorem calculateStreak_counts_distinct_days_witness :
    calculateStreak
      [⟨1, 1, "read", "30m", 0, ⟨0, 0⟩, ""⟩,
       ⟨2, 1, "read", "30m", 0, ⟨3600000000000, 0⟩, ""⟩,
       ⟨3, 1, "read", "30m", 0, ⟨86400000000000, 0⟩, ""⟩,
       ⟨4, 1, "read", "30m", 0, ⟨172800000000000, 0⟩, ""⟩] = 3 :=
  (calculateStreak_counts_distinct_days _).2.2.2.2 (by decide)

/-! ## Theorems: the week -/

/-- In UTC `getWeekStart` is the latest Monday midnight not after `t`: its
weekday is Monday, its wall clock is 00:00:00.000000000, it is not after `t`, and
`t` is less than 7 days after it. -/
theorem getWeekStart_utc (t : Time) (h : t.offset = 0) :
    (getWeekStart t).Weekday = 1 ∧ (getWeekStart t).secondOfDay = 0 ∧
    (getWeekStart t).unixNano % 1000000000 = 0 ∧
    (getWeekStart t).unixNano ≤ t.unixNano ∧
    t.unixNano < ((getWeekStart t).AddDays 7).unixNano := by
  unfold getWeekStart Time.Truncate Time.AddDays Time.Weekday Time.localDay Time.secondOfDay
    Time.Hour Time.unixToZero Time.nanosPerDay Time.Hour
  simp only [h]
  norm_num
  split_ifs <;> omega

/-- C10: `Truncate(24 * time.Hour)` rounds the absolute time down, so the week
start is a midnight of UTC, not of the zone of `t`. For `t` = Monday 1 January
2024, 03:00 at UTC+05:30 (Unix second 1704058200) `getWeekStart` returns Unix
second 1703980800, which in that zone is Sunday 31 December 2023, 05:30: its
weekday is Sunday (0) and its wall clock is 19800 seconds past midnight. -/
theorem getWeekStart_is_not_local_monday_midnight :
    (Time.mk (1704058200 * 1000000000) 19800).Weekday = 1 ∧
    (Time.mk (1704058200 * 1000000000) 19800).FormatDate = "2024-01-01" ∧
    getWeekStart (Time.mk (1704058200 * 1000000000) 19800)
      = Time.mk (1703980800 * 1000000000) 19800 ∧
    (getWeekStart (Time.mk (1704058200 * 1000000000) 19800)).Weekday = 0 ∧
    (getWeekStart (Time.mk (1704058200 * 1000000000) 19800)).secondOfDay = 19800 ∧
    (getWeekStart (Time.mk (1704058200 * 1000000000) 19800)).FormatDate = "2023-12-31" := by
  decide

/-- Outside UTC the week window is not aligned with the calendar days of the
zone: at `now` = Sunday 7 January 2024, 05:00 at UTC+05:30 the window runs from
Sunday 31 December 2023, 05:30 to Sunday 7 January 2024, 05:30 and eight logs of
one habit, one on each day from 31 December (06:00) to 7 January (04:00), give a
streak of 8. -/
theorem weekly_streak_of_eight_outside_utc :
    ((CalculateWeeklySummary (Time.mk (1704583800 * 1000000000) 19800)
        [⟨1, "read", "", "30m", 0, "duration", ⟨0, 0⟩⟩]
        (fun _ =>
          [⟨1, 1, "read", "1h", 0, ⟨1703982600 * 1000000000, 19800⟩, ""⟩,
           ⟨2, 1, "read", "1h", 0, ⟨1704090600 * 1000000000, 19800⟩, ""⟩,
           ⟨3, 1, "read", "1h", 0, ⟨1704177000 * 1000000000, 19800⟩, ""⟩,
           ⟨4, 1, "read", "1h", 0, ⟨1704263400 * 1000000000, 19800⟩, ""⟩,
           ⟨5, 1, "read", "1h", 0, ⟨1704349800 * 1000000000, 19800⟩, ""⟩,
           ⟨6, 1, "read", "1h", 0, ⟨1704436200 * 1000000000, 19800⟩, ""⟩,
           ⟨7, 1, "read", "1h", 0, ⟨1704522600 * 1000000000, 19800⟩, ""⟩,
           ⟨8, 1, "read", "1h", 0, ⟨1704580200 * 1000000000, 19800⟩, ""⟩])).Habits.map
      (fun summary => summary.Streak)) = [8] := by
  decide

theorem weekly_habits_eq_map (now : Time) (habits : List Habit) (logsByHabit : String → List Log) :
    (CalculateWeeklySummary now habits logsByHabit).Habits
      = habits.map (fun habit => calculateHabitSummary habit (logsByHabit habit.Name)
          (getWeekStart now) ((getWeekStart now).AddDays 7)) := by
  unfold CalculateWeeklySummary
  simp only
  have key : ∀ (l : List Habit) (acc : List Summary × Float64),
      (l.foldl (fun (acc : List Summary × Float64) habit =>
        (acc.1 ++ [calculateHabitSummary habit (logsByHabit habit.Name) (getWeekStart now)
            ((getWeekStart now).AddDays 7)],
          Float64.add acc.2 (calculateHabitSummary habit (logsByHabit habit.Name)
            (getWeekStart now) ((getWeekStart now).AddDays 7)).TotalTime)) acc).1
        = acc.1 ++ l.map (fun habit => calculateHabitSummary habit (logsByHabit habit.Name)
          (getWeekStart now) ((getWeekStart now).AddDays 7)) := by
    intro l
    induction l with
    | nil => intro acc; simp
    | cons x xs ih => intro acc; simp only [List.foldl_cons, ih, List.map_cons]; simp
  rw [key]
  simp

/-- The week start is a whole number of 24 hour days after the Unix epoch. -/
theorem getWeekStart_unixNano (t : Time) :
    (getWeekStart t).unixNano % 86400000000000 = 0 ∧ (getWeekStart t).offset = t.offset := by
  unfold getWeekStart Time.Truncate Time.AddDays Time.Hour Time.unixToZero Time.nanosPerDay
    Time.Hour
  simp only
  constructor
  · norm_num
    omega
  · norm_num

/-- Inside a window of seven days that starts at a midnight of their zone, the
logs fall on seven calendar days. -/
theorem localDay_in_week (S t : Time) (hS : S.unixNano % 86400000000000 = 0)
    (hmid : S.secondOfDay = 0) (hoff : t.offset = S.offset)
    (h1 : S.unixNano < t.unixNano) (h2 : t.unixNano < (S.AddDays 7).unixNano) :
    S.localDay ≤ t.localDay ∧ t.localDay ≤ S.localDay + 6 := by
  unfold Time.secondOfDay at hmid
  unfold Time.AddDays Time.nanosPerDay Time.Hour at h2
  simp only at h2
  unfold Time.localDay
  rw [hoff]
  omega

theorem FormatDate_eq (t : Time) :
    t.FormatDate = (Time.mk (t.localDay * 86400000000000) 0).FormatDate := by
  unfold Time.FormatDate Time.Date
  have : (Time.mk (t.localDay * 86400000000000) 0).localDay = t.localDay := by
    unfold Time.localDay
    simp only
    omega
  rw [this]

/-- C9 (as amended): when the week start is a midnight of the zone of the
current time and the logs inside the week window carry that zone, every habit
summary of `CalculateWeeklySummary` has a streak of at most 7. -/
theorem weekly_streak_at_most_seven (now : Time) (habits : List Habit)
    (logsByHabit : String → List Log)
    (hmid : (getWeekStart now).secondOfDay = 0)
    (hzone : ∀ habit ∈ habits, ∀ log ∈ logsByHabit habit.Name,
      insideWindow (getWeekStart now) ((getWeekStart now).AddDays 7) log = true →
        log.LoggedAt.offset = now.offset) :
    ∀ summary ∈ (CalculateWeeklySummary now habits logsByHabit).Habits, summary.Streak ≤ 7 := by
  intro summary hs
  rw [weekly_habits_eq_map] at hs
  obtain ⟨habit, hh, rfl⟩ := List.mem_map.mp hs
  obtain ⟨hS, hoff⟩ := getWeekStart_unixNano now
  have hstreak : (calculateHabitSummary habit (logsByHabit habit.Name) (getWeekStart now)
      ((getWeekStart now).AddDays 7)).Streak
      = calculateStreak ((logsByHabit habit.Name).filter
          (insideWindow (getWeekStart now) ((getWeekStart now).AddDays 7))) := by
    simp only [calculateHabitSummary, weekLogs_eq_filter]
  rw [hstreak, calculateStreak_eq_card]
  set S := getWeekStart now with hSdef
  set logs := (logsByHabit habit.Name).filter (insideWindow S (S.AddDays 7)) with hlogs
  have hsub : (logs.map (fun log => log.LoggedAt.FormatDate)).toFinset
      ⊆ (Finset.Icc S.localDay (S.localDay + 6)).image
          (fun d => (Time.mk (d * 86400000000000) 0).FormatDate) := by
    intro x hx
    rw [List.mem_toFinset] at hx
    obtain ⟨log, hl, rfl⟩ := List.mem_map.mp hx
    rw [hlogs, List.mem_filter] at hl
    obtain ⟨hmem, hin⟩ := hl
    have hz := hzone habit hh log hmem hin
    unfold insideWindow at hin
    simp only [decide_eq_true_eq] at hin
    have hd := localDay_in_week S log.LoggedAt hS hmid (by rw [hz, hoff]) hin.1 hin.2
    rw [Finset.mem_image]
    exact ⟨log.LoggedAt.localDay, Finset.mem_Icc.mpr hd, (FormatDate_eq _).symm⟩
  have hcard := (Finset.card_le_card hsub).trans Finset.card_image_le
  have hI : (Finset.Icc S.localDay (S.localDay + 6)).card = 7 := by
    rw [Int.card_Icc]
    have : S.localDay + 6 + 1 - S.localDay = 7 := by ring
    rw [this]
    rfl
  rw [hI] at hcard
  exact_mod_cast hcard

/-- C9, counterexample: the calendar day of a log is taken in the zone the log
carries. At `now` = Sunday 7 January 2024, 20:00 UTC the week starts on Monday
1 January 2024, 00:00 UTC; seven logs at 12:00 UTC on 1 to 7 January and one log
stamped Monday 00:30 UTC in the zone UTC-01:00 (there Sunday 31 December, 23:30)
fall on 8 distinct days, and the streak is 8. -/
theorem weekly_streak_of_eight_mixed_zones :
    getWeekStart (Time.mk (1704657600 * 1000000000) 0) = Time.mk (1704067200 * 1000000000) 0 ∧
    (Time.mk (1704069000 * 1000000000) (-3600)).FormatDate = "2023-12-31" ∧
    ((CalculateWeeklySummary (Time.mk (1704657600 * 1000000000) 0)
        [⟨1, "read", "", "30m", 0, "duration", ⟨0, 0⟩⟩]
        (fun _ =>
          [⟨1, 1, "read", "1h", 0, ⟨1704069000 * 1000000000, -3600⟩, ""⟩,
           ⟨2, 1, "read", "1h", 0, ⟨1704110400 * 1000000000, 0⟩, ""⟩,
           ⟨3, 1, "read", "1h", 0, ⟨1704196800 * 1000000000, 0⟩, ""⟩,
           ⟨4, 1, "read", "1h", 0, ⟨1704283200 * 1000000000, 0⟩, ""⟩,
           ⟨5, 1, "read", "1h", 0, ⟨1704369600 * 1000000000, 0⟩, ""⟩,
           ⟨6, 1, "read", "1h", 0, ⟨1704456000 * 1000000000, 0⟩, ""⟩,
           ⟨7, 1, "read", "1h", 0, ⟨1704542400 * 1000000000, 0⟩, ""⟩,
           ⟨8, 1, "read", "1h", 0, ⟨1704628800 * 1000000000, 0⟩, ""⟩])).Habits.map
      (fun summary => summary.Streak)) = [8] := by
  decide

/-- Witness for C9: in UTC, on Sunday 7 January 2024, 20:00, three logs of the
week (two of them on Monday) give streaks of at most 7. -/
theorem weekly_streak_at_most_seven_witness :
    (getWeekStart (Time.mk (1704657600 * 1000000000) 0)).secondOfDay = 0 ∧
    ((CalculateWeeklySummary (Time.mk (1704657600 * 1000000000) 0)
        [⟨1, "read", "", "30m", 0, "duration", ⟨0, 0⟩⟩]
        (fun _ =>
          [⟨1, 1, "read", "1h", 0, ⟨1704069000 * 1000000000, 0⟩, ""⟩,
           ⟨2, 1, "read", "1h", 0, ⟨1704110400 * 1000000000, 0⟩, ""⟩,
           ⟨3, 1, "read", "1h", 0, ⟨1704196800 * 1000000000, 0⟩, ""⟩])).Habits.all
      (fun summary => decide (summary.Streak ≤ 7))) = true :=
  ⟨by decide, List.all_eq_true.mpr (fun summary hs => decide_eq_true
    (weekly_streak_at_most_seven (Time.mk (1704657600 * 1000000000) 0)
      [⟨1, "read", "", "30m", 0, "duration", ⟨0, 0⟩⟩]
      (fun _ =>
        [⟨1, 1, "read", "1h", 0, ⟨1704069000 * 1000000000, 0⟩, ""⟩,
         ⟨2, 1, "read", "1h", 0, ⟨1704110400 * 1000000000, 0⟩, ""⟩,
         ⟨3, 1, "read", "1h", 0, ⟨1704196800 * 1000000000, 0⟩, ""⟩])
      (by decide) (by decide) summary hs))⟩

/-! ## Theorems: totals and goal progress -/

theorem wrapInt64_add_wrap (a b : Int) : wrapInt64 (wrapInt64 a + b) = wrapInt64 (a + b) := by
  unfold wrapInt64
  omega

theorem wrapInt64_of_inRange (a : Int) (h1 : minInt64 ≤ a) (h2 : a ≤ maxInt64) :
    wrapInt64 a = a := by
  unfold wrapInt64 minInt64 maxInt64 at *
  omega

theorem addLogHours_eq (total : Float64) (log : Log) :
    addLogHours total log = match parsedHours log with
      | some h => Float64.add total h
      | none => total := by
  unfold addLogHours parsedHours
  by_cases h : log.Duration = ""
  · simp [h]
  · simp only [ne_eq, h, not_false_eq_true, if_true]
    rcases hp : ParseDuration log.Duration with ⟨d, _ | err⟩ <;> simp

theorem foldl_addLogHours (logs : List Log) (init : Float64) :
    logs.foldl addLogHours init = (logs.filterMap parsedHours).foldl Float64.add init := by
  induction logs generalizing init with
  | nil => rfl
  | cons log rest ih =>
    rw [List.foldl_cons, ih, addLogHours_eq]
    rcases hp : parsedHours log with _ | h
    · simp [List.filterMap_cons, hp]
    · simp [List.filterMap_cons, hp]

theorem dailyTotal_eq (habit : Habit) (logs : List Log) :
    dailyTotal habit logs = accumulatedTotal habit logs := by
  unfold dailyTotal accumulatedTotal sumFloat64
  by_cases h : habit.GoalType = "count"
  · simp only [h, if_true]
    rw [List.foldl_map]
  · simp only [h, if_false]
    exact foldl_addLogHours logs _

theorem weekTotals_count (habit : Habit) (logs : List Log) (h : habit.GoalType = "count") :
    weekTotals habit logs = (Float64.ofInt 0, wrapInt64 (countSum logs)) := by
  unfold weekTotals
  simp only [h, if_true]
  have key : ∀ (l : List Log) (t : Float64) (c : Int),
      l.foldl (fun (tot : Float64 × Int) log => (tot.1, wrapInt64 (tot.2 + log.Count))) (t, wrapInt64 c)
        = (t, wrapInt64 (c + countSum l)) := by
    intro l
    induction l with
    | nil => intro t c; simp [countSum]
    | cons x xs ih =>
      intro t c
      simp only [List.foldl_cons]
      rw [wrapInt64_add_wrap, ih]
      simp only [countSum, List.map_cons, List.sum_cons]
      rw [add_assoc]
  have h0 : (0 : Int) = wrapInt64 0 := by decide
  rw [h0, key, zero_add]

theorem weekTotals_duration (habit : Habit) (logs : List Log) (h : habit.GoalType ≠ "count") :
    weekTotals habit logs = (sumFloat64 (logs.filterMap parsedHours), 0) := by
  unfold weekTotals sumFloat64
  simp only [h, if_false]
  have key : ∀ (l : List Log) (t : Float64),
      l.foldl (fun (tot : Float64 × Int) log => (addLogHours tot.1 log, tot.2)) (t, 0)
        = (l.foldl addLogHours t, 0) := by
    intro l
    induction l with
    | nil => intro t; rfl
    | cons x xs ih => intro t; simp only [List.foldl_cons]; rw [ih]
  rw [key, foldl_addLogHours]

/-- Non-negative counts with a sum of at most `2 ^ 53` are added exactly. -/
theorem sumFloat64_counts (logs : List Log) (hpos : ∀ log ∈ logs, 0 ≤ log.Count)
    (hsum : countSum logs ≤ 2 ^ 53) :
    sumFloat64 (logs.map (fun log => Float64.ofInt log.Count)) = Float64.ofInt (countSum logs) := by
  unfold sumFloat64
  have key : ∀ (l : List Log) (acc : Nat), (∀ log ∈ l, 0 ≤ log.Count) →
      (acc : Int) + countSum l ≤ 2 ^ 53 →
      (l.map (fun log => Float64.ofInt log.Count)).foldl Float64.add (Float64.ofInt (acc : Int))
        = Float64.ofInt ((acc : Int) + countSum l) := by
    intro l
    induction l with
    | nil => intro acc _ _; simp [countSum]
    | cons x xs ih =>
      intro acc hp hs
      have hx : 0 ≤ x.Count := hp x (List.mem_cons_self _ _)
      have hxs : ∀ log ∈ xs, 0 ≤ log.Count := fun log hl => hp log (List.mem_cons_of_mem _ hl)
      have hrest : 0 ≤ countSum xs := by
        unfold countSum
        apply List.sum_nonneg
        intro c hc
        obtain ⟨log, hl, rfl⟩ := List.mem_map.mp hc
        exact hxs log hl
      have hcs : countSum (x :: xs) = x.Count + countSum xs := by
        simp [countSum]
      rw [hcs] at hs
      obtain ⟨c, hc⟩ := Int.eq_ofNat_of_zero_le hx
      simp only [List.map_cons, List.foldl_cons]
      rw [hc, Float64.add_ofInt acc c (by omega) (by omega)]
      rw [ih (acc + c) hxs (by push_cast; omega), hcs, hc]
      congr 1
      push_cast
      ring
  have := key logs 0 hpos (by simpa using hsum)
  simpa using this

theorem CalculateDailyProgress_eq (habit : Habit) (logs : List Log) (h : habit.DailyGoal ≠ 0) :
    CalculateDailyProgress habit logs = progressOf (accumulatedTotal habit logs) habit.DailyGoal 1 := by
  unfold CalculateDailyProgress progressOf
  simp only [h, if_false, mul_one, dailyTotal_eq]

theorem GoalProgress_eq (habit : Habit) (logs : List Log) (startDate endDate : Time)
    (h : 0 < habit.DailyGoal) (h7 : habit.DailyGoal * 7 ≤ maxInt64) :
    (calculateHabitSummary habit logs startDate endDate).GoalProgress
      = progressOf
          (if habit.GoalType = "count" then
            Float64.ofInt (calculateHabitSummary habit logs startDate endDate).TotalCount
           else (calculateHabitSummary habit logs startDate endDate).TotalTime)
          habit.DailyGoal 7 := by
  have hw : wrapInt64 (habit.DailyGoal * 7) = habit.DailyGoal * 7 := by
    apply wrapInt64_of_inRange _ _ h7
    unfold minInt64
    omega
  unfold calculateHabitSummary progressOf
  simp only [h, if_true, hw]
  by_cases hc : habit.GoalType = "count" <;> simp [hc]

/-- C5 (as amended): goal progress is the accumulated total divided by
`DailyGoal * windowDays`, times 100, with no upper clamp, when `DailyGoal` is
positive (`windowDays` is 1 in `CalculateDailyProgress` and 7 in
`calculateHabitSummary`, where `DailyGoal * 7` is within the 64-bit range), and 0
when `DailyGoal` is 0. For a negative `DailyGoal`, `calculateHabitSummary`
reports 0 and `CalculateDailyProgress` applies the formula. The total is the sum
of the log counts for a count habit and the sum of the parsed hours for a
duration habit (over the logs of the window in `calculateHabitSummary`). A count
habit with goal 8 and non-negative counts summing to 4 has daily progress 50,
summing to 16 daily progress 200, and a duration habit with goal 1 and 3.5
hours in the week has weekly progress 50. -/
theorem goal_progress_formula (habit : Habit) (logs : List Log) (startDate endDate : Time) :
    (habit.DailyGoal = 0 →
      CalculateDailyProgress habit logs = Float64.ofInt 0 ∧
      (calculateHabitSummary habit logs startDate endDate).GoalProgress = Float64.ofInt 0) ∧
    (habit.DailyGoal ≠ 0 →
      CalculateDailyProgress habit logs
        = progressOf (accumulatedTotal habit logs) habit.DailyGoal 1) ∧
    (0 < habit.DailyGoal → habit.DailyGoal * 7 ≤ maxInt64 →
      (calculateHabitSummary habit logs startDate endDate).GoalProgress
        = progressOf
            (if habit.GoalType = "count" then
              Float64.ofInt (calculateHabitSummary habit logs startDate endDate).TotalCount
             else (calculateHabitSummary habit logs startDate endDate).TotalTime)
            habit.DailyGoal 7) ∧
    (habit.DailyGoal < 0 →
      (calculateHabitSummary habit logs startDate endDate).GoalProgress = Float64.ofInt 0) ∧
    (habit.GoalType = "count" →
      (calculateHabitSummary habit logs startDate endDate).TotalCount
        = wrapInt64 (countSum (logs.filter (insideWindow startDate endDate)))) ∧
    (habit.GoalType ≠ "count" →
      (calculateHabitSummary habit logs startDate endDate).TotalTime
        = sumFloat64 ((logs.filter (insideWindow startDate endDate)).filterMap parsedHours)) ∧
    (habit.GoalType = "count" → habit.DailyGoal = 8 → (∀ log ∈ logs, 0 ≤ log.Count) →
      (countSum logs = 4 → CalculateDailyProgress habit logs = Float64.ofInt 50) ∧
      (countSum logs = 16 → CalculateDailyProgress habit logs = Float64.ofInt 200)) ∧
    (habit.GoalType ≠ "count" → habit.DailyGoal = 1 →
      (calculateHabitSummary habit logs startDate endDate).TotalTime
        = Float64.div (Float64.ofInt 7) (Float64.ofInt 2) →
      (calculateHabitSummary habit logs startDate endDate).GoalProgress = Float64.ofInt 50) := by
  refine ⟨?_, CalculateDailyProgress_eq habit logs, GoalProgress_eq habit logs startDate endDate,
    ?_, ?_, ?_, ?_, ?_⟩
  · intro h0
    constructor
    · simp [CalculateDailyProgress, h0]
    · simp [calculateHabitSummary, h0]
  · intro hneg
    have : ¬ habit.DailyGoal > 0 := by omega
    simp [calculateHabitSummary, this]
  · intro hc
    simp only [calculateHabitSummary, weekLogs_eq_filter, weekTotals_count _ _ hc]
  · intro hc
    simp only [calculateHabitSummary, weekLogs_eq_filter, weekTotals_duration _ _ hc]
  · intro hc h8 hpos
    have hne : habit.DailyGoal ≠ 0 := by omega
    constructor
    · intro hs
      rw [CalculateDailyProgress_eq habit logs hne]
      unfold accumulatedTotal
      simp only [hc, if_true]
      rw [sumFloat64_counts logs hpos (by rw [hs]; norm_num), hs, h8]
      decide
    · intro hs
      rw [CalculateDailyProgress_eq habit logs hne]
      unfold accumulatedTotal
      simp only [hc, if_true]
      rw [sumFloat64_counts logs hpos (by rw [hs]; norm_num), hs, h8]
      decide
  · intro hc h1 ht
    rw [GoalProgress_eq habit logs startDate endDate (by omega) (by rw [h1]; decide)]
    simp only [hc, if_false]
    rw [ht, h1]
    decide

/-- C5, counterexample: (1) a count habit with `DailyGoal = -1` and one log of
count 7 inside the window has weekly goal progress 0, while the total divided by
`DailyGoal * 7`, times 100, is -100; (2) with `DailyGoal = 2 ^ 62` the product
`DailyGoal * 7` wraps around to `-2 ^ 62` and one log of count `2 ^ 62` gives
weekly progress -100; (3) the counts `2 ^ 62` and `4 - 2 ^ 62` sum to 4 but the
`float64` sum of `CalculateDailyProgress` is 0, so the daily progress for goal 8
is 0, not 50. -/
theorem goal_progress_outside_the_formula :
    ((calculateHabitSummary ⟨1, "water", "", "1x", -1, "count", ⟨0, 0⟩⟩
        [⟨1, 1, "water", "", 7, ⟨5, 0⟩, ""⟩] ⟨0, 0⟩ ⟨10, 0⟩).TotalCount = 7 ∧
     (calculateHabitSummary ⟨1, "water", "", "1x", -1, "count", ⟨0, 0⟩⟩
        [⟨1, 1, "water", "", 7, ⟨5, 0⟩, ""⟩] ⟨0, 0⟩ ⟨10, 0⟩).GoalProgress = Float64.ofInt 0 ∧
     progressOf (Float64.ofInt 7) (-1) 7 = Float64.ofInt (-100)) ∧
    ((calculateHabitSummary ⟨1, "steps", "", "1x", 4611686018427387904, "count", ⟨0, 0⟩⟩
        [⟨1, 1, "steps", "", 4611686018427387904, ⟨5, 0⟩, ""⟩] ⟨0, 0⟩ ⟨10, 0⟩).GoalProgress
        = Float64.ofInt (-100) ∧
     Float64.lt (Float64.ofInt 0)
        (progressOf (Float64.ofInt 4611686018427387904) 4611686018427387904 7) = true) ∧
    (countSum [(⟨1, 1, "water", "", 4611686018427387904, ⟨0, 0⟩, ""⟩ : Log),
        ⟨2, 1, "water", "", 4 - 4611686018427387904, ⟨0, 0⟩, ""⟩] = 4 ∧
     CalculateDailyProgress ⟨1, "water", "", "1x", 8, "count", ⟨0, 0⟩⟩
        [⟨1, 1, "water", "", 4611686018427387904, ⟨0, 0⟩, ""⟩,
         ⟨2, 1, "water", "", 4 - 4611686018427387904, ⟨0, 0⟩, ""⟩] = Float64.ofInt 0) := by
  decide

/-- Witness for C5: a duration habit with goal 1 and logs of "3h" and "0h30m"
inside the window has 3.5 hours in the week and weekly progress 50. -/
theorem goal_progress_formula_witness :
    (calculateHabitSummary ⟨1, "read", "", "30m", 1, "duration", ⟨0, 0⟩⟩
        [⟨1, 1, "read", "3h", 0, ⟨5, 0⟩, ""⟩, ⟨2, 1, "read", "0h30m", 0, ⟨6, 0⟩, ""⟩]
        ⟨0, 0⟩ ⟨10, 0⟩).GoalProgress = Float64.ofInt 50 :=
  (goal_progress_formula ⟨1, "read", "", "30m", 1, "duration", ⟨0, 0⟩⟩
    [⟨1, 1, "read", "3h", 0, ⟨5, 0⟩, ""⟩, ⟨2, 1, "read", "0h30m", 0, ⟨6, 0⟩, ""⟩]
    ⟨0, 0⟩ ⟨10, 0⟩).2.2.2.2.2.2.2 (by decide) rfl (by decide)

/-- C6 (as amended): `IsGoalReached` is true exactly when
`CalculateDailyProgress` is at least 100, the value 100 included; it is false
for a habit with `DailyGoal = 0`; and for a count habit with
`0 < DailyGoal ≤ 2 ^ 53` and non-negative counts whose sum is at most `2 ^ 53`
it is true exactly when the sum of the counts is at least `DailyGoal`. -/
theorem IsGoalReached_iff_progress_at_least_100 (habit : Habit) (logs : List Log) :
    (IsGoalReached habit logs = true
      ↔ Float64.le (Float64.ofInt 100) (CalculateDailyProgress habit logs) = true) ∧
    (CalculateDailyProgress habit logs = Float64.ofInt 100 → IsGoalReached habit logs = true) ∧
    (habit.DailyGoal = 0 → IsGoalReached habit logs = false) ∧
    (habit.GoalType = "count" → 0 < habit.DailyGoal → habit.DailyGoal ≤ 2 ^ 53 →
      (∀ log ∈ logs, 0 ≤ log.Count) → countSum logs ≤ 2 ^ 53 →
      (IsGoalReached habit logs = true ↔ habit.DailyGoal ≤ countSum logs)) := by
  refine ⟨Iff.rfl, ?_, ?_, ?_⟩
  · intro h
    unfold IsGoalReached
    rw [h]
    decide
  · intro h0
    unfold IsGoalReached CalculateDailyProgress
    simp only [h0, if_true]
    decide
  · intro hc hg hg2 hpos hsum
    have hne : habit.DailyGoal ≠ 0 := by omega
    have hnonneg : 0 ≤ countSum logs := by
      unfold countSum
      apply List.sum_nonneg
      intro c hcm
      obtain ⟨log, hl, rfl⟩ := List.mem_map.mp hcm
      exact hpos log hl
    obtain ⟨S, hS⟩ := Int.eq_ofNat_of_zero_le hnonneg
    obtain ⟨g, hgn⟩ := Int.eq_ofNat_of_zero_le hg.le
    unfold IsGoalReached
    rw [CalculateDailyProgress_eq habit logs hne]
    unfold accumulatedTotal progressOf
    simp only [hc, if_true, mul_one]
    rw [sumFloat64_counts logs hpos hsum, hS, hgn]
    rw [Float64.progress_ge_100_iff S g (by omega) (by omega) (by omega)]
    omega

/-- C6, counterexample: (1) with `DailyGoal = 2 ^ 53 + 1`, which `float64`
rounds to `2 ^ 53`, one log of count `2 ^ 53` reaches the goal although the sum
of the counts is below `DailyGoal`; (2) with `DailyGoal = 1` the counts
`2 ^ 53 + 1` and `-2 ^ 53` sum to 1 but their `float64` sum is 0 and the goal is
not reached. -/
theorem IsGoalReached_differs_from_integer_test :
    (IsGoalReached ⟨1, "steps", "", "1x", 9007199254740993, "count", ⟨0, 0⟩⟩
        [⟨1, 1, "steps", "", 9007199254740992, ⟨0, 0⟩, ""⟩] = true ∧
     countSum [(⟨1, 1, "steps", "", 9007199254740992, ⟨0, 0⟩, ""⟩ : Log)] < 9007199254740993 ∧
     Float64.ofInt 9007199254740993 = Float64.ofInt 9007199254740992) ∧
    (IsGoalReached ⟨1, "steps", "", "1x", 1, "count", ⟨0, 0⟩⟩
        [⟨1, 1, "steps", "", 9007199254740993, ⟨0, 0⟩, ""⟩,
         ⟨2, 1, "steps", "", -9007199254740992, ⟨0, 0⟩, ""⟩] = false ∧
     (1 : Int) ≤ countSum [(⟨1, 1, "steps", "", 9007199254740993, ⟨0, 0⟩, ""⟩ : Log),
         ⟨2, 1, "steps", "", -9007199254740992, ⟨0, 0⟩, ""⟩]) := by
  decide

/-- Witness for C6: goal 8 with counts 3 and 5. -/
theorem IsGoalReached_iff_progress_at_least_100_witness :
    IsGoalReached ⟨1, "water", "", "1x", 8, "count", ⟨0, 0⟩⟩
      [⟨1, 1, "water", "", 3, ⟨0, 0⟩, ""⟩, ⟨2, 1, "water", "", 5, ⟨0, 0⟩, ""⟩] = true :=
  ((IsGoalReached_iff_progress_at_least_100 ⟨1, "water", "", "1x", 8, "count", ⟨0, 0⟩⟩
      [⟨1, 1, "water", "", 3, ⟨0, 0⟩, ""⟩, ⟨2, 1, "water", "", 5, ⟨0, 0⟩, ""⟩]).2.2.2
    rfl (by decide) (by decide) (by decide) (by decide)).mpr (by decide)

/-! ## Theorems: decimal text -/

theorem natDigitsAux_eq_toDigitsCore (fuel : Nat) : ∀ (n : Nat) (acc : List Char),
    natDigitsAux fuel n acc = Nat.toDigitsCore 10 fuel n acc := by
  induction fuel with
  | zero => intro n acc; rfl
  | succ fuel ih =>
    intro n acc
    have hd : Nat.digitChar (n % 10) = Char.ofNat (48 + n % 10) := by
      have h : n % 10 < 10 := Nat.mod_lt _ (by norm_num)
      generalize n % 10 = k at h
      interval_cases k <;> rfl
    simp only [natDigitsAux, Nat.toDigitsCore, hd, ih]

/-- The digits of `formatNat` are the decimal text of the number. -/
theorem formatNat_eq_toString (n : Nat) : formatNat n = (toString n).data := by
  show formatNat n = (Nat.repr n).data
  unfold formatNat Nat.repr Nat.toDigits
  rw [natDigitsAux_eq_toDigitsCore]
  rfl

theorem formatInt_natCast (n : Nat) : formatInt (n : Int) = (toString n).data := by
  unfold formatInt
  have : ¬ ((n : Int) < 0) := by omega
  simp only [this, if_false, Int.natAbs_ofNat, formatNat_eq_toString]

/-! ## Theorems: formatting and aggregation -/

/-- C18: for a valid duration with non-negative hours `h` and minutes `m`
(natural numbers), `FormatDuration` returns the decimal text of `h`, "h", the
decimal text of `m`, "m" when both are positive, the text of `h` and "h" when
only the hours are positive, and the text of `m` and "m" otherwise, so the zero
duration is "0m"; {2, 0} gives "2h", {1, 30} gives "1h30m" and {0, 45} gives
"45m". -/
theorem FormatDuration_three_forms (h m : Nat) :
    (0 < h → 0 < m →
      FormatDuration ⟨h, m, true⟩ = toString h ++ "h" ++ toString m ++ "m") ∧
    (0 < h → FormatDuration ⟨h, 0, true⟩ = toString h ++ "h") ∧
    FormatDuration ⟨0, m, true⟩ = toString m ++ "m" ∧
    FormatDuration ⟨0, 0, true⟩ = "0m" ∧
    FormatDuration ⟨2, 0, true⟩ = "2h" ∧
    FormatDuration ⟨1, 30, true⟩ = "1h30m" ∧
    FormatDuration ⟨0, 45, true⟩ = "45m" := by
  refine ⟨?_, ?_, ?_, by decide, by decide, by decide, by decide⟩
  · intro hh hm
    have h1 : ((h : Int) > 0 ∧ (m : Int) > 0) := ⟨by omega, by omega⟩
    apply String.ext
    simp [FormatDuration, h1, formatInt_natCast, String.data_append]
  · intro hh
    have h1 : (h : Int) > 0 := by omega
    apply String.ext
    simp [FormatDuration, h1, formatInt_natCast, String.data_append]
  · apply String.ext
    simp [FormatDuration, formatInt_natCast, String.data_append]

/-- Witness for C18: 12 hours and 5 minutes. -/
theorem FormatDuration_three_forms_witness : FormatDuration ⟨12, 5, true⟩ = "12h5m" :=
  (FormatDuration_three_forms 12 5).1 (by decide) (by decide)

theorem parsedHours_of_rejected (b : Log)
    (hb : b.Duration = "" ∨ (ParseDuration b.Duration).2 ≠ none) : parsedHours b = none := by
  unfold parsedHours
  rcases hb with h | h
  · simp [h]
  · by_cases h0 : b.Duration = ""
    · simp [h0]
    · simp only [ne_eq, h0, not_false_eq_true, if_true]
      rcases hp : ParseDuration b.Duration with ⟨d, _ | err⟩
      · rw [hp] at h
        exact absurd rfl h
      · rfl

theorem filterMap_parsedHours_insert (before after : List Log) (b : Log)
    (hb : parsedHours b = none) (p : Log → Bool) :
    ((before ++ b :: after).filter p).filterMap parsedHours
      = ((before ++ after).filter p).filterMap parsedHours := by
  simp only [List.filter_append, List.filter_cons, List.filterMap_append]
  by_cases hp : p b = true
  · simp [hp, hb]
  · simp [hp]

/-- C19: for a habit that is not a count habit, a log whose duration text is
empty or rejected by `ParseDuration`, added anywhere in the list, changes
neither the `TotalTime` nor the `GoalProgress` of `calculateHabitSummary`, nor
the result of `CalculateDailyProgress`; the three functions are total, so the
aggregation returns a value for every list of logs. -/
theorem rejected_log_is_skipped (habit : Habit) (before after : List Log) (b : Log)
    (startDate endDate : Time) (hd : habit.GoalType ≠ "count")
    (hb : b.Duration = "" ∨ (ParseDuration b.Duration).2 ≠ none) :
    (calculateHabitSummary habit (before ++ b :: after) startDate endDate).TotalTime
      = (calculateHabitSummary habit (before ++ after) startDate endDate).TotalTime ∧
    (calculateHabitSummary habit (before ++ b :: after) startDate endDate).GoalProgress
      = (calculateHabitSummary habit (before ++ after) startDate endDate).GoalProgress ∧
    CalculateDailyProgress habit (before ++ b :: after)
      = CalculateDailyProgress habit (before ++ after) := by
  have hn := parsedHours_of_rejected b hb
  refine ⟨?_, ?_, ?_⟩
  · simp only [calculateHabitSummary, weekLogs_eq_filter, weekTotals_duration _ _ hd,
      filterMap_parsedHours_insert _ _ _ hn]
  · simp only [calculateHabitSummary, weekLogs_eq_filter, weekTotals_duration _ _ hd,
      filterMap_parsedHours_insert _ _ _ hn]
  · unfold CalculateDailyProgress
    rw [dailyTotal_eq, dailyTotal_eq]
    unfold accumulatedTotal
    simp only [hd, if_false]
    have := filterMap_parsedHours_insert before after b hn (fun _ => true)
    simp only [List.filter_true] at this
    rw [this]

/-- Witness for C19: a log with the duration text "abc" between logs of "1h"
and "2h". -/
theorem rejected_log_is_skipped_witness :
    (calculateHabitSummary ⟨1, "read", "", "30m", 1, "duration", ⟨0, 0⟩⟩
        ([⟨1, 1, "read", "1h", 0, ⟨5, 0⟩, ""⟩] ++
          (⟨2, 1, "read", "abc", 0, ⟨6, 0⟩, ""⟩ : Log) :: [⟨3, 1, "read", "2h", 0, ⟨7, 0⟩, ""⟩])
        ⟨0, 0⟩ ⟨10, 0⟩).TotalTime
      = (calculateHabitSummary ⟨1, "read", "", "30m", 1, "duration", ⟨0, 0⟩⟩
        ([⟨1, 1, "read", "1h", 0, ⟨5, 0⟩, ""⟩] ++ [⟨3, 1, "read", "2h", 0, ⟨7, 0⟩, ""⟩])
        ⟨0, 0⟩ ⟨10, 0⟩).TotalTime :=
  (rejected_log_is_skipped ⟨1, "read", "", "30m", 1, "duration", ⟨0, 0⟩⟩
    [⟨1, 1, "read", "1h", 0, ⟨5, 0⟩, ""⟩] [⟨3, 1, "read", "2h", 0, ⟨7, 0⟩, ""⟩]
    ⟨2, 1, "read", "abc", 0, ⟨6, 0⟩, ""⟩ ⟨0, 0⟩ ⟨10, 0⟩ (by decide) (Or.inr (by decide))).1

/-- C12: the minutes of fractional hours are computed in `float64` and
truncated: "1.5h" gives {1, 30} and "0.25h" gives {0, 15}, but for "1.2h" the
remainder `1.2 - 1` times 60 is just below 12 and the result is {1, 11}, not
{1, 12}. -/
theorem ParseDuration_fractional_hours_truncated :
    ParseDuration "1.5h" = (⟨1, 30, true⟩, none) ∧
    ParseDuration "0.25h" = (⟨0, 15, true⟩, none) ∧
    ParseDuration "1.2h" = (⟨1, 11, true⟩, none) ∧
    ParseFloat "1.2".data = some (Float64.fin 5404319552844595 (-52)) ∧
    Float64.lt (Float64.mul (Float64.sub (Float64.fin 5404319552844595 (-52)) (Float64.ofInt 1))
      (Float64.ofInt 60)) (Float64.ofInt 12) = true := by
  decide

theorem motivational_fold (habits : List Summary) : ∀ (total : Float64) (n : Int),
    habits.foldl (fun (acc : Float64 × Int) habit =>
        if Float64.lt (Float64.ofInt 0) habit.GoalProgress = true then
          (Float64.add acc.1 habit.GoalProgress, acc.2 + 1)
        else acc) (total, n)
      = (((habits.map (fun habit => habit.GoalProgress)).filter
            (fun p => Float64.lt (Float64.ofInt 0) p)).foldl Float64.add total,
          n + (((habits.map (fun habit => habit.GoalProgress)).filter
            (fun p => Float64.lt (Float64.ofInt 0) p)).length : Int)) := by
  induction habits with
  | nil => intro total n; simp
  | cons x xs ih =>
    intro total n
    by_cases hx : Float64.lt (Float64.ofInt 0) x.GoalProgress = true
    · simp only [List.foldl_cons, hx, if_true, ih, List.map_cons, List.filter_cons,
        List.length_cons, Nat.cast_add, Nat.cast_one]
      congr 1
      ring
    · simp only [List.foldl_cons, hx, if_false, ih, List.map_cons, List.filter_cons]
      rfl

theorem GetMotivationalMessage_eq (summary : WeeklySummary) :
    GetMotivationalMessage summary =
      if positiveProgress summary = [] then
        "🌟 Every journey starts with a single step! Log your first habit today!"
      else tierMessage (meanFloat64 (positiveProgress summary)) := by
  unfold GetMotivationalMessage
  simp only [motivational_fold, zero_add]
  by_cases h : positiveProgress summary = []
  · have h2 := h
    unfold positiveProgress at h2
    simp [h, h2]
  · have h2 := h
    unfold positiveProgress at h2
    have h3 : ¬ ((((summary.Habits.map (fun habit => habit.GoalProgress)).filter
        (fun p => Float64.lt (Float64.ofInt 0) p)).length : Int) = 0) := by
      intro h4
      exact h2 (List.length_eq_zero.mp (by exact_mod_cast h4))
    simp only [h3, h, if_false]
    rfl

theorem tierMessage_ne_first (mean : Float64) :
    tierMessage mean ≠ "🌟 Every journey starts with a single step! Log your first habit today!" := by
  unfold tierMessage
  split_ifs <;> decide

/-- C20: `GetMotivationalMessage` is the "first step" message when no habit has
a goal progress above 0, and otherwise the message of the first tier reached by
the mean goal progress of the habits with a progress above 0 (mean at least 100,
80, 60, 40, 20, else the last message); it is the "first step" message exactly
when no habit has positive progress, and a habit whose progress is not above 0,
added anywhere, does not change the message. -/
theorem GetMotivationalMessage_by_mean_of_positive (summary : WeeklySummary) :
    (GetMotivationalMessage summary =
      if positiveProgress summary = [] then
        "🌟 Every journey starts with a single step! Log your first habit today!"
      else tierMessage (meanFloat64 (positiveProgress summary))) ∧
    (GetMotivationalMessage summary =
        "🌟 Every journey starts with a single step! Log your first habit today!"
      ↔ ∀ habit ∈ summary.Habits, Float64.lt (Float64.ofInt 0) habit.GoalProgress = false) ∧
    (∀ (before after : List Summary) (habit : Summary),
      Float64.lt (Float64.ofInt 0) habit.GoalProgress = false →
      GetMotivationalMessage ⟨summary.StartDate, summary.EndDate, before ++ habit :: after,
          summary.TotalTime⟩
        = GetMotivationalMessage ⟨summary.StartDate, summary.EndDate, before ++ after,
          summary.TotalTime⟩) := by
  refine ⟨GetMotivationalMessage_eq summary, ?_, ?_⟩
  · rw [GetMotivationalMessage_eq]
    have hp : positiveProgress summary = [] ↔
        ∀ habit ∈ summary.Habits, Float64.lt (Float64.ofInt 0) habit.GoalProgress = false := by
      unfold positiveProgress
      rw [List.filter_eq_nil_iff]
      simp
    rw [← hp]
    by_cases h : positiveProgress summary = []
    · simp [h]
    · simp only [h, if_false, iff_false]
      exact tierMessage_ne_first _
  · intro before after habit hh
    rw [GetMotivationalMessage_eq, GetMotivationalMessage_eq]
    have : positiveProgress ⟨summary.StartDate, summary.EndDate, before ++ habit :: after,
          summary.TotalTime⟩
        = positiveProgress ⟨summary.StartDate, summary.EndDate, before ++ after,
          summary.TotalTime⟩ := by
      unfold positiveProgress
      simp [List.filter_cons, hh]
    rw [this]

/-- Example for C20: two habits at 150 and 50 and one at 0 have the mean 100
and get the top message; alone, the habit at 0 gets the "first step" message. -/
theorem GetMotivationalMessage_examples :
    GetMotivationalMessage ⟨⟨0, 0⟩, ⟨0, 0⟩,
        [⟨"a", "", Float64.ofInt 0, 0, Float64.ofInt 150, 0, ""⟩,
         ⟨"b", "", Float64.ofInt 0, 0, Float64.ofInt 0, 0, ""⟩,
         ⟨"c", "", Float64.ofInt 0, 0, Float64.ofInt 50, 0, ""⟩], Float64.ofInt 0⟩
      = "🎉 Amazing! You're crushing your goals this week!" ∧
    GetMotivationalMessage ⟨⟨0, 0⟩, ⟨0, 0⟩,
        [⟨"b", "", Float64.ofInt 0, 0, Float64.ofInt 0, 0, ""⟩], Float64.ofInt 0⟩
      = "🌟 Every journey starts with a single step! Log your first habit today!" := by
  decide

/-! ## Theorems: the regular expression matcher -/

theorem greedyRests_mem (p : Char → Bool) : ∀ (s r : List Char),
    r ∈ greedyRests p s ↔ ∃ w, w ≠ [] ∧ (∀ x ∈ w, p x = true) ∧ s = w ++ r := by
  intro s
  induction s with
  | nil =>
    intro r
    simp only [greedyRests, List.not_mem_nil, false_iff]
    rintro ⟨w, hw, _, h⟩
    cases w with
    | nil => exact hw rfl
    | cons x xs => simp at h
  | cons c cs ih =>
    intro r
    by_cases hc : p c = true
    · simp only [greedyRests, hc, if_true, List.mem_append, List.mem_singleton, ih]
      constructor
      · rintro (⟨w, hw, hall, hs⟩ | rfl)
        · refine ⟨c :: w, by simp, ?_, by simp [hs]⟩
          intro x hx
          rcases List.mem_cons.mp hx with rfl | hx
          · exact hc
          · exact hall x hx
        · exact ⟨[c], by simp, by simpa using hc, by simp⟩
      · rintro ⟨w, hw, hall, hs⟩
        cases w with
        | nil => exact absurd rfl hw
        | cons x xs =>
          simp only [List.cons_append, List.cons.injEq] at hs
          obtain ⟨rfl, hs⟩ := hs
          cases xs with
          | nil => right; simpa using hs.symm
          | cons y ys =>
            left
            exact ⟨y :: ys, by simp, fun z hz => hall z (List.mem_cons_of_mem _ hz), hs⟩
    · have hc2 : p c = false := by simpa using hc
      simp only [greedyRests, hc2, Bool.false_eq_true, if_false, List.not_mem_nil, false_iff]
      rintro ⟨w, hw, hall, hs⟩
      cases w with
      | nil => exact hw rfl
      | cons x xs =>
        simp only [List.cons_append, List.cons.injEq] at hs
        obtain ⟨rfl, _⟩ := hs
        exact hc (hall _ (List.mem_cons_self _ _))

/-- The matcher is sound and complete for the words of the expression: it can
stop with the remainder `r` exactly when the input is a matched word followed
by `r`. -/
theorem Regex.run_iff (re : Regex) : ∀ (s : List Char) (caps : List (Nat × List Char))
    (r : List Char),
    (∃ caps2, (caps2, r) ∈ re.run s caps) ↔ ∃ w, s = w ++ r ∧ re.Matches w := by
  induction re with
  | lit c =>
    intro s caps r
    cases s with
    | nil =>
      simp only [Regex.run, List.not_mem_nil, exists_false, Regex.Matches, false_iff]
      rintro ⟨w, h, rfl⟩
      simp at h
    | cons x xs =>
      by_cases hx : x = c
      · subst hx
        simp only [Regex.run, if_true, List.mem_singleton, Prod.mk.injEq, Regex.Matches]
        constructor
        · rintro ⟨_, _, rfl⟩
          exact ⟨[x], by simp, rfl⟩
        · rintro ⟨w, h, rfl⟩
          simp only [List.singleton_append, List.cons.injEq, true_and] at h
          exact ⟨caps, rfl, h.symm⟩
      · simp only [Regex.run, hx, if_false, List.not_mem_nil, exists_false, Regex.Matches,
          false_iff]
        rintro ⟨w, h, rfl⟩
        simp only [List.singleton_append, List.cons.injEq] at h
        exact hx h.1
  | plus p =>
    intro s caps r
    simp only [Regex.run, List.mem_map, Prod.mk.injEq, Regex.Matches]
    constructor
    · rintro ⟨_, r2, hr, _, rfl⟩
      obtain ⟨w, hw, hall, hs⟩ := (greedyRests_mem p s r2).mp hr
      exact ⟨w, hs, hw, hall⟩
    · rintro ⟨w, hs, hw, hall⟩
      exact ⟨caps, r, (greedyRests_mem p s r).mpr ⟨w, hw, hall, hs⟩, rfl, rfl⟩
  | cat a b iha ihb =>
    intro s caps r
    simp only [Regex.run, List.mem_flatMap, Regex.Matches]
    constructor
    · rintro ⟨caps2, ⟨c1, r1⟩, h1, h2⟩
      obtain ⟨u, hu, hau⟩ := (iha s caps r1).mp ⟨c1, h1⟩
      obtain ⟨v, hv, hbv⟩ := (ihb r1 c1 r).mp ⟨caps2, h2⟩
      exact ⟨u ++ v, by rw [hu, hv, List.append_assoc], u, v, rfl, hau, hbv⟩
    · rintro ⟨w, hs, u, v, rfl, hau, hbv⟩
      obtain ⟨c1, h1⟩ := (iha s caps (v ++ r)).mpr ⟨u, by rw [hs, List.append_assoc], hau⟩
      obtain ⟨caps2, h2⟩ := (ihb (v ++ r) c1 r).mpr ⟨v, rfl, hbv⟩
      exact ⟨caps2, (c1, v ++ r), h1, h2⟩
  | opt a iha =>
    intro s caps r
    simp only [Regex.run, List.mem_append, List.mem_singleton, Prod.mk.injEq, Regex.Matches]
    constructor
    · rintro ⟨caps2, h | ⟨_, rfl⟩⟩
      · obtain ⟨w, hs, hw⟩ := (iha s caps r).mp ⟨caps2, h⟩
        exact ⟨w, hs, Or.inr hw⟩
      · exact ⟨[], rfl, Or.inl rfl⟩
    · rintro ⟨w, hs, rfl | hw⟩
      · exact ⟨caps, Or.inr ⟨rfl, by simpa using hs.symm⟩⟩
      · obtain ⟨caps2, h⟩ := (iha s caps r).mpr ⟨w, hs, hw⟩
        exact ⟨caps2, Or.inl h⟩
  | group i a iha =>
    intro s caps r
    simp only [Regex.run, List.mem_map, Prod.mk.injEq, Regex.Matches]
    constructor
    · rintro ⟨_, ⟨c1, r1⟩, h, _, rfl⟩
      exact (iha s caps r1).mp ⟨c1, h⟩
    · intro h
      obtain ⟨c1, h1⟩ := (iha s caps r).mpr h
      exact ⟨_, (c1, r), h1, rfl, rfl⟩

/-- Method `FindStringSubmatch` returns a non-empty slice exactly for the words
of the expression. -/
theorem FindStringSubmatch_ne_nil_iff (re : Regex) (s : List Char) :
    FindStringSubmatch re s ≠ [] ↔ re.Matches s := by
  have key : (∃ caps2, (caps2, ([] : List Char)) ∈ re.run s []) ↔ re.Matches s := by
    rw [Regex.run_iff]
    constructor
    · rintro ⟨w, hs, hw⟩
      rw [List.append_nil] at hs
      rwa [hs]
    · intro h
      exact ⟨s, by simp, h⟩
  rw [← key]
  unfold FindStringSubmatch
  cases hf : (re.run s []).find? (fun cr => cr.2.isEmpty) with
  | none =>
    simp only [ne_eq, not_true_eq_false, false_iff]
    rintro ⟨caps2, h⟩
    have := List.find?_eq_none.mp hf _ h
    simp at this
  | some cr =>
    simp only [ne_eq, List.cons_ne_nil, not_false_eq_true, true_iff]
    have h1 := List.find?_some hf
    have h2 := List.mem_of_find?_eq_some hf
    obtain ⟨c, r⟩ := cr
    simp only [List.isEmpty_iff] at h1
    subst h1
    exact ⟨c, h2⟩

/-- The capture groups set by the matcher: a group is one that was set before,
or it is the text of a sub-expression with its number, no longer than the
input. -/
theorem Regex.run_captures (re : Regex) : ∀ (s : List Char) (caps caps2 : List (Nat × List Char))
    (r : List Char), (caps2, r) ∈ re.run s caps →
    ∀ g ∈ caps2, g ∈ caps ∨ (re.Explains g.1 g.2 ∧ g.2.length ≤ s.length) := by
  induction re with
  | lit c =>
    intro s caps caps2 r h g hg
    cases s with
    | nil => simp [Regex.run] at h
    | cons x xs =>
      by_cases hx : x = c
      · simp only [Regex.run, hx, if_true, List.mem_singleton, Prod.mk.injEq] at h
        rw [h.1] at hg
        exact Or.inl hg
      · simp [Regex.run, hx] at h
  | plus p =>
    intro s caps caps2 r h g hg
    simp only [Regex.run, List.mem_map, Prod.mk.injEq] at h
    obtain ⟨_, _, h1, _⟩ := h
    rw [← h1] at hg
    exact Or.inl hg
  | cat a b iha ihb =>
    intro s caps caps2 r h g hg
    simp only [Regex.run, List.mem_flatMap] at h
    obtain ⟨⟨c1, r1⟩, h1, h2⟩ := h
    obtain ⟨u, hu, _⟩ := (Regex.run_iff a s caps r1).mp ⟨c1, h1⟩
    rcases ihb r1 c1 caps2 r h2 g hg with hb | ⟨hb, hl⟩
    · rcases iha s caps c1 r1 h1 g hb with ha | ⟨ha, hl⟩
      · exact Or.inl ha
      · exact Or.inr ⟨Or.inl ha, hl⟩
    · refine Or.inr ⟨Or.inr hb, ?_⟩
      rw [hu, List.length_append]
      omega
  | opt a iha =>
    intro s caps caps2 r h g hg
    simp only [Regex.run, List.mem_append, List.mem_singleton, Prod.mk.injEq] at h
    rcases h with h | ⟨h, _⟩
    · exact iha s caps caps2 r h g hg
    · rw [h] at hg
      exact Or.inl hg
  | group i a iha =>
    intro s caps caps2 r h g hg
    simp only [Regex.run, List.mem_map, Prod.mk.injEq] at h
    obtain ⟨⟨c1, r1⟩, h1, h2, h3⟩ := h
    simp only at h2 h3
    subst h3
    rw [← h2] at hg
    rcases List.mem_cons.mp hg with rfl | hg
    · obtain ⟨w, hw, hm⟩ := (Regex.run_iff a s caps r1).mp ⟨c1, h1⟩
      have ht : s.take (s.length - r1.length) = w := by
        rw [hw, List.length_append, Nat.add_sub_cancel, List.take_left]
      refine Or.inr ⟨Or.inl ⟨rfl, ?_⟩, ?_⟩
      · simp only [ht]
        exact hm
      · simp only [List.length_take]
        omega
    · rcases iha s caps c1 r1 h1 g hg with ha | ⟨ha, hl⟩
      · exact Or.inl ha
      · exact Or.inr ⟨Or.inr ha, hl⟩

theorem capture_cases (caps : List (Nat × List Char)) (i : Nat) :
    capture caps i = [] ∨ (i, capture caps i) ∈ caps := by
  unfold capture
  cases hf : caps.find? (fun g => g.1 = i) with
  | none => exact Or.inl rfl
  | some g =>
    right
    have h1 := List.find?_some hf
    have h2 := List.mem_of_find?_eq_some hf
    simp only [decide_eq_true_eq] at h1
    rw [← h1]
    exact h2

/-- The submatches of a match: the whole input, and for each group either the
empty text or the text of a sub-expression with its number, no longer than the
input. -/
theorem FindStringSubmatch_cases (re : Regex) (s : List Char) :
    FindStringSubmatch re s = [] ∨
    ∃ g1 g2, FindStringSubmatch re s = [s, g1, g2] ∧
      (g1 = [] ∨ (re.Explains 1 g1 ∧ g1.length ≤ s.length)) ∧
      (g2 = [] ∨ (re.Explains 2 g2 ∧ g2.length ≤ s.length)) := by
  unfold FindStringSubmatch
  cases hf : (re.run s []).find? (fun cr => cr.2.isEmpty) with
  | none => exact Or.inl rfl
  | some cr =>
    right
    obtain ⟨c, r⟩ := cr
    have h2 := List.mem_of_find?_eq_some hf
    have hc := Regex.run_captures re s [] c r h2
    refine ⟨capture c 1, capture c 2, rfl, ?_, ?_⟩
    · rcases capture_cases c 1 with h | h
      · exact Or.inl h
      · rcases hc _ h with h3 | h3
        · simp at h3
        · exact Or.inr h3
    · rcases capture_cases c 2 with h | h
      · exact Or.inl h
      · rcases hc _ h with h3 | h3
        · simp at h3
        · exact Or.inr h3

theorem Matches_plus_isDigit (w : List Char) :
    (Regex.plus Char.isDigit).Matches w ↔ IsDigits w := Iff.rfl

/-- The words of the first group, `\d+(?:\.\d+)?`. -/
theorem Matches_number (w : List Char) :
    (Regex.cat (.plus Char.isDigit) (.opt (.cat (.lit '.') (.plus Char.isDigit)))).Matches w ↔
      (IsDigits w ∨ ∃ i f, w = i ++ '.' :: f ∧ IsDigits i ∧ IsDigits f) := by
  simp only [Regex.Matches]
  constructor
  · rintro ⟨u, v, rfl, hu, rfl | ⟨u2, v2, rfl, rfl, hv⟩⟩
    · left
      rw [List.append_nil]
      exact hu
    · right
      exact ⟨u, v2, by simp, hu, hv⟩
  · rintro (h | ⟨i, f, rfl, hi, hf⟩)
    · exact ⟨w, [], by simp, h, Or.inl rfl⟩
    · exact ⟨i, '.' :: f, rfl, hi, Or.inr ⟨['.'], f, by simp, rfl, hf⟩⟩

/-- The words of the pattern of `parseTimeDuration` are those of the grammar
`[digits[.digits]] [h] [digits] [m]`. -/
theorem Matches_timeRegex (s : List Char) : timeRegex.Matches s ↔ durationGrammar s := by
  unfold timeRegex durationGrammar
  rw [Regex.Matches]
  constructor
  · rintro ⟨a, v, rfl, ha, hv⟩
    rw [Regex.Matches] at hv
    obtain ⟨b, v2, rfl, hb, hv2⟩ := hv
    rw [Regex.Matches] at hv2
    obtain ⟨c, d, rfl, hc, hd⟩ := hv2
    refine ⟨a, b, c, d, by simp, ?_, ?_, ?_, ?_⟩
    · rw [Regex.Matches, Regex.Matches, Matches_number] at ha
      exact ha
    · simpa only [Regex.Matches] using hb
    · simpa only [Regex.Matches] using hc
    · simpa only [Regex.Matches] using hd
  · rintro ⟨a, b, c, d, rfl, ha, hb, hc, hd⟩
    refine ⟨a, b ++ c ++ d, by simp, ?_, ?_⟩
    · rw [Regex.Matches, Regex.Matches, Matches_number]
      exact ha
    · rw [Regex.Matches]
      refine ⟨b, c ++ d, by simp, by simpa only [Regex.Matches] using hb, ?_⟩
      rw [Regex.Matches]
      exact ⟨c, d, rfl, by simpa only [Regex.Matches] using hc,
        by simpa only [Regex.Matches] using hd⟩

theorem parseTimeDuration_error_iff (s : List Char) :
    ((parseTimeDuration s).2.2 ≠ none ↔ ¬ durationGrammar s) ∧
    ((parseTimeDuration s).2.2 = none ∨
      (parseTimeDuration s).2.2 = some ParseError.invalidDurationFormat) := by
  rw [← Matches_timeRegex, ← FindStringSubmatch_ne_nil_iff]
  unfold parseTimeDuration
  by_cases h : FindStringSubmatch timeRegex s = []
  · simp [h]
  · have h2 : ¬ ((FindStringSubmatch timeRegex s).length = 0) := by
      rwa [List.length_eq_zero]
    simp only [h2, if_false]
    split_ifs <;> simp [h]

/-- An input that `IsCountBased` does not take for a count is not sent to
`parseCount` by `ParseDuration`. -/
theorem gate_false_of_not_IsCountBased (input : String) (h : IsCountBased input = false) :
    (HasSuffix (TrimSpace input.data) ['x'] ||
      HasSuffix (TrimSpace input.data) "times".data) = false := by
  unfold IsCountBased at h
  simp only [Bool.or_eq_false_iff] at h ⊢
  have key : ∀ (s suf : List Char), ToLower suf = suf →
      HasSuffix (ToLower s) suf = false → HasSuffix s suf = false := by
    intro s suf hsuf hf
    by_contra hc
    have hc2 : HasSuffix s suf = true := by simpa using hc
    unfold HasSuffix at hc2 hf
    rw [List.isSuffixOf_iff_suffix] at hc2
    obtain ⟨t, ht⟩ := hc2
    have : suf.isSuffixOf (ToLower s) = true := by
      rw [List.isSuffixOf_iff_suffix]
      refine ⟨ToLower t, ?_⟩
      rw [← ht]
      unfold ToLower
      rw [List.map_append]
      unfold ToLower at hsuf
      rw [hsuf]
    rw [this] at hf
    exact Bool.noConfusion hf
  exact ⟨key _ _ (by decide) h.1, key _ _ (by decide) h.2⟩

/-- C16: for an input that `ParseDuration` does not send to `parseCount` (its
trimmed text ends neither in "x" nor in "times"; this holds for every input for
which `IsCountBased` is false), `ParseDuration` fails if and only if the trimmed
input is empty or does not match the grammar `[digits[.digits]] [h] [digits] [m]`
as a whole; the error is the empty-duration error in the first case ("" and
"   ") and the invalid-duration-format error in the second ("abc",
"1h 30m"). -/
theorem ParseDuration_fails_iff_empty_or_outside_grammar (input : String)
    (hgate : (HasSuffix (TrimSpace input.data) ['x'] ||
      HasSuffix (TrimSpace input.data) "times".data) = false) :
    ((ParseDuration input).2 ≠ none ↔
      (TrimSpace input.data = [] ∨ ¬ durationGrammar (TrimSpace input.data))) ∧
    (TrimSpace input.data = [] → (ParseDuration input).2 = some ParseError.emptyDuration) ∧
    (TrimSpace input.data ≠ [] → ¬ durationGrammar (TrimSpace input.data) →
      (ParseDuration input).2 = some ParseError.invalidDurationFormat) ∧
    ParseDuration "" = (⟨0, 0, false⟩, some ParseError.emptyDuration) ∧
    ParseDuration "  \t " = (⟨0, 0, false⟩, some ParseError.emptyDuration) ∧
    ParseDuration "abc" = (⟨0, 0, false⟩, some ParseError.invalidDurationFormat) ∧
    ParseDuration "1h 30m" = (⟨0, 0, false⟩, some ParseError.invalidDurationFormat) := by
  refine ⟨?_, ?_, ?_, by decide, by decide, by decide, by decide⟩
  · unfold ParseDuration
    by_cases h0 : TrimSpace input.data = []
    · simp [h0]
    · have he := parseTimeDuration_error_iff (TrimSpace input.data)
      simp only [h0, if_false, hgate, Bool.false_eq_true, false_or]
      rw [← he.1]
      rcases hp : parseTimeDuration (TrimSpace input.data) with ⟨hours, minutes, _ | err⟩
      · simp
      · simp
  · intro h0
    unfold ParseDuration
    simp [h0]
  · intro h0 hg
    have he := parseTimeDuration_error_iff (TrimSpace input.data)
    have h1 := he.1.mpr hg
    unfold ParseDuration
    simp only [h0, if_false, hgate, Bool.false_eq_true]
    rcases hp : parseTimeDuration (TrimSpace input.data) with ⟨hours, minutes, _ | err⟩
    · rw [hp] at h1
      exact absurd rfl h1
    · rcases he.2 with h2 | h2
      · rw [hp] at h2
        exact absurd h2 (by simp)
      · rw [hp] at h2
        simp only at h2 ⊢
        exact h2

/-- Witness for C16: the input " 1h 30m " is not empty after trimming and is
outside the grammar. -/
theorem ParseDuration_fails_iff_empty_or_outside_grammar_witness :
    (ParseDuration " 1h 30m ").2 ≠ none ↔
      (TrimSpace " 1h 30m ".data = [] ∨ ¬ durationGrammar (TrimSpace " 1h 30m ".data)) :=
  (ParseDuration_fails_iff_empty_or_outside_grammar " 1h 30m " (by decide)).1

/-! ## Theorems: decimal texts in the parser -/

theorem isDigit_cases (c : Char) (h : c.isDigit = true) :
    ∃ k, k < 10 ∧ c = Char.ofNat (48 + k) := by
  refine ⟨c.toNat - 48, ?_, ?_⟩
  · simp only [Char.isDigit, Bool.and_eq_true, decide_eq_true_eq] at h
    have h1 : 48 ≤ c.toNat := by
      have := h.1
      rw [ge_iff_le, UInt32.le_def] at this
      exact this
    have h2 : c.toNat ≤ 57 := by
      have := h.2
      rw [UInt32.le_def] at this
      exact this
    omega
  · simp only [Char.isDigit, Bool.and_eq_true, decide_eq_true_eq] at h
    have h1 : 48 ≤ c.toNat := by
      have := h.1
      rw [ge_iff_le, UInt32.le_def] at this
      exact this
    rw [Nat.add_sub_cancel' h1, Char.ofNat_toNat]

/-- A decimal digit is no white space, no capital, and none of the other
characters the parser looks for. -/
theorem isDigit_props (c : Char) (h : c.isDigit = true) :
    isSpace c = false ∧ toLowerRune c = c ∧ c ≠ '.' ∧ c ≠ '-' ∧ c ≠ '+' ∧ c ≠ 'x' ∧ c ≠ 's' ∧
      c ≠ 'h' ∧ c ≠ 'm' ∧ c ≠ ' ' := by
  obtain ⟨k, hk, rfl⟩ := isDigit_cases c h
  interval_cases k <;> decide

theorem head?_flatMap_of_head {α β : Type} (l : List α) (f : α → List β) (x : α) (y : β)
    (h1 : l.head? = some x) (h2 : (f x).head? = some y) : (l.flatMap f).head? = some y := by
  cases l with
  | nil => simp at h1
  | cons a tl =>
    simp only [List.head?_cons, Option.some.injEq] at h1
    subst h1
    cases hfa : f a with
    | nil => rw [hfa] at h2; simp at h2
    | cons b tl2 =>
      rw [hfa] at h2
      simp only [List.head?_cons, Option.some.injEq] at h2
      subst h2
      simp [List.flatMap_cons, hfa]

theorem find?_of_head {α : Type} (l : List α) (p : α → Bool) (x : α)
    (h1 : l.head? = some x) (h2 : p x = true) : l.find? p = some x := by
  cases l with
  | nil => simp at h1
  | cons a tl =>
    simp only [List.head?_cons, Option.some.injEq] at h1
    subst h1
    simp [List.find?_cons, h2]

theorem greedyRests_of_head (p : Char → Bool) (rest : List Char)
    (hr : ∀ c ∈ rest.head?, p c = false) : greedyRests p rest = [] := by
  cases rest with
  | nil => rfl
  | cons c cs =>
    have := hr c (by simp)
    simp [greedyRests, this]

/-- A greedy `p+` first takes the whole run of characters with `p`. -/
theorem greedyRests_head (p : Char → Bool) (rest : List Char)
    (hr : ∀ c ∈ rest.head?, p c = false) : ∀ (ds : List Char), ds ≠ [] →
    (∀ c ∈ ds, p c = true) → (greedyRests p (ds ++ rest)).head? = some rest := by
  intro ds
  induction ds with
  | nil => intro h; exact absurd rfl h
  | cons d ds ih =>
    intro _ hall
    have hd : p d = true := hall d (List.mem_cons_self _ _)
    cases ds with
    | nil =>
      simp [greedyRests, hd, greedyRests_of_head p rest hr]
    | cons e es =>
      have ih2 := ih (by simp) (fun c hc => hall c (List.mem_cons_of_mem _ hc))
      have e1 : greedyRests p (d :: e :: es ++ rest)
          = greedyRests p (e :: es ++ rest) ++ [e :: es ++ rest] := by
        show (if p d = true then greedyRests p (e :: es ++ rest) ++ [e :: es ++ rest] else [])
          = _
        rw [if_pos hd]
      rw [e1, List.head?_append_of_ne_nil]
      · exact ih2
      · intro hnil
        rw [hnil] at ih2
        simp at ih2

/-- First result of the first group on a run of digits followed by a text that
starts with neither a digit nor a dot: the group takes the digits. -/
theorem group1_head (A rest : List Char) (caps : List (Nat × List Char)) (hA : IsDigits A)
    (hr : ∀ c ∈ rest.head?, c.isDigit = false ∧ c ≠ '.') :
    ((Regex.opt (.group 1 (.cat (.plus Char.isDigit)
        (.opt (.cat (.lit '.') (.plus Char.isDigit)))))).run (A ++ rest) caps).head?
      = some ((1, A) :: caps, rest) := by
  have h1 : (greedyRests Char.isDigit (A ++ rest)).head? = some rest :=
    greedyRests_head _ rest (fun c hc => (hr c hc).1) A hA.1 hA.2
  have h2 : ((Regex.lit '.').run rest caps) = [] := by
    cases rest with
    | nil => rfl
    | cons c cs =>
      have := (hr c (by simp)).2
      simp [Regex.run, this]
  have h3 : ((Regex.cat (.plus Char.isDigit)
        (.opt (.cat (.lit '.') (.plus Char.isDigit)))).run (A ++ rest) caps).head?
      = some (caps, rest) := by
    rw [Regex.run]
    apply head?_flatMap_of_head _ _ (caps, rest)
    · rw [Regex.run, List.head?_map, h1]
      rfl
    · show ((Regex.cat (.lit '.') (.plus Char.isDigit)).run rest caps ++ [(caps, rest)]).head?
        = some (caps, rest)
      have h4 : (Regex.cat (.lit '.') (.plus Char.isDigit)).run rest caps = [] := by
        rw [Regex.run, h2]
        rfl
      rw [h4]
      rfl
  rw [Regex.run, Regex.run]
  cases hrun : (Regex.cat (.plus Char.isDigit)
        (.opt (.cat (.lit '.') (.plus Char.isDigit)))).run (A ++ rest) caps with
  | nil => rw [hrun] at h3; simp at h3
  | cons x tl =>
    rw [hrun] at h3
    simp only [List.head?_cons, Option.some.injEq] at h3
    subst h3
    simp only [List.map_cons, List.cons_append, List.head?_cons, List.length_append,
      Nat.add_sub_cancel, List.take_left]

/-- First result of the pattern on a run of digits followed by a text that
starts with neither a digit nor a dot. -/
theorem timeRegex_head (A rest : List Char) (y : List (Nat × List Char) × List Char)
    (hA : IsDigits A) (hr : ∀ c ∈ rest.head?, c.isDigit = false ∧ c ≠ '.')
    (hy : ((Regex.cat (.opt (.lit 'h'))
      (.cat (.opt (.group 2 (.plus Char.isDigit))) (.opt (.lit 'm')))).run rest [(1, A)]).head?
        = some y) :
    (timeRegex.run (A ++ rest) []).head? = some y := by
  unfold timeRegex
  rw [Regex.run]
  exact head?_flatMap_of_head _ _ _ _ (group1_head A rest [] hA hr) hy

theorem FindStringSubmatch_of_head (re : Regex) (s : List Char) (caps : List (Nat × List Char))
    (h : (re.run s []).head? = some (caps, [])) :
    FindStringSubmatch re s = [s, capture caps 1, capture caps 2] := by
  unfold FindStringSubmatch
  rw [find?_of_head _ _ _ h rfl]

/-- Submatches of a bare number. -/
theorem FindStringSubmatch_bare (A : List Char) (hA : IsDigits A) :
    FindStringSubmatch timeRegex A = [A, A, []] := by
  have h := timeRegex_head A [] ([(1, A)], []) hA (by simp) (by simp [Regex.run, greedyRests])
  rw [List.append_nil] at h
  rw [FindStringSubmatch_of_head _ _ _ h]
  simp [capture]

/-- Submatches of a number followed by `h`. -/
theorem FindStringSubmatch_hours (A : List Char) (hA : IsDigits A) :
    FindStringSubmatch timeRegex (A ++ ['h']) = [A ++ ['h'], A, []] := by
  have h := timeRegex_head A ['h'] ([(1, A)], []) hA (by simp)
    (by simp [Regex.run, greedyRests])
  rw [FindStringSubmatch_of_head _ _ _ h]
  simp [capture]

/-- Submatches of a number, `h`, a number and `m`. -/
theorem FindStringSubmatch_hours_minutes (A B : List Char) (hA : IsDigits A) (hB : IsDigits B) :
    FindStringSubmatch timeRegex (A ++ 'h' :: (B ++ ['m'])) = [A ++ 'h' :: (B ++ ['m']), A, B] := by
  have hg : (greedyRests Char.isDigit (B ++ ['m'])).head? = some ['m'] :=
    greedyRests_head _ ['m'] (by simp) B hB.1 hB.2
  have h := timeRegex_head A ('h' :: (B ++ ['m'])) ([(2, B), (1, A)], []) hA (by simp) (by
    rw [Regex.run]
    apply head?_flatMap_of_head _ _ ([(1, A)], B ++ ['m'])
    · simp [Regex.run]
    · rw [Regex.run]
      apply head?_flatMap_of_head _ _ ([(2, B), (1, A)], ['m'])
      · rw [Regex.run, Regex.run, Regex.run]
        cases hgr : greedyRests Char.isDigit (B ++ ['m']) with
        | nil => rw [hgr] at hg; simp at hg
        | cons x tl =>
          rw [hgr] at hg
          simp only [List.head?_cons, Option.some.injEq] at hg
          subst hg
          simp
      · simp [Regex.run])
  rw [FindStringSubmatch_of_head _ _ _ h]
  simp [capture]

theorem dropWhile_prefix (p : Char → Bool) (rest : List Char)
    (hr : ∀ c ∈ rest.head?, p c = false) : ∀ (ws : List Char), (∀ c ∈ ws, p c = true) →
    (ws ++ rest).dropWhile p = rest := by
  intro ws
  induction ws with
  | nil =>
    intro _
    cases rest with
    | nil => rfl
    | cons c cs =>
      have := hr c (by simp)
      simp [List.dropWhile_cons, this]
  | cons w ws ih =>
    intro hall
    have hw : p w = true := hall w (List.mem_cons_self _ _)
    simp only [List.cons_append, List.dropWhile_cons, hw, if_true]
    exact ih (fun c hc => hall c (List.mem_cons_of_mem _ hc))

/-- Function `TrimSpace` removes the white space around a text that neither
starts nor ends with white space. -/
theorem TrimSpace_surround (ws1 core ws2 : List Char) (h1 : ∀ c ∈ ws1, isSpace c = true)
    (h2 : ∀ c ∈ ws2, isSpace c = true) (hc : core ≠ [])
    (hh : ∀ c ∈ core.head?, isSpace c = false) (hl : ∀ c ∈ core.getLast?, isSpace c = false) :
    TrimSpace (ws1 ++ core ++ ws2) = core := by
  unfold TrimSpace
  have e1 : (ws1 ++ core ++ ws2).dropWhile isSpace = core ++ ws2 := by
    rw [List.append_assoc]
    apply dropWhile_prefix _ _ _ _ h1
    intro c hcm
    cases core with
    | nil => exact absurd rfl hc
    | cons x xs => exact hh c (by simpa using hcm)
  have e2 : (core ++ ws2).reverse.dropWhile isSpace = core.reverse := by
    rw [List.reverse_append]
    apply dropWhile_prefix
    · intro c hcm
      rw [List.head?_reverse] at hcm
      exact hl c hcm
    · intro c hcm
      exact h2 c (List.mem_reverse.mp hcm)
  rw [e1, e2, List.reverse_reverse]

theorem TrimSpace_eq_self (core : List Char) (hc : core ≠ [])
    (hh : ∀ c ∈ core.head?, isSpace c = false) (hl : ∀ c ∈ core.getLast?, isSpace c = false) :
    TrimSpace core = core := by
  have := TrimSpace_surround [] core [] (by simp) (by simp) hc hh hl
  simpa using this

theorem HasSuffix_append (t suf : List Char) : HasSuffix (t ++ suf) suf = true := by
  unfold HasSuffix
  rw [List.isSuffixOf_iff_suffix]
  exact List.suffix_append t suf

theorem HasSuffix_of_last_ne (t u : List Char) (c d : Char) (h : c ≠ d) :
    HasSuffix (t ++ [c]) (u ++ [d]) = false := by
  unfold HasSuffix
  cases hs : (u ++ [d]).isSuffixOf (t ++ [c]) with
  | false => rfl
  | true =>
    rw [List.isSuffixOf_iff_suffix] at hs
    obtain ⟨x, hx⟩ := hs
    rw [← List.append_assoc] at hx
    have := List.append_inj_right' hx rfl
    simp only [List.cons.injEq, and_true] at this
    exact absurd this.symm h

theorem TrimSuffix_append (t suf : List Char) : TrimSuffix (t ++ suf) suf = t := by
  unfold TrimSuffix
  rw [HasSuffix_append, if_pos rfl, List.length_append, Nat.add_sub_cancel, List.take_left]

theorem ToLower_digits (ds : List Char) (h : ∀ c ∈ ds, c.isDigit = true) : ToLower ds = ds := by
  unfold ToLower
  induction ds with
  | nil => rfl
  | cons d ds ih =>
    rw [List.map_cons, (isDigit_props d (h d (List.mem_cons_self _ _))).2.1,
      ih (fun c hc => h c (List.mem_cons_of_mem _ hc))]

theorem IsDigits_head (ds : List Char) (h : IsDigits ds) (P : Char → Prop)
    (hP : ∀ c, c.isDigit = true → P c) : ∀ c ∈ ds.head?, P c := by
  intro c hc
  exact hP c (h.2 c (List.mem_of_mem_head? hc))

theorem IsDigits_last (ds : List Char) (h : IsDigits ds) (P : Char → Prop)
    (hP : ∀ c, c.isDigit = true → P c) : ∀ c ∈ ds.getLast?, P c := by
  intro c hc
  exact hP c (h.2 c (List.mem_of_getLast?_eq_some hc))

theorem parseDigits_of_IsDigits (ds : List Char) (h : IsDigits ds) :
    parseDigits ds = some (digitsValue ds) := by
  unfold parseDigits
  have : ds.all Char.isDigit = true := List.all_eq_true.mpr h.2
  simp [h.1, this]

/-- Function `Atoi` on a run of digits with a value in the 64-bit range. -/
theorem Atoi_of_IsDigits (ds : List Char) (h : IsDigits ds) (hv : digitsValue ds ≤ 2 ^ 63 - 1) :
    Atoi ds = some (digitsValue ds : Int) := by
  have hr : inInt64 (digitsValue ds : Int) = some (digitsValue ds : Int) := by
    unfold inInt64 minInt64 maxInt64
    have h1 : ((digitsValue ds : Nat) : Int) ≤ 2 ^ 63 - 1 := by
      have : (digitsValue ds : Int) ≤ ((2 ^ 63 - 1 : Nat) : Int) := by exact_mod_cast hv
      simpa using this
    have h0 : (0 : Int) ≤ (digitsValue ds : Int) := Int.natCast_nonneg _
    rw [if_pos]
    constructor
    · omega
    · omega
  cases ds with
  | nil => exact absurd rfl h.1
  | cons d rest =>
    have hd := isDigit_props d (h.2 d (List.mem_cons_self _ _))
    have hm : d ≠ '-' := hd.2.2.2.1
    have hp : d ≠ '+' := hd.2.2.2.2.1
    have : Atoi (d :: rest) = (parseDigits (d :: rest)).bind (fun n => inInt64 (n : Int)) := by
      unfold Atoi
      split
      · rename_i heq
        simp only [List.cons.injEq] at heq
        exact absurd heq.1 hm
      · rename_i heq
        simp only [List.cons.injEq] at heq
        exact absurd heq.1 hp
      · rfl
    rw [this, parseDigits_of_IsDigits _ h]
    exact hr

/-- Function `Atoi` rejects a run of digits with a value outside the 64-bit
range. -/
theorem Atoi_of_IsDigits_large (ds : List Char) (h : IsDigits ds)
    (hv : 2 ^ 63 ≤ digitsValue ds) : Atoi ds = none := by
  have hr : inInt64 (digitsValue ds : Int) = none := by
    unfold inInt64 minInt64 maxInt64
    have h1 : (2 : Int) ^ 63 ≤ ((digitsValue ds : Nat) : Int) := by exact_mod_cast hv
    rw [if_neg]
    intro hc
    omega
  cases ds with
  | nil => exact absurd rfl h.1
  | cons d rest =>
    have hd := isDigit_props d (h.2 d (List.mem_cons_self _ _))
    have hm : d ≠ '-' := hd.2.2.2.1
    have hp : d ≠ '+' := hd.2.2.2.2.1
    have : Atoi (d :: rest) = (parseDigits (d :: rest)).bind (fun n => inInt64 (n : Int)) := by
      unfold Atoi
      split
      · rename_i heq
        simp only [List.cons.injEq] at heq
        exact absurd heq.1 hm
      · rename_i heq
        simp only [List.cons.injEq] at heq
        exact absurd heq.1 hp
      · rfl
    rw [this, parseDigits_of_IsDigits _ h]
    exact hr

theorem takeWhile_all (p : Char → Bool) (ds : List Char) (h : ∀ c ∈ ds, p c = true) :
    ds.takeWhile p = ds ∧ ds.dropWhile p = [] := by
  induction ds with
  | nil => exact ⟨rfl, rfl⟩
  | cons d ds ih =>
    have hd := h d (List.mem_cons_self _ _)
    have := ih (fun c hc => h c (List.mem_cons_of_mem _ hc))
    simp [List.takeWhile_cons, List.dropWhile_cons, hd, this.1, this.2]

/-- Function `ParseFloat` on a run of digits: the rounded value. -/
theorem ParseFloat_of_IsDigits (ds : List Char) (h : IsDigits ds) :
    ParseFloat ds = if (Float64.round false (digitsValue ds) 1).isFinite then
      some (Float64.round false (digitsValue ds) 1) else none := by
  unfold ParseFloat
  have := takeWhile_all Char.isDigit ds h.2
  simp only [this.1, this.2, ne_eq, h.1, not_false_eq_true, if_true, Option.some_bind]

namespace Float64

/-- Conversion `int(x)` of a finite value that is not negative: the floor of
the value when it is in the 64-bit range. -/
theorem toInt_fin_nonneg (M E : ℤ) (hM : 0 ≤ M) :
    toInt (fin M E) = if ⌊(M : ℚ) * (2 : ℚ) ^ E⌋ ≤ maxInt64 then ⌊(M : ℚ) * (2 : ℚ) ^ E⌋
      else minInt64 := by
  have hfl : ⌊(M : ℚ) * (2 : ℚ) ^ E⌋ = if 0 ≤ E then M * 2 ^ E.toNat
      else ((M.natAbs / 2 ^ (-E).toNat : Nat) : Int) := by
    by_cases hE : 0 ≤ E
    · rw [if_pos hE]
      have : (M : ℚ) * (2 : ℚ) ^ E = ((M * 2 ^ E.toNat : ℤ) : ℚ) := by
        push_cast
        congr 1
        rw [← zpow_natCast, Int.toNat_of_nonneg hE]
      rw [this, Int.floor_intCast]
    · rw [if_neg hE]
      have hE2 : E = -(((-E).toNat : ℕ) : ℤ) := by
        rw [Int.toNat_of_nonneg (by omega)]
        ring
      have : (M : ℚ) * (2 : ℚ) ^ E = ((M.natAbs : ℕ) : ℚ) / (((2 ^ (-E).toNat : ℕ)) : ℚ) := by
        have h0 : ((M.natAbs : ℤ) : ℚ) = M := by rw [Int.natAbs_of_nonneg hM]
        rw [Int.cast_natCast] at h0
        rw [h0]
        conv_lhs => rw [hE2]
        rw [zpow_neg, zpow_natCast]
        push_cast
        rfl
      rw [this, ← Int.natCast_floor_eq_floor (by positivity), Nat.floor_div_eq_div]
  have hnn : ¬ (M < 0) := by omega
  unfold toInt
  simp only [hnn, if_false]
  rw [hfl]
  have hv0 : (0 : ℤ) ≤ (if 0 ≤ E then M * 2 ^ E.toNat
      else ((M.natAbs / 2 ^ (-E).toNat : Nat) : Int)) := by
    split_ifs
    · positivity
    · exact Int.natCast_nonneg _
  have hmin : minInt64 ≤ (if 0 ≤ E then M * 2 ^ E.toNat
      else ((M.natAbs / 2 ^ (-E).toNat : Nat) : Int)) := by
    unfold minInt64
    omega
  simp only [hmin, true_and]

/-- Conversion `int(x)` of a value that is a natural number in the 64-bit
range. -/
theorem toInt_of_natCast (M E : ℤ) (n : ℕ) (hM : 0 ≤ M) (h : (M : ℚ) * (2 : ℚ) ^ E = (n : ℚ))
    (hn : (n : ℤ) ≤ maxInt64) : toInt (fin M E) = n := by
  rw [toInt_fin_nonneg M E hM, h]
  have : ⌊(n : ℚ)⌋ = (n : ℤ) := by
    exact Int.floor_natCast n
  rw [this, if_pos hn]

theorem eq_self_fin (M E : ℤ) : eq (fin M E) (fin M E) = true := by
  simp [eq]

end Float64

/-- Hours of a whole number of at most `2 ^ 53`: the number, and no minutes. -/
theorem parseHours_of_IsDigits (ds : List Char) (h : IsDigits ds) (hv : digitsValue ds ≤ 2 ^ 53) :
    parseHours ds = ((digitsValue ds : Int), 0) := by
  obtain ⟨M, E, hME, hM, hval⟩ := Float64.ofInt_exact (digitsValue ds) hv
  have hr : Float64.round false (digitsValue ds) 1 = Float64.fin M E := by
    rw [← Float64.ofInt_natCast, hME]
  have hn : ((digitsValue ds : Nat) : Int) ≤ maxInt64 := by
    unfold maxInt64
    have : ((digitsValue ds : Nat) : Int) ≤ ((2 ^ 53 : Nat) : Int) := by exact_mod_cast hv
    have h2 : ((2 ^ 53 : Nat) : Int) = 2 ^ 53 := by norm_num
    omega
  have ht := Float64.toInt_of_natCast M E (digitsValue ds) hM hval hn
  unfold parseHours
  rw [ParseFloat_of_IsDigits ds h, hr]
  simp only [ne_eq, h.1, not_false_eq_true, if_true, Float64.isFinite, ht, hME,
    Float64.eq_self_fin, Bool.not_true, Bool.false_eq_true, if_false]

theorem parseMinutes_of_IsDigits (ds : List Char) (h : IsDigits ds)
    (hv : digitsValue ds ≤ 2 ^ 63 - 1) : parseMinutes ds 0 = (digitsValue ds : Int) := by
  unfold parseMinutes
  rw [Atoi_of_IsDigits ds h hv]
  simp only [ne_eq, h.1, not_false_eq_true, if_true, zero_add]
  apply wrapInt64_of_inRange
  · unfold minInt64
    omega
  · unfold maxInt64
    omega

theorem HasSuffix_of_getLast (s u : List Char) (d : Char) (h : ∀ c ∈ s.getLast?, c ≠ d) :
    HasSuffix s (u ++ [d]) = false := by
  rcases List.eq_nil_or_concat s with rfl | ⟨t, c, rfl⟩
  · unfold HasSuffix
    cases hs : (u ++ [d]).isSuffixOf ([] : List Char) with
    | false => rfl
    | true =>
      rw [List.isSuffixOf_iff_suffix] at hs
      obtain ⟨x, hx⟩ := hs
      simp at hx
  · rw [List.concat_eq_append] at h ⊢
    exact HasSuffix_of_last_ne t u c d (h c (by simp))

/-- The decimal text of a natural number is a non-empty run of digits with the
number as its value. -/
theorem toString_digits (n : Nat) :
    IsDigits (toString n).data ∧ digitsValue (toString n).data = n := by
  rw [← formatNat_eq_toString]
  obtain ⟨h1, h2, h3⟩ := formatNat_spec n
  exact ⟨⟨h1, List.all_eq_true.mp h2⟩, h3⟩

/-- Function `ParseDuration` on a text without white space at its ends that
ends neither in `x` nor in `s`: the result of `parseTimeDuration`. -/
theorem ParseDuration_time (s : List Char) (hne : s ≠ [])
    (hh : ∀ c ∈ s.head?, isSpace c = false)
    (hl : ∀ c ∈ s.getLast?, isSpace c = false ∧ c ≠ 'x' ∧ c ≠ 's') :
    ParseDuration ⟨s⟩ = match parseTimeDuration s with
      | (_, _, some err) => (⟨0, 0, false⟩, some err)
      | (hours, minutes, none) => (⟨hours, minutes, true⟩, none) := by
  unfold ParseDuration
  have ht : TrimSpace s = s := TrimSpace_eq_self s hne hh (fun c hc => (hl c hc).1)
  have hx : HasSuffix s ['x'] = false :=
    HasSuffix_of_getLast s [] 'x' (fun c hc => (hl c hc).2.1)
  have hs : HasSuffix s "times".data = false :=
    HasSuffix_of_getLast s "time".data 's' (fun c hc => (hl c hc).2.2)
  simp only [ht, hne, if_false, hx, hs, Bool.or_self, Bool.false_eq_true]

theorem parseTimeDuration_of_found (s s2 g1 g2 : List Char)
    (h : FindStringSubmatch timeRegex s = [s2, g1, g2]) :
    parseTimeDuration s =
      if parseMinutes g2 (parseHours g1).2 ≥ 60 then
        (wrapInt64 ((parseHours g1).1 + parseMinutes g2 (parseHours g1).2 / 60),
          parseMinutes g2 (parseHours g1).2 % 60, none)
      else ((parseHours g1).1, parseMinutes g2 (parseHours g1).2, none) := by
  unfold parseTimeDuration
  rw [h]
  simp

theorem parseMinutes_nil (minutes : Int) : parseMinutes [] minutes = minutes := by
  simp [parseMinutes]

theorem IsDigits_ends (A : List Char) (hA : IsDigits A) :
    (∀ c ∈ A.head?, isSpace c = false) ∧
    (∀ c ∈ A.getLast?, isSpace c = false ∧ c ≠ 'x' ∧ c ≠ 's') :=
  ⟨IsDigits_head A hA _ (fun c hc => (isDigit_props c hc).1),
    IsDigits_last A hA _ (fun c hc =>
      ⟨(isDigit_props c hc).1, (isDigit_props c hc).2.2.2.2.2.1,
        (isDigit_props c hc).2.2.2.2.2.2.1⟩)⟩

theorem head?_append_of_IsDigits (A rest : List Char) (hA : IsDigits A) (P : Char → Prop)
    (hP : ∀ c, c.isDigit = true → P c) : ∀ c ∈ (A ++ rest).head?, P c := by
  intro c hc
  cases A with
  | nil => exact absurd rfl hA.1
  | cons a as =>
    simp only [List.cons_append, List.head?_cons, Option.mem_def, Option.some.injEq] at hc
    subst hc
    exact hP _ (hA.2 _ (List.mem_cons_self _ _))

/-- Result of `ParseDuration` on a bare number and on a number followed by
`h`, in terms of the hours of the number. -/
theorem ParseDuration_number (A : List Char) (hA : IsDigits A) :
    (ParseDuration ⟨A⟩ =
      if (parseHours A).2 ≥ 60 then
        (⟨wrapInt64 ((parseHours A).1 + (parseHours A).2 / 60), (parseHours A).2 % 60, true⟩, none)
      else (⟨(parseHours A).1, (parseHours A).2, true⟩, none)) ∧
    (ParseDuration ⟨A ++ ['h']⟩ =
      if (parseHours A).2 ≥ 60 then
        (⟨wrapInt64 ((parseHours A).1 + (parseHours A).2 / 60), (parseHours A).2 % 60, true⟩, none)
      else (⟨(parseHours A).1, (parseHours A).2, true⟩, none)) := by
  constructor
  · rw [ParseDuration_time A hA.1 (IsDigits_ends A hA).1 (IsDigits_ends A hA).2,
      parseTimeDuration_of_found _ _ _ _ (FindStringSubmatch_bare A hA), parseMinutes_nil]
    split_ifs <;> rfl
  · rw [ParseDuration_time (A ++ ['h']) (by simp)
        (head?_append_of_IsDigits A _ hA _ (fun c hc => (isDigit_props c hc).1))
        (by simp; decide),
      parseTimeDuration_of_found _ _ _ _ (FindStringSubmatch_hours A hA), parseMinutes_nil]
    split_ifs <;> rfl

/-- C17: for every natural number `n`, the bare decimal text of `n` is accepted
by `ParseDuration` and gives the same result as the text followed by "h"; when
`n` is at most `2 ^ 53` that result is Hours = `n` and Minutes = 0 with
IsValid = true. The input "0" succeeds as the zero duration, and the count
input "0x" is rejected. -/
theorem ParseDuration_bare_number_is_hours (n : Nat) :
    (ParseDuration (toString n)).2 = none ∧
    ParseDuration (toString n) = ParseDuration (toString n ++ "h") ∧
    (n ≤ 2 ^ 53 → ParseDuration (toString n) = (⟨n, 0, true⟩, none)) ∧
    ParseDuration "0" = (⟨0, 0, true⟩, none) ∧
    ParseDuration "0x" = (⟨0, 0, false⟩, some ParseError.invalidCountFormat) := by
  obtain ⟨hd, hv⟩ := toString_digits n
  have h1 := (ParseDuration_number _ hd).1
  have h2 := (ParseDuration_number _ hd).2
  have e1 : (⟨(toString n).data⟩ : String) = toString n := rfl
  have e2 : (⟨(toString n).data ++ ['h']⟩ : String) = toString n ++ "h" := by
    apply String.ext
    simp [String.data_append]
  rw [e1] at h1
  rw [e2] at h2
  refine ⟨?_, ?_, ?_, by decide, by decide⟩
  · rw [h1]
    split_ifs <;> rfl
  · rw [h1, h2]
  · intro hn
    rw [h1, parseHours_of_IsDigits _ hd (by rw [hv]; exact hn), hv]
    simp

/-- Witness for C17: the bare number 5. -/
theorem ParseDuration_bare_number_is_hours_witness :
    ParseDuration "5" = (⟨5, 0, true⟩, none) :=
  (ParseDuration_bare_number_is_hours 5).2.2.1 (by norm_num)

/-- Counterexample for C17: the bare number `2 ^ 53 + 1` gives `2 ^ 53`
hours. -/
theorem ParseDuration_bare_number_rounded :
    ParseDuration "9007199254740993" = (⟨9007199254740992, 0, true⟩, none) := by
  decide

/-- C13: for natural numbers `h ≤ 2 ^ 53` and `m` with `60 * h + m < 2 ^ 63`,
`ParseDuration` of the decimal text of `h`, "h", the decimal text of `m` and
"m" succeeds with Hours = `h + m / 60` and Minutes = `m % 60`, and
`GetTotalMinutes` of the result is `60 * h + m`. -/
theorem ParseDuration_hours_and_minutes (h m : Nat) (hh : h ≤ 2 ^ 53)
    (hm : 60 * h + m < 2 ^ 63) :
    ParseDuration (toString h ++ "h" ++ toString m ++ "m")
      = (⟨((h + m / 60 : Nat) : Int), ((m % 60 : Nat) : Int), true⟩, none) ∧
    GetTotalMinutes (ParseDuration (toString h ++ "h" ++ toString m ++ "m")).1
      = ((60 * h + m : Nat) : Int) := by
  obtain ⟨hdH, hvH⟩ := toString_digits h
  obtain ⟨hdM, hvM⟩ := toString_digits m
  have e : toString h ++ "h" ++ toString m ++ "m"
      = ⟨(toString h).data ++ 'h' :: ((toString m).data ++ ['m'])⟩ := by
    apply String.ext
    simp [String.data_append]
  have key : ParseDuration (toString h ++ "h" ++ toString m ++ "m")
      = (⟨((h + m / 60 : Nat) : Int), ((m % 60 : Nat) : Int), true⟩, none) := by
    rw [e, ParseDuration_time _ (by simp)
        (head?_append_of_IsDigits _ _ hdH _ (fun c hc => (isDigit_props c hc).1))
        (by
          intro c hc
          rw [← List.cons_append, ← List.append_assoc, List.getLast?_append] at hc
          simp only [List.getLast?_singleton, Option.or, Option.mem_def,
            Option.some.injEq] at hc
          subst hc
          decide),
      parseTimeDuration_of_found _ _ _ _ (FindStringSubmatch_hours_minutes _ _ hdH hdM),
      parseHours_of_IsDigits _ hdH (by rw [hvH]; exact hh),
      parseMinutes_of_IsDigits _ hdM (by rw [hvM]; omega), hvH, hvM]
    by_cases h60 : (m : Int) ≥ 60
    · simp only [h60, if_true]
      have hw : wrapInt64 ((h : Int) + (m : Int) / 60) = (h : Int) + (m : Int) / 60 := by
        apply wrapInt64_of_inRange
        · unfold minInt64
          omega
        · unfold maxInt64
          omega
      rw [hw]
      push_cast
      rfl
    · simp only [h60, if_false]
      have h1 : m / 60 = 0 := by omega
      have h2 : m % 60 = m := by omega
      rw [h1, h2]
      simp
  refine ⟨key, ?_⟩
  rw [key]
  unfold GetTotalMinutes
  simp only
  have hw1 : wrapInt64 (((h + m / 60 : Nat) : Int) * 60) = ((h + m / 60 : Nat) : Int) * 60 := by
    apply wrapInt64_of_inRange
    · unfold minInt64
      omega
    · unfold maxInt64
      omega
  rw [hw1]
  have hw2 : wrapInt64 (((h + m / 60 : Nat) : Int) * 60 + ((m % 60 : Nat) : Int))
      = ((h + m / 60 : Nat) : Int) * 60 + ((m % 60 : Nat) : Int) := by
    apply wrapInt64_of_inRange
    · unfold minInt64
      omega
    · unfold maxInt64
      omega
  rw [hw2]
  omega

/-- Witness for C13: "1h90m" gives {2, 30}, 150 minutes in all. -/
theorem ParseDuration_hours_and_minutes_witness :
    ParseDuration "1h90m" = (⟨2, 30, true⟩, none) ∧
    GetTotalMinutes (ParseDuration "1h90m").1 = 150 :=
  ParseDuration_hours_and_minutes 1 90 (by norm_num) (by norm_num)

/-- Counterexample for C13: `2 ^ 53 + 1` hours are read as `2 ^ 53` hours, and
`2 ^ 63` minutes are dropped. -/
theorem ParseDuration_hours_and_minutes_out_of_range :
    ParseDuration "9007199254740993h0m" = (⟨9007199254740992, 0, true⟩, none) ∧
    ParseDuration "1h9223372036854775808m" = (⟨1, 0, true⟩, none) ∧
    ParseDuration "1h30m" = (⟨1, 30, true⟩, none) := by
  decide

theorem ToLower_append (a b : List Char) : ToLower (a ++ b) = ToLower a ++ ToLower b := by
  unfold ToLower
  rw [List.map_append]

theorem count_of_pos (n : Nat) (h1 : 1 ≤ n) :
    (some (n : Int)).bind (fun count => if count > 0 then some count else none)
      = some (n : Int) := by
  have : (n : Int) > 0 := by omega
  simp [this]

/-- Function `parseCount` on a run of digits followed by `x`. -/
theorem parseCount_x (A : List Char) (hA : IsDigits A) (h1 : 1 ≤ digitsValue A)
    (h2 : digitsValue A ≤ 2 ^ 63 - 1) :
    parseCount (A ++ ['x']) = (⟨(digitsValue A : Int), 0, true⟩, none) := by
  have ht : TrimSpace (A ++ ['x']) = A ++ ['x'] :=
    TrimSpace_eq_self _ (by simp)
      (head?_append_of_IsDigits A _ hA _ (fun c hc => (isDigit_props c hc).1))
      (by simp; decide)
  have hl : ToLower (A ++ ['x']) = A ++ ['x'] := by
    rw [ToLower_append, ToLower_digits A hA.2]
    rfl
  unfold parseCount
  simp only [ht, hl, HasSuffix_append, if_true, TrimSuffix_append, Atoi_of_IsDigits A hA h2,
    count_of_pos _ h1]

/-- Function `parseCount` on a run of digits followed by `times`, with or
without a space between them. -/
theorem parseCount_times (A sp : List Char) (hA : IsDigits A) (h1 : 1 ≤ digitsValue A)
    (h2 : digitsValue A ≤ 2 ^ 63 - 1) (hsp : sp = [] ∨ sp = [' ']) :
    parseCount (A ++ sp ++ "times".data) = (⟨(digitsValue A : Int), 0, true⟩, none) := by
  have ht : TrimSpace (A ++ sp ++ "times".data) = A ++ sp ++ "times".data :=
    TrimSpace_eq_self _ (by simp)
      (by
        rw [List.append_assoc]
        exact head?_append_of_IsDigits A _ hA _ (fun c hc => (isDigit_props c hc).1))
      (by
        intro c hc
        rw [show "times".data = "time".data ++ ['s'] from rfl, ← List.append_assoc,
          List.getLast?_append] at hc
        simp only [List.getLast?_singleton, Option.or, Option.mem_def, Option.some.injEq] at hc
        subst hc
        decide)
  have hl : ToLower (A ++ sp ++ "times".data) = A ++ sp ++ "times".data := by
    rw [ToLower_append, ToLower_append, ToLower_digits A hA.2]
    rcases hsp with rfl | rfl <;> rfl
  have hx : HasSuffix (A ++ sp ++ "times".data) ['x'] = false := by
    rw [show "times".data = "time".data ++ ['s'] from rfl, ← List.append_assoc]
    exact HasSuffix_of_last_ne _ [] 's' 'x' (by decide)
  have hsp2 : TrimSpace (A ++ sp) = A := by
    have := TrimSpace_surround [] A sp (by simp)
      (by rcases hsp with rfl | rfl <;> simp; decide) hA.1
      (IsDigits_ends A hA).1 (fun c hc => ((IsDigits_ends A hA).2 c hc).1)
    simpa using this
  unfold parseCount
  simp only [ht, hl, hx, HasSuffix_append, if_true, TrimSuffix_append, hsp2,
    Atoi_of_IsDigits A hA h2, count_of_pos _ h1, Bool.false_eq_true, if_false]

/-- Function `ParseDuration` on a text inside white space, when the text ends
in `x` or in `times`: the result of `parseCount` on the text. -/
theorem ParseDuration_count (w1 core w2 : List Char) (h1 : ∀ c ∈ w1, isSpace c = true)
    (h2 : ∀ c ∈ w2, isSpace c = true) (hc : core ≠ [])
    (hh : ∀ c ∈ core.head?, isSpace c = false) (hl : ∀ c ∈ core.getLast?, isSpace c = false)
    (hs : (HasSuffix core ['x'] || HasSuffix core "times".data) = true) :
    ParseDuration ⟨w1 ++ core ++ w2⟩ = parseCount core := by
  have ht := TrimSpace_surround w1 core w2 h1 h2 hc hh hl
  unfold ParseDuration
  dsimp only
  rw [ht, if_neg hc, if_pos hs]

/-- C15: for every integer `n` with `1 ≤ n < 2 ^ 63`, `ParseDuration` of the
decimal text of `n` followed by "x", by "times" or by " times", also inside
white space, succeeds and returns the count `n` in the Hours field, with
Minutes = 0 and IsValid = true. -/
theorem ParseDuration_count_forms (n : Nat) (w1 w2 : String) (hn1 : 1 ≤ n)
    (hn2 : n < 2 ^ 63) (hw1 : ∀ c ∈ w1.data, isSpace c = true)
    (hw2 : ∀ c ∈ w2.data, isSpace c = true) :
    ParseDuration (w1 ++ toString n ++ "x" ++ w2) = (⟨n, 0, true⟩, none) ∧
    ParseDuration (w1 ++ toString n ++ "times" ++ w2) = (⟨n, 0, true⟩, none) ∧
    ParseDuration (w1 ++ toString n ++ " times" ++ w2) = (⟨n, 0, true⟩, none) := by
  obtain ⟨hd, hv⟩ := toString_digits n
  have hhead : ∀ rest : List Char, ∀ c ∈ ((toString n).data ++ rest).head?, isSpace c = false :=
    fun rest => head?_append_of_IsDigits _ rest hd _ (fun c hc => (isDigit_props c hc).1)
  have hlast : ∀ pre : List Char, ∀ c ∈ (pre ++ "times".data).getLast?, isSpace c = false := by
    intro pre c hc
    rw [show "times".data = "time".data ++ ['s'] from rfl, ← List.append_assoc,
      List.getLast?_append] at hc
    simp only [List.getLast?_singleton, Option.or, Option.mem_def, Option.some.injEq] at hc
    subst hc
    decide
  refine ⟨?_, ?_, ?_⟩
  · have e : w1 ++ toString n ++ "x" ++ w2 = ⟨w1.data ++ ((toString n).data ++ ['x']) ++ w2.data⟩ := by
      apply String.ext
      simp [String.data_append]
    rw [e, ParseDuration_count _ _ _ hw1 hw2 (by simp) (hhead _) (by simp; decide)
      (by rw [HasSuffix_append]; rfl),
      parseCount_x _ hd (by rw [hv]; exact hn1) (by rw [hv]; omega), hv]
  · have e : w1 ++ toString n ++ "times" ++ w2
        = ⟨w1.data ++ ((toString n).data ++ [] ++ "times".data) ++ w2.data⟩ := by
      apply String.ext
      simp [String.data_append]
    rw [e, ParseDuration_count _ _ _ hw1 hw2 (by simp) (by rw [List.append_assoc]; exact hhead _)
      (hlast _) (by rw [HasSuffix_append]; simp),
      parseCount_times _ _ hd (by rw [hv]; exact hn1) (by rw [hv]; omega) (Or.inl rfl), hv]
  · have e : w1 ++ toString n ++ " times" ++ w2
        = ⟨w1.data ++ ((toString n).data ++ [' '] ++ "times".data) ++ w2.data⟩ := by
      apply String.ext
      simp [String.data_append]
    rw [e, ParseDuration_count _ _ _ hw1 hw2 (by simp) (by rw [List.append_assoc]; exact hhead _)
      (hlast _) (by rw [HasSuffix_append]; simp),
      parseCount_times _ _ hd (by rw [hv]; exact hn1) (by rw [hv]; omega) (Or.inr rfl), hv]

/-- Witness for C15: the count 8 inside white space. -/
theorem ParseDuration_count_forms_witness :
    ParseDuration " 8x\t" = (⟨8, 0, true⟩, none) ∧
    ParseDuration " 8times\t" = (⟨8, 0, true⟩, none) ∧
    ParseDuration " 8 times\t" = (⟨8, 0, true⟩, none) :=
  ParseDuration_count_forms 8 " " "\t" (by norm_num) (by norm_num) (by decide) (by decide)

/-- Counterexample for C15: the count `2 ^ 63` is rejected; "8x" gives the count
8 and "3 times" the count 3. -/
theorem ParseDuration_count_out_of_range :
    ParseDuration "9223372036854775808x" = (⟨0, 0, false⟩, some ParseError.invalidCountFormat) ∧
    ParseDuration "9223372036854775808 times"
      = (⟨0, 0, false⟩, some ParseError.invalidCountFormat) ∧
    ParseDuration "8x" = (⟨8, 0, true⟩, none) ∧
    ParseDuration "3 times" = (⟨3, 0, true⟩, none) := by
  decide

/-! ## Theorems: bounds of `float64` operations -/

namespace Float64

/-- A finite result of rounding a positive value is zero or in the form of a
binary64 value. -/
theorem round_false_canonical (a d : Nat) (ha : 0 < a) (hd : 0 < d) :
    round false a d = inf false ∨ round false a d = fin 0 0 ∨
    ∃ (M : Nat) (E : ℤ), round false a d = fin (M : ℤ) E ∧ 0 < M ∧ M < 2 ^ 53 ∧ -1074 ≤ E ∧
      (M : ℚ) * (2 : ℚ) ^ E = (significand a d : ℚ) * (2 : ℚ) ^ (ulpExponent a d) := by
  unfold round
  simp only [ha.ne', if_false]
  by_cases h0 : significand a d = 0
  · right; left
    simp [h0]
  · simp only [h0, if_false]
    by_cases h53 : significand a d = 2 ^ 53
    · simp only [h53, if_true]
      by_cases hu : 971 < ulpExponent a d + 1
      · left; simp [hu]
      · right; right
        refine ⟨2 ^ 52, ulpExponent a d + 1, by simp [hu, signed], by positivity, by norm_num,
          by have := ulpExponent_ge a d; omega, ?_⟩
        have := two_zpow_succ_mul 52 (ulpExponent a d)
        push_cast at this ⊢
        linarith
    · simp only [h53, if_false]
      by_cases hu : 971 < ulpExponent a d
      · left; simp [hu]
      · right; right
        have hle := significand_le_pow a d ha hd
        exact ⟨significand a d, ulpExponent a d, by simp [hu, signed], Nat.pos_of_ne_zero h0,
          lt_of_le_of_ne hle h53, ulpExponent_ge a d, rfl⟩

/-- Rounding does not pass a binary64 value above the exact value. -/
theorem round_false_le (a d Mf : Nat) (Uf : ℤ) (hd : 0 < d) (hM1 : 2 ^ 52 ≤ Mf)
    (hM2 : Mf < 2 ^ 53) (hU : -1074 ≤ Uf) (hU2 : Uf ≤ 971)
    (h : (a : ℚ) / d ≤ (Mf : ℚ) * (2 : ℚ) ^ Uf) :
    ∃ M E, round false a d = fin M E ∧ 0 ≤ M ∧
      (M : ℚ) * (2 : ℚ) ^ E ≤ (Mf : ℚ) * (2 : ℚ) ^ Uf := by
  have hpU : (0 : ℚ) < (2 : ℚ) ^ Uf := by positivity
  by_cases ha : a = 0
  · subst ha
    refine ⟨0, 0, by simp [round], le_rfl, ?_⟩
    simp only [Int.cast_zero, zero_mul]
    positivity
  have hb := round_le a d Mf Uf (Nat.pos_of_ne_zero ha) hd (Or.inl hM1) hM2 hU (by
    have : (Mf : ℚ) * (2 : ℚ) ^ Uf < ((Mf : ℚ) + 1 / 2) * (2 : ℚ) ^ Uf :=
      mul_lt_mul_of_pos_right (by linarith) hpU
    linarith)
  rcases round_false_cases a d with hi | ⟨M, E, h1, h2, h3⟩
  · exfalso
    refine round_false_ne_inf a d (Nat.pos_of_ne_zero ha) hd ?_ hi
    refine lt_of_le_of_lt hb ?_
    have h53 : (Mf : ℚ) < (2 : ℚ) ^ (53 : ℤ) := by
      have h0 : (Mf : ℚ) < ((2 ^ 53 : ℕ) : ℚ) := by exact_mod_cast hM2
      have h1 : (((2 ^ 53 : ℕ)) : ℚ) = (2 : ℚ) ^ (53 : ℤ) := by norm_num
      rwa [h1] at h0
    calc (Mf : ℚ) * (2 : ℚ) ^ Uf < (2 : ℚ) ^ (53 : ℤ) * (2 : ℚ) ^ Uf :=
          mul_lt_mul_of_pos_right h53 hpU
      _ = (2 : ℚ) ^ (53 + Uf) := by rw [zpow_add₀ (by norm_num : (2 : ℚ) ≠ 0)]
      _ ≤ (2 : ℚ) ^ (1024 : ℤ) := zpow_le_zpow_right₀ (by norm_num) (by omega)
  · exact ⟨M, E, h1, h2, by rw [h3]; exact hb⟩

/-- Rounding does not pass a binary64 value below the exact value. -/
theorem round_false_ge (a d Mf : Nat) (Uf : ℤ) (hd : 0 < d) (hM1 : 2 ^ 52 ≤ Mf)
    (hM2 : Mf < 2 ^ 53) (hU : -1074 ≤ Uf) (h : (Mf : ℚ) * (2 : ℚ) ^ Uf ≤ (a : ℚ) / d) :
    round false a d = inf false ∨
    ∃ M E, round false a d = fin M E ∧ 0 ≤ M ∧
      (Mf : ℚ) * (2 : ℚ) ^ Uf ≤ (M : ℚ) * (2 : ℚ) ^ E := by
  have hpU : (0 : ℚ) < (2 : ℚ) ^ Uf := by positivity
  have hMq : (0 : ℚ) < (Mf : ℚ) := by
    have : 0 < Mf := lt_of_lt_of_le (by positivity) hM1
    exact_mod_cast this
  have ha : 0 < a := by
    rcases Nat.eq_zero_or_pos a with h0 | h0
    · subst h0
      have : (0 : ℚ) < (Mf : ℚ) * (2 : ℚ) ^ Uf := mul_pos hMq hpU
      simp at h
      linarith
    · exact h0
  have hb := round_ge a d Mf Uf ha hd hM1 hM2 hU h
  rcases round_false_cases a d with hi | ⟨M, E, h1, h2, h3⟩
  · exact Or.inl hi
  · exact Or.inr ⟨M, E, h1, h2, by rw [h3]; exact hb⟩

theorem natAbs_cast_of_nonneg (n : ℤ) (hn : 0 ≤ n) : ((n.natAbs : ℕ) : ℚ) = (n : ℚ) := by
  have h0 : ((n.natAbs : ℤ) : ℚ) = (n : ℚ) := by rw [Int.natAbs_of_nonneg hn]
  rwa [Int.cast_natCast] at h0

/-- Product of two finite values that are not negative: the rounding of the
exact product. -/
theorem mul_fin_nonneg (M1 E1 M2 E2 : ℤ) (h1 : 0 ≤ M1) (h2 : 0 ≤ M2) :
    ∃ A D : Nat, 0 < D ∧ mul (fin M1 E1) (fin M2 E2) = round false A D ∧
      (A : ℚ) / D = (M1 : ℚ) * (2 : ℚ) ^ E1 * ((M2 : ℚ) * (2 : ℚ) ^ E2) := by
  unfold mul
  simp only
  obtain ⟨e1, e2, e3⟩ := roundScaled_of_nonneg (M1 * M2) (by positivity) 1 (by norm_num)
    (E1 + E2)
  refine ⟨_, _, e2, e1, ?_⟩
  rw [e3, zpow_add₀ (by norm_num : (2 : ℚ) ≠ 0)]
  push_cast
  ring

/-- Quotient of a finite value that is not negative by a positive one: the
rounding of the exact quotient. -/
theorem div_fin_pos (M1 E1 M2 E2 : ℤ) (h1 : 0 ≤ M1) (h2 : 0 < M2) :
    ∃ A D : Nat, 0 < D ∧ div (fin M1 E1) (fin M2 E2) = round false A D ∧
      (A : ℚ) / D = (M1 : ℚ) * (2 : ℚ) ^ E1 / ((M2 : ℚ) * (2 : ℚ) ^ E2) := by
  unfold div
  simp only [h2.ne', if_false, not_lt.mpr h2.le]
  obtain ⟨e1, e2, e3⟩ := roundScaled_of_nonneg M1 h1 M2.natAbs (by omega) (E1 - E2)
  refine ⟨_, _, e2, e1, ?_⟩
  rw [e3, natAbs_cast_of_nonneg M2 h2.le, zpow_sub₀ (by norm_num : (2 : ℚ) ≠ 0)]
  have hM2q : (M2 : ℚ) ≠ 0 := by exact_mod_cast h2.ne'
  have hp : (2 : ℚ) ^ E2 ≠ 0 := by positivity
  field_simp

/-- Difference of two finite values, the first at least the second: the
rounding of the exact difference. -/
theorem sub_fin_le (M1 E1 M2 E2 : ℤ)
    (h : (M2 : ℚ) * (2 : ℚ) ^ E2 ≤ (M1 : ℚ) * (2 : ℚ) ^ E1) :
    ∃ A D : Nat, 0 < D ∧ sub (fin M1 E1) (fin M2 E2) = round false A D ∧
      (A : ℚ) / D = (M1 : ℚ) * (2 : ℚ) ^ E1 - (M2 : ℚ) * (2 : ℚ) ^ E2 := by
  unfold sub neg add
  simp only
  have hp : (0 : ℚ) < (2 : ℚ) ^ (min E1 E2) := by positivity
  have hval : (((M1 * 2 ^ (E1 - min E1 E2).toNat + -M2 * 2 ^ (E2 - min E1 E2).toNat : ℤ)) : ℚ)
      * (2 : ℚ) ^ (min E1 E2) = (M1 : ℚ) * (2 : ℚ) ^ E1 - (M2 : ℚ) * (2 : ℚ) ^ E2 := by
    have a1 := align_min_left M1 E1 E2
    have a2 := align_min_right M2 E1 E2
    push_cast at a1 a2 ⊢
    linarith
  have hn : 0 ≤ M1 * 2 ^ (E1 - min E1 E2).toNat + -M2 * 2 ^ (E2 - min E1 E2).toNat := by
    have : (0 : ℚ) ≤ (((M1 * 2 ^ (E1 - min E1 E2).toNat + -M2 * 2 ^ (E2 - min E1 E2).toNat : ℤ)) : ℚ)
        * (2 : ℚ) ^ (min E1 E2) := by
      rw [hval]
      linarith
    have h2 := nonneg_of_mul_nonneg_left this hp
    exact_mod_cast h2
  obtain ⟨e1, e2, e3⟩ := roundScaled_of_nonneg _ hn 1 (by norm_num) (min E1 E2)
  refine ⟨_, _, e2, e1, ?_⟩
  rw [e3, ← hval]
  simp

end Float64

namespace Float64

/-- Conversion `int(x)` of a finite value between 0 and a bound in the 64-bit
range: the floor of the value. -/
theorem toInt_fin_of_le (M E : ℤ) (hM : 0 ≤ M) (N : ℤ) (hN : N ≤ maxInt64)
    (h : (M : ℚ) * (2 : ℚ) ^ E ≤ (N : ℚ)) :
    toInt (fin M E) = ⌊(M : ℚ) * (2 : ℚ) ^ E⌋ ∧ 0 ≤ ⌊(M : ℚ) * (2 : ℚ) ^ E⌋ ∧
      ⌊(M : ℚ) * (2 : ℚ) ^ E⌋ ≤ N := by
  have h0 : (0 : ℚ) ≤ (M : ℚ) * (2 : ℚ) ^ E := by
    have : (0 : ℚ) ≤ (M : ℚ) := by exact_mod_cast hM
    positivity
  have h1 : ⌊(M : ℚ) * (2 : ℚ) ^ E⌋ ≤ N := by
    have := Int.floor_le ((M : ℚ) * (2 : ℚ) ^ E)
    have h2 : ((⌊(M : ℚ) * (2 : ℚ) ^ E⌋ : ℤ) : ℚ) ≤ (N : ℚ) := le_trans this h
    exact_mod_cast h2
  refine ⟨?_, Int.floor_nonneg.mpr h0, h1⟩
  rw [toInt_fin_nonneg M E hM, if_pos (le_trans h1 hN)]

/-- The integer part of a binary64 value of at most `2 ^ 60` converts
exactly. -/
theorem ofInt_floor_exact (M : Nat) (E : ℤ) (hM : M < 2 ^ 53) (hE : -1074 ≤ E)
    (hv : (M : ℚ) * (2 : ℚ) ^ E ≤ (2 : ℚ) ^ (60 : ℕ)) :
    ∃ M2 E2, ofInt ⌊(M : ℚ) * (2 : ℚ) ^ E⌋ = fin M2 E2 ∧ 0 ≤ M2 ∧
      (M2 : ℚ) * (2 : ℚ) ^ E2 = ((⌊(M : ℚ) * (2 : ℚ) ^ E⌋ : ℤ) : ℚ) := by
  by_cases hE0 : 0 ≤ E
  · have hval : (M : ℚ) * (2 : ℚ) ^ E = ((M * 2 ^ E.toNat : ℕ) : ℚ) := by
      push_cast
      congr 1
      rw [← zpow_natCast, Int.toNat_of_nonneg hE0]
    have hfl : ⌊(M : ℚ) * (2 : ℚ) ^ E⌋ = ((M * 2 ^ E.toNat : ℕ) : ℤ) := by
      rw [hval]
      exact Int.floor_natCast _
    rw [hfl, ofInt_natCast]
    have hex := round_exact (M * 2 ^ E.toNat) 1 M E (by norm_num) hM hE (by
      rw [← hval]
      simp)
    obtain ⟨M2, E2, h1, h2, h3⟩ := round_false_le (M * 2 ^ E.toNat) 1 (2 ^ 52) 8 (by norm_num)
      (by norm_num) (by norm_num) (by norm_num) (by norm_num) (by
        have e : (((2 ^ 52 : ℕ)) : ℚ) * (2 : ℚ) ^ (8 : ℤ) = (2 : ℚ) ^ (60 : ℕ) := by norm_num
        rw [e, ← hval]
        simpa using hv)
    refine ⟨M2, E2, h1, h2, ?_⟩
    rcases round_false_cases (M * 2 ^ E.toNat) 1 with hi | ⟨M3, E3, g1, g2, g3⟩
    · rw [hi] at h1
      exact absurd h1 (by simp)
    · rw [g1] at h1
      simp only [fin.injEq] at h1
      rw [← h1.1, ← h1.2, g3, hex]
      simp
  · have hfl : ⌊(M : ℚ) * (2 : ℚ) ^ E⌋ = ((M / 2 ^ (-E).toNat : ℕ) : ℤ) := by
      have hE2 : E = -(((-E).toNat : ℕ) : ℤ) := by
        rw [Int.toNat_of_nonneg (by omega)]
        ring
      have : (M : ℚ) * (2 : ℚ) ^ E = (M : ℚ) / (((2 ^ (-E).toNat : ℕ)) : ℚ) := by
        conv_lhs => rw [hE2]
        rw [zpow_neg, zpow_natCast]
        push_cast
        rfl
      rw [this, ← Int.natCast_floor_eq_floor (by positivity), Nat.floor_div_eq_div]
    rw [hfl]
    have hle : M / 2 ^ (-E).toNat ≤ 2 ^ 53 := le_trans (Nat.div_le_self _ _) hM.le
    obtain ⟨M2, E2, h1, h2, h3⟩ := ofInt_exact (M / 2 ^ (-E).toNat) hle
    exact ⟨M2, E2, h1, h2, by rw [h3, Int.cast_natCast]⟩

theorem ofInt_60 : ofInt 60 = fin 8444249301319680 (-47) := by decide

/-- Hours and minutes of a parsed value of at most `2 ^ 60`: the integer part is
between 0 and `2 ^ 60`, and the remainder times 60, taken as an integer, is
between 0 and 60. -/
theorem hours_minutes_bounds (a d : Nat) (hd : 0 < d)
    (h : (a : ℚ) / d ≤ (2 : ℚ) ^ (60 : ℕ)) :
    round false a d ≠ inf false ∧
    0 ≤ toInt (round false a d) ∧ toInt (round false a d) ≤ 2 ^ 60 ∧
    0 ≤ toInt (mul (sub (round false a d) (ofInt (toInt (round false a d)))) (ofInt 60)) ∧
    toInt (mul (sub (round false a d) (ofInt (toInt (round false a d)))) (ofInt 60)) ≤ 60 := by
  have e60 : (((2 ^ 52 : ℕ)) : ℚ) * (2 : ℚ) ^ (8 : ℤ) = (2 : ℚ) ^ (60 : ℕ) := by norm_num
  by_cases ha : a = 0
  · subst ha
    have : round false 0 d = fin 0 0 := by simp [round]
    rw [this]
    decide
  obtain ⟨M0, E0, r1, r2, r3⟩ := round_false_le a d (2 ^ 52) 8 hd (by norm_num) (by norm_num)
    (by norm_num) (by norm_num) (by rw [e60]; exact h)
  rw [e60] at r3
  rcases round_false_canonical a d (Nat.pos_of_ne_zero ha) hd with hi | hz | ⟨M, E, c1, c2, c3, c4, _⟩
  · rw [hi] at r1
    exact absurd r1 (by simp)
  · rw [hz]
    decide
  · have hME : M0 = (M : ℤ) ∧ E0 = E := by
      rw [c1] at r1
      simp only [fin.injEq] at r1
      exact ⟨r1.1.symm, r1.2.symm⟩
    rw [hME.1, hME.2] at r3
    rw [Int.cast_natCast] at r3
    rw [c1]
    -- the integer part
    have hN : ((2 : ℤ) ^ 60) ≤ maxInt64 := by
      unfold maxInt64
      norm_num
    obtain ⟨t1, t2, t3⟩ := toInt_fin_of_le (M : ℤ) E (Int.natCast_nonneg _) (2 ^ 60) hN (by
      rw [Int.cast_natCast]
      push_cast
      exact r3)
    rw [Int.cast_natCast] at t1 t2 t3
    refine ⟨by simp, by rw [t1]; exact t2, by rw [t1]; exact t3, ?_⟩
    rw [t1]
    obtain ⟨M2, E2, o1, o2, o3⟩ := ofInt_floor_exact M E c3 c4 r3
    rw [o1]
    -- the remainder
    have hfl1 : ((⌊(M : ℚ) * (2 : ℚ) ^ E⌋ : ℤ) : ℚ) ≤ (M : ℚ) * (2 : ℚ) ^ E := Int.floor_le _
    have hfl2 : (M : ℚ) * (2 : ℚ) ^ E < ((⌊(M : ℚ) * (2 : ℚ) ^ E⌋ : ℤ) : ℚ) + 1 :=
      Int.lt_floor_add_one _
    obtain ⟨A, D, s1, s2, s3⟩ := sub_fin_le (M : ℤ) E M2 E2 (by
      rw [o3, Int.cast_natCast]
      exact hfl1)
    rw [s2]
    rw [o3, Int.cast_natCast] at s3
    obtain ⟨M3, E3, w1, w2, w3⟩ := round_false_le A D (2 ^ 52) (-52) s1 (by norm_num)
      (by norm_num) (by norm_num) (by norm_num) (by
        have e1 : (((2 ^ 52 : ℕ)) : ℚ) * (2 : ℚ) ^ (-52 : ℤ) = 1 := by norm_num [zpow_neg]
        rw [e1, s3]
        linarith)
    have e1 : (((2 ^ 52 : ℕ)) : ℚ) * (2 : ℚ) ^ (-52 : ℤ) = 1 := by norm_num [zpow_neg]
    rw [e1] at w3
    rw [w1, ofInt_60]
    -- times 60
    obtain ⟨A2, D2, m1, m2, m3⟩ := mul_fin_nonneg M3 E3 8444249301319680 (-47) w2 (by norm_num)
    rw [m2]
    have e47 : ((8444249301319680 : ℤ) : ℚ) * (2 : ℚ) ^ (-47 : ℤ) = 60 := by
      norm_num [zpow_neg]
    have e47n : ((8444249301319680 : ℕ) : ℚ) * (2 : ℚ) ^ (-47 : ℤ) = 60 := by
      norm_num [zpow_neg]
    rw [e47] at m3
    have hw0 : (0 : ℚ) ≤ (M3 : ℚ) * (2 : ℚ) ^ E3 := by
      have : (0 : ℚ) ≤ (M3 : ℚ) := by exact_mod_cast w2
      positivity
    obtain ⟨M4, E4, z1, z2, z3⟩ := round_false_le A2 D2 8444249301319680 (-47) m1 (by norm_num)
      (by norm_num) (by norm_num) (by norm_num) (by
        rw [e47n, m3]
        linarith)
    rw [e47n] at z3
    rw [z1]
    obtain ⟨u1, u2, u3⟩ := toInt_fin_of_le M4 E4 z2 60 (by unfold maxInt64; norm_num) (by
      push_cast
      exact z3)
    rw [u1]
    exact ⟨u2, u3⟩

end Float64

/-! ## Theorems: the result of the parser -/

theorem isDigit_toNat (c : Char) (h : c.isDigit = true) : c.toNat - 48 ≤ 9 := by
  obtain ⟨k, hk, rfl⟩ := isDigit_cases c h
  rw [(digitChar_spec k hk).1]
  omega

/-- A run of digits has a value below the power of ten of its length. -/
theorem digitsValue_lt (ds : List Char) (h : ∀ c ∈ ds, c.isDigit = true) :
    digitsValue ds < 10 ^ ds.length := by
  induction ds using List.reverseRecOn with
  | nil => simp [digitsValue]
  | append_singleton xs c ih =>
    have h1 := ih (fun x hx => h x (List.mem_append_left _ hx))
    have h2 := isDigit_toNat c (h c (by simp))
    rw [digitsValue_append, List.length_append, List.length_singleton, pow_succ]
    omega

theorem takeWhile_prefix (p : Char → Bool) (rest : List Char)
    (hr : ∀ c ∈ rest.head?, p c = false) : ∀ (ds : List Char), (∀ c ∈ ds, p c = true) →
    (ds ++ rest).takeWhile p = ds := by
  intro ds
  induction ds with
  | nil =>
    intro _
    cases rest with
    | nil => rfl
    | cons c cs =>
      have := hr c (by simp)
      simp [List.takeWhile_cons, this]
  | cons w ws ih =>
    intro hall
    have hw : p w = true := hall w (List.mem_cons_self _ _)
    simp only [List.cons_append, List.takeWhile_cons, hw, if_true]
    rw [ih (fun c hc => hall c (List.mem_cons_of_mem _ hc))]

/-- Function `ParseFloat` on digits, a dot and digits: the rounded value. -/
theorem ParseFloat_of_fraction (i f : List Char) (hi : IsDigits i) (hf : IsDigits f) :
    ParseFloat (i ++ '.' :: f) =
      if (Float64.round false (digitsValue (i ++ f)) (10 ^ f.length)).isFinite then
        some (Float64.round false (digitsValue (i ++ f)) (10 ^ f.length)) else none := by
  unfold ParseFloat
  have h1 : (i ++ '.' :: f).takeWhile Char.isDigit = i :=
    takeWhile_prefix _ _ (by simp) i hi.2
  have h2 : (i ++ '.' :: f).dropWhile Char.isDigit = '.' :: f :=
    dropWhile_prefix _ _ (by simp) i hi.2
  have h3 : f.all Char.isDigit = true := List.all_eq_true.mpr hf.2
  simp only [h1, h2, ne_eq, hi.1, hf.1, not_false_eq_true, h3, and_self, if_true,
    Option.some_bind]

/-- Hours and minutes of the first group of an input of at most 18
characters. -/
theorem parseHours_bounds (g : List Char)
    (hg : g = [] ∨ IsDigits g ∨ ∃ i f, g = i ++ '.' :: f ∧ IsDigits i ∧ IsDigits f)
    (hl : g.length ≤ 18) :
    0 ≤ (parseHours g).1 ∧ (parseHours g).1 ≤ 2 ^ 60 ∧
    0 ≤ (parseHours g).2 ∧ (parseHours g).2 ≤ 60 := by
  have key : ∀ (a d : Nat), 0 < d → (a : ℚ) / d ≤ (2 : ℚ) ^ (60 : ℕ) → g ≠ [] →
      ParseFloat g = (if (Float64.round false a d).isFinite then
        some (Float64.round false a d) else none) →
      0 ≤ (parseHours g).1 ∧ (parseHours g).1 ≤ 2 ^ 60 ∧
      0 ≤ (parseHours g).2 ∧ (parseHours g).2 ≤ 60 := by
    intro a d hd hb hne hpf
    obtain ⟨b0, b1, b2, b3, b4⟩ := Float64.hours_minutes_bounds a d hd hb
    unfold parseHours
    rw [hpf]
    cases hx : Float64.round false a d with
    | nan => simp [Float64.isFinite, hne]
    | inf s => simp [Float64.isFinite, hne]
    | fin M E =>
      rw [hx] at b1 b2 b3 b4
      simp only [ne_eq, hne, not_false_eq_true, if_true, Float64.isFinite]
      split_ifs
      · exact ⟨b1, b2, b3, b4⟩
      · exact ⟨b1, b2, le_rfl, by norm_num⟩
  have h18 : ((10 : ℚ) ^ (18 : ℕ)) ≤ (2 : ℚ) ^ (60 : ℕ) := by norm_num
  rcases hg with rfl | hd | ⟨i, f, rfl, hi, hf⟩
  · simp [parseHours]
  · apply key (digitsValue g) 1 (by norm_num) _ hd.1 (ParseFloat_of_IsDigits g hd)
    have h1 := digitsValue_lt g hd.2
    have h2 : digitsValue g < 10 ^ 18 :=
      lt_of_lt_of_le h1 (Nat.pow_le_pow_right (by norm_num) hl)
    have h3 : (digitsValue g : ℚ) < (10 : ℚ) ^ (18 : ℕ) := by exact_mod_cast h2
    simp only [Nat.cast_one, div_one]
    linarith
  · apply key (digitsValue (i ++ f)) (10 ^ f.length) (by positivity) _ (by simp)
      (ParseFloat_of_fraction i f hi hf)
    have h1 := digitsValue_lt (i ++ f) (by
      intro c hc
      rcases List.mem_append.mp hc with h | h
      · exact hi.2 c h
      · exact hf.2 c h)
    simp only [List.length_append, List.length_cons] at hl h1
    have h2 : digitsValue (i ++ f) < 10 ^ 18 * 10 ^ f.length := by
      rw [← pow_add]
      exact lt_of_lt_of_le h1 (Nat.pow_le_pow_right (by norm_num) (by omega))
    have h3 : (digitsValue (i ++ f) : ℚ) < (10 : ℚ) ^ (18 : ℕ) * (10 : ℚ) ^ f.length := by
      exact_mod_cast h2
    have hp : (0 : ℚ) < (10 : ℚ) ^ f.length := by positivity
    push_cast
    rw [div_le_iff₀ hp]
    have := mul_le_mul_of_nonneg_right h18 hp.le
    linarith

/-- Minutes after the second group of an input of at most 18 characters. -/
theorem parseMinutes_bounds (g : List Char) (hg : g = [] ∨ IsDigits g) (hl : g.length ≤ 18)
    (minutes : Int) (h0 : 0 ≤ minutes) (h60 : minutes ≤ 60) :
    0 ≤ parseMinutes g minutes ∧ parseMinutes g minutes ≤ 60 + 10 ^ 18 := by
  rcases hg with rfl | hd
  · rw [parseMinutes_nil]
    exact ⟨h0, by omega⟩
  · have h1 := digitsValue_lt g hd.2
    have h2 : digitsValue g < 10 ^ 18 :=
      lt_of_lt_of_le h1 (Nat.pow_le_pow_right (by norm_num) hl)
    have h3 : ((digitsValue g : Nat) : Int) < 10 ^ 18 := by exact_mod_cast h2
    unfold parseMinutes
    rw [Atoi_of_IsDigits g hd (by omega)]
    simp only [ne_eq, hd.1, not_false_eq_true, if_true]
    rw [wrapInt64_of_inRange _ (by unfold minInt64; omega) (by unfold maxInt64; omega)]
    omega

/-- Words of the groups of the pattern of `parseTimeDuration`. -/
theorem Explains_timeRegex (t : List Char) :
    (timeRegex.Explains 1 t → IsDigits t ∨ ∃ i f, t = i ++ '.' :: f ∧ IsDigits i ∧ IsDigits f) ∧
    (timeRegex.Explains 2 t → IsDigits t) := by
  constructor
  · intro h
    rw [← Matches_number]
    simpa [timeRegex, Regex.Explains] using h
  · intro h
    simpa [timeRegex, Regex.Explains, Regex.Matches, IsDigits] using h

/-- Result of `parseTimeDuration` on an input of at most 18 characters that
matches: hours that are not negative and minutes from 0 to 59. -/
theorem parseTimeDuration_bounds (s : List Char) (hl : s.length ≤ 18)
    (hok : (parseTimeDuration s).2.2 = none) :
    0 ≤ (parseTimeDuration s).1 ∧ 0 ≤ (parseTimeDuration s).2.1 ∧
      (parseTimeDuration s).2.1 < 60 := by
  rcases FindStringSubmatch_cases timeRegex s with h | ⟨g1, g2, h, h1, h2⟩
  · unfold parseTimeDuration at hok
    simp [h] at hok
  · have hg1 : g1 = [] ∨ IsDigits g1 ∨ ∃ i f, g1 = i ++ '.' :: f ∧ IsDigits i ∧ IsDigits f := by
      rcases h1 with h1 | ⟨h1, _⟩
      · exact Or.inl h1
      · exact Or.inr ((Explains_timeRegex g1).1 h1)
    have hl1 : g1.length ≤ 18 := by
      rcases h1 with h1 | ⟨_, h1⟩
      · simp [h1]
      · omega
    have hg2 : g2 = [] ∨ IsDigits g2 := by
      rcases h2 with h2 | ⟨h2, _⟩
      · exact Or.inl h2
      · exact Or.inr ((Explains_timeRegex g2).2 h2)
    have hl2 : g2.length ≤ 18 := by
      rcases h2 with h2 | ⟨_, h2⟩
      · simp [h2]
      · omega
    obtain ⟨a1, a2, a3, a4⟩ := parseHours_bounds g1 hg1 hl1
    obtain ⟨b1, b2⟩ := parseMinutes_bounds g2 hg2 hl2 _ a3 a4
    rw [parseTimeDuration_of_found s s g1 g2 h]
    by_cases h60 : parseMinutes g2 (parseHours g1).2 ≥ 60
    · simp only [h60, if_true]
      rw [wrapInt64_of_inRange _ (by unfold minInt64; omega) (by unfold maxInt64; omega)]
      omega
    · simp only [h60, if_false]
      omega

/-- Function `parseCount` fails or returns a positive count. -/
theorem parseCount_cases (s : List Char) :
    parseCount s = (⟨0, 0, false⟩, some ParseError.invalidCountFormat) ∨
    ∃ count : Int, 0 < count ∧ parseCount s = (⟨count, 0, true⟩, none) := by
  have hb : ∀ o : Option Int,
      o.bind (fun count => if count > 0 then some count else none) = none ∨
      ∃ count : Int, 0 < count ∧
        o.bind (fun count => if count > 0 then some count else none) = some count := by
    intro o
    cases o with
    | none => exact Or.inl rfl
    | some c =>
      by_cases hc : c > 0
      · exact Or.inr ⟨c, hc, by simp [hc]⟩
      · exact Or.inl (by simp [hc])
  unfold parseCount
  simp only
  split
  · rename_i count heq
    right
    split_ifs at heq with hx
    · rcases hb (Atoi (TrimSuffix (ToLower (TrimSpace s)) ['x'])) with h | ⟨c, hc, h⟩
      · rw [h] at heq
        exact absurd heq (by simp)
      · rw [h] at heq
        simp only [Option.some.injEq] at heq
        exact ⟨count, by omega, rfl⟩
  · split
    · rename_i count heq
      right
      split_ifs at heq with hx
      · rcases hb (Atoi (TrimSpace (TrimSuffix (ToLower (TrimSpace s)) "times".data)))
          with h | ⟨c, hc, h⟩
        · rw [h] at heq
          exact absurd heq (by simp)
        · rw [h] at heq
          simp only [Option.some.injEq] at heq
          exact ⟨count, by omega, rfl⟩
    · exact Or.inl rfl

/-- C14: on every input on which `ParseDuration` fails the result has
IsValid = false; on every input on which it succeeds the result has
IsValid = true, a count result (trimmed input ending in "x" or "times") has
Hours > 0 and Minutes = 0, and when the trimmed input has at most 18 characters
the result has Hours >= 0 and 0 <= Minutes < 60. -/
theorem ParseDuration_result_invariant (input : String) :
    ((ParseDuration input).2 ≠ none → (ParseDuration input).1.IsValid = false) ∧
    ((ParseDuration input).2 = none →
      (ParseDuration input).1.IsValid = true ∧
      ((HasSuffix (TrimSpace input.data) ['x'] ||
          HasSuffix (TrimSpace input.data) "times".data) = true →
        0 < (ParseDuration input).1.Hours ∧ (ParseDuration input).1.Minutes = 0) ∧
      ((TrimSpace input.data).length ≤ 18 →
        0 ≤ (ParseDuration input).1.Hours ∧ 0 ≤ (ParseDuration input).1.Minutes ∧
        (ParseDuration input).1.Minutes < 60)) := by
  unfold ParseDuration
  dsimp only
  by_cases h0 : TrimSpace input.data = []
  · simp [h0]
  · rw [if_neg h0]
    by_cases hg : (HasSuffix (TrimSpace input.data) ['x'] ||
        HasSuffix (TrimSpace input.data) "times".data) = true
    · rw [if_pos hg]
      rcases parseCount_cases (TrimSpace input.data) with h | ⟨count, hc, h⟩
      · rw [h]
        simp
      · rw [h]
        simp only [ne_eq, not_true_eq_false, false_implies, true_and, forall_const]
        exact ⟨fun _ => ⟨hc, trivial⟩, fun _ => ⟨hc.le, le_rfl, by norm_num⟩⟩
    · rw [if_neg hg]
      have hb := parseTimeDuration_bounds (TrimSpace input.data)
      rcases hp : parseTimeDuration (TrimSpace input.data) with ⟨hours, minutes, _ | err⟩
      · rw [hp] at hb
        simp only [ne_eq, not_true_eq_false, false_implies, true_and, forall_const]
        exact ⟨fun h => absurd h hg, fun hl => hb hl rfl⟩
      · simp

/-- Witness for C14: "1.75h50m" gives 2 hours and 35 minutes. -/
theorem ParseDuration_result_invariant_witness :
    0 ≤ (ParseDuration "1.75h50m").1.Hours ∧ 0 ≤ (ParseDuration "1.75h50m").1.Minutes ∧
      (ParseDuration "1.75h50m").1.Minutes < 60 :=
  ((ParseDuration_result_invariant "1.75h50m").2 (by decide)).2.2 (by decide)

/-- Counterexample for C14: half an hour and `2 ^ 63 - 1` minutes overflow to
a negative number of minutes, and `10 ^ 19` hours are outside the range of `int`
and give the smallest `int` for both fields, in results with IsValid = true. -/
theorem ParseDuration_result_out_of_range :
    ParseDuration "0.5h9223372036854775807m" = (⟨0, -9223372036854775779, true⟩, none) ∧
    ParseDuration "10000000000000000000h"
      = (⟨-9223372036854775808, -9223372036854775808, true⟩, none) := by
  decide

/-! ## Theorems: the bar chart -/

namespace Float64

theorem round_true_eq_neg (a d : Nat) : round true a d = neg (round false a d) := by
  unfold round
  split_ifs <;> simp [neg, signed]

/-- Conversion `int(x)` of a finite value that is not positive is not
positive. -/
theorem toInt_fin_nonpos (M E : ℤ) (hM : M ≤ 0) : toInt (fin M E) ≤ 0 := by
  have hmin : minInt64 ≤ 0 := by
    unfold minInt64
    norm_num
  by_cases hE : 0 ≤ E
  · have hv : M * 2 ^ E.toNat ≤ 0 := mul_nonpos_of_nonpos_of_nonneg hM (by positivity)
    simp only [toInt, hE, if_true]
    split_ifs
    · exact hv
    · exact hmin
  · by_cases hM0 : M < 0
    · simp only [toInt, hE, hM0, if_true, if_false]
      split_ifs
      · have := Int.natCast_nonneg (M.natAbs / 2 ^ (-E).toNat)
        omega
      · exact hmin
    · have h0 : M = 0 := by omega
      subst h0
      simp only [toInt, hE, if_false, lt_irrefl, Int.natAbs_zero, Nat.zero_div, Nat.cast_zero]
      split_ifs
      · exact le_rfl
      · exact hmin

/-- Conversion `float64(n)` of an `int`: a finite value with the sign of `n`,
zero only as `fin 0 0`. -/
theorem ofInt_fin (n : ℤ) (h1 : minInt64 ≤ n) (h2 : n ≤ maxInt64) :
    ofInt n = fin 0 0 ∨
    ∃ M E, ofInt n = fin M E ∧ M ≠ 0 ∧ (0 < M ↔ 0 < n) := by
  have e63 : (((2 ^ 52 : ℕ)) : ℚ) * (2 : ℚ) ^ (11 : ℤ) = (2 : ℚ) ^ (63 : ℕ) := by norm_num
  have hb : ((n.natAbs : ℕ) : ℚ) / ((1 : ℕ) : ℚ) ≤ (2 : ℚ) ^ (63 : ℕ) := by
    have : n.natAbs ≤ 2 ^ 63 := by
      unfold minInt64 maxInt64 at *
      omega
    have h3 : ((n.natAbs : ℕ) : ℚ) ≤ ((2 ^ 63 : ℕ) : ℚ) := by exact_mod_cast this
    have h4 : ((2 ^ 63 : ℕ) : ℚ) = (2 : ℚ) ^ (63 : ℕ) := by norm_num
    rw [Nat.cast_one, div_one, ← h4]
    exact h3
  have hr : ofInt n = round (decide (n < 0)) n.natAbs 1 := by
    unfold ofInt roundScaled
    simp
  by_cases hn0 : n = 0
  · left
    subst hn0
    decide
  have hpos : 0 < n.natAbs := Int.natAbs_pos.mpr hn0
  have hcan := round_false_canonical n.natAbs 1 hpos (by norm_num)
  obtain ⟨M0, E0, r1, r2, r3⟩ := round_false_le n.natAbs 1 (2 ^ 52) 11 (by norm_num)
    (by norm_num) (by norm_num) (by norm_num) (by norm_num) (by rw [e63]; exact hb)
  rcases hcan with hi | hz | ⟨M, E, c1, c2, _, _, _⟩
  · rw [hi] at r1
    exact absurd r1 (by simp)
  · by_cases hneg : n < 0
    · left
      rw [hr]
      simp [hneg, round_true_eq_neg, hz, neg]
    · left
      rw [hr]
      simp [hneg, hz]
  · right
    by_cases hneg : n < 0
    · refine ⟨-(M : ℤ), E, ?_, by omega, ?_⟩
      · rw [hr]
        simp [hneg, round_true_eq_neg, c1, neg]
      · constructor
        · intro h
          omega
        · intro h
          omega
    · refine ⟨(M : ℤ), E, ?_, by omega, ?_⟩
      · rw [hr]
        simp [hneg, c1]
      · constructor
        · intro _
          omega
        · intro _
          omega

theorem wrapInt64_range (x : ℤ) : minInt64 ≤ wrapInt64 x ∧ wrapInt64 x ≤ maxInt64 := by
  unfold wrapInt64 minInt64 maxInt64
  omega

theorem ofInt_10 : ofInt 10 = fin 5629499534213120 (-49) := by decide

theorem ofInt_20 : ofInt 20 = fin 5629499534213120 (-48) := by decide

end Float64

/-- The full scale of the bar is a finite value other than zero; it is positive
exactly when its rational value is. -/
theorem barMaxValue_fin (dailyGoal : Int) :
    ∃ M E, barMaxValue dailyGoal = Float64.fin M E ∧ M ≠ 0 := by
  unfold barMaxValue
  obtain ⟨h1, h2⟩ := Float64.wrapInt64_range (dailyGoal * 7)
  rcases Float64.ofInt_fin (wrapInt64 (dailyGoal * 7)) h1 h2 with h | ⟨M, E, h, hM, _⟩
  · rw [h]
    exact ⟨5629499534213120, -49, by decide, by norm_num⟩
  · rw [h]
    have : Float64.eq (Float64.fin M E) (Float64.ofInt 0) = false := by
      rw [Float64.ofInt_zero]
      simp [Float64.eq, hM]
    rw [this]
    exact ⟨M, E, by simp, hM⟩

/-- The clamps of `generateBarChart`. -/
theorem barLength_eq (habit : Habit) (totalTime : Float64) (totalCount : Int)
    (dailyGoal : Int) :
    barLength habit totalTime totalCount dailyGoal
      = max 0 (min 20 (barScaled habit totalTime totalCount dailyGoal).toInt) := by
  unfold barLength
  simp only
  split_ifs <;> omega

theorem generateBarChart_eq (habit : Habit) (totalTime : Float64) (totalCount : Int)
    (dailyGoal : Int) :
    generateBarChart habit totalTime totalCount dailyGoal
      = ⟨List.replicate (barLength habit totalTime totalCount dailyGoal).toNat '█' ++
          List.replicate (20 - (barLength habit totalTime totalCount dailyGoal).toNat) '░'⟩ := by
  have hk := barLength_eq habit totalTime totalCount dailyGoal
  have e : generateBarChart habit totalTime totalCount dailyGoal
      = if barLength habit totalTime totalCount dailyGoal < 20 then
          ⟨List.replicate (barLength habit totalTime totalCount dailyGoal).toNat '█' ++
            List.replicate (20 - barLength habit totalTime totalCount dailyGoal).toNat '░'⟩
        else ⟨List.replicate (barLength habit totalTime totalCount dailyGoal).toNat '█'⟩ := by
    unfold generateBarChart barLength barScaled barValue barMaxValue
    simp only [Bool.ite_eq_true_distrib]
  rw [e]
  by_cases h : barLength habit totalTime totalCount dailyGoal < 20
  · rw [if_pos h]
    have : (20 - barLength habit totalTime totalCount dailyGoal).toNat
        = 20 - (barLength habit totalTime totalCount dailyGoal).toNat := by omega
    rw [this]
  · rw [if_neg h]
    have : 20 - (barLength habit totalTime totalCount dailyGoal).toNat = 0 := by omega
    rw [this]
    simp

/-- The number of filled glyphs is the floor of the scaled value, clamped to
0..20, when that value is finite and below `2 ^ 63`. -/
theorem barLength_floor (habit : Habit) (totalTime : Float64) (totalCount : Int)
    (dailyGoal : Int) (M E : ℤ)
    (h : barScaled habit totalTime totalCount dailyGoal = Float64.fin M E)
    (hv : (M : ℚ) * (2 : ℚ) ^ E < (2 : ℚ) ^ (63 : ℕ)) :
    barLength habit totalTime totalCount dailyGoal
      = max 0 (min 20 ⌊(M : ℚ) * (2 : ℚ) ^ E⌋) := by
  rw [barLength_eq, h]
  by_cases hM : 0 ≤ M
  · rw [Float64.toInt_fin_nonneg M E hM]
    have h1 : ⌊(M : ℚ) * (2 : ℚ) ^ E⌋ < 2 ^ 63 := by
      rw [Int.floor_lt]
      push_cast
      exact hv
    have h2 : ⌊(M : ℚ) * (2 : ℚ) ^ E⌋ ≤ maxInt64 := by
      unfold maxInt64
      omega
    rw [if_pos h2]
  · have h1 := Float64.toInt_fin_nonpos M E (by omega)
    have h2 : ⌊(M : ℚ) * (2 : ℚ) ^ E⌋ < 0 := by
      rw [Int.floor_lt]
      have hMq : (M : ℚ) < 0 := by exact_mod_cast (not_le.mp hM)
      have hp : (0 : ℚ) < (2 : ℚ) ^ E := by positivity
      push_cast
      exact mul_neg_of_neg_of_pos hMq hp
    omega

/-- Half of the full scale fills 10 glyphs. -/
theorem barLength_half (habit : Habit) (totalTime : Float64) (totalCount : Int)
    (dailyGoal : Int) (hf : (barValue habit totalTime totalCount).isFinite = true)
    (hh : (barValue habit totalTime totalCount).toRat * 2 = (barMaxValue dailyGoal).toRat) :
    barLength habit totalTime totalCount dailyGoal = 10 := by
  obtain ⟨M2, E2, hm, hM2⟩ := barMaxValue_fin dailyGoal
  rw [barLength_eq]
  unfold barScaled
  rw [hm] at hh ⊢
  cases hval : barValue habit totalTime totalCount with
  | nan => rw [hval] at hf; exact absurd hf (by simp [Float64.isFinite])
  | inf s => rw [hval] at hf; exact absurd hf (by simp [Float64.isFinite])
  | fin M1 E1 =>
    rw [hval] at hh
    simp only [Float64.toRat] at hh
    have hp1 : (0 : ℚ) < (2 : ℚ) ^ E1 := by positivity
    have hp2 : (0 : ℚ) < (2 : ℚ) ^ E2 := by positivity
    have hM2q : (M2 : ℚ) ≠ 0 := by exact_mod_cast hM2
    have hdiv : Float64.div (Float64.fin M1 E1) (Float64.fin M2 E2) = Float64.round false 1 2 := by
      unfold Float64.div
      simp only [hM2, if_false]
      have hsign : 0 ≤ (if M2 < 0 then -M1 else M1) := by
        by_cases hneg : M2 < 0
        · rw [if_pos hneg]
          have h2 : (M2 : ℚ) * (2 : ℚ) ^ E2 < 0 :=
            mul_neg_of_neg_of_pos (by exact_mod_cast hneg) hp2
          have h1 : (M1 : ℚ) * (2 : ℚ) ^ E1 < 0 := by linarith
          have h3 : (M1 : ℚ) < 0 := by
            by_contra hc
            have : (0 : ℚ) ≤ (M1 : ℚ) * (2 : ℚ) ^ E1 := mul_nonneg (not_lt.mp hc) hp1.le
            linarith
          have h4 : M1 < 0 := by exact_mod_cast h3
          omega
        · rw [if_neg hneg]
          have hpos : 0 < M2 := by omega
          have h2 : (0 : ℚ) < (M2 : ℚ) * (2 : ℚ) ^ E2 :=
            mul_pos (by exact_mod_cast hpos) hp2
          have h1 : (0 : ℚ) < (M1 : ℚ) * (2 : ℚ) ^ E1 := by linarith
          have h3 : (0 : ℚ) < (M1 : ℚ) := by
            by_contra hc
            have : (M1 : ℚ) * (2 : ℚ) ^ E1 ≤ 0 :=
              mul_nonpos_of_nonpos_of_nonneg (not_lt.mp hc) hp1.le
            linarith
          have h4 : 0 < M1 := by exact_mod_cast h3
          omega
      apply Float64.roundScaled_eq_round _ hsign _ (Int.natAbs_pos.mpr hM2) _ 1 2 (by norm_num)
      have habs : ((M2.natAbs : ℕ) : ℚ) = if M2 < 0 then -(M2 : ℚ) else (M2 : ℚ) := by
        by_cases hneg : M2 < 0
        · rw [if_pos hneg]
          have h0 : ((M2.natAbs : ℤ) : ℚ) = ((-M2 : ℤ) : ℚ) := by
            rw [Int.ofNat_natAbs_of_nonpos hneg.le]
          rw [Int.cast_natCast] at h0
          rw [h0]
          push_cast
          rfl
        · rw [if_neg hneg]
          exact Float64.natAbs_cast_of_nonneg M2 (by omega)
      rw [habs, zpow_sub₀ (by norm_num : (2 : ℚ) ≠ 0)]
      have hE2 : (2 : ℚ) ^ E2 ≠ 0 := hp2.ne'
      by_cases hneg : M2 < 0
      · simp only [hneg, if_true]
        push_cast
        field_simp
        linarith
      · simp only [hneg, if_false]
        push_cast
        field_simp
        linarith
    rw [hdiv]
    decide

/-- A value above a positive full scale, at most `2 ^ 58` times the full scale,
fills the 20 glyphs. -/
theorem barLength_full (habit : Habit) (totalTime : Float64) (totalCount : Int)
    (dailyGoal : Int) (hf : (barValue habit totalTime totalCount).isFinite = true)
    (h0 : 0 < (barMaxValue dailyGoal).toRat)
    (h1 : (barMaxValue dailyGoal).toRat < (barValue habit totalTime totalCount).toRat)
    (h2 : (barValue habit totalTime totalCount).toRat
      ≤ (2 : ℚ) ^ (58 : ℕ) * (barMaxValue dailyGoal).toRat) :
    barLength habit totalTime totalCount dailyGoal = 20 := by
  obtain ⟨M2, E2, hm, hM2⟩ := barMaxValue_fin dailyGoal
  rw [barLength_eq]
  unfold barScaled
  rw [hm] at h0 h1 h2 ⊢
  cases hval : barValue habit totalTime totalCount with
  | nan => rw [hval] at hf; exact absurd hf (by simp [Float64.isFinite])
  | inf s => rw [hval] at hf; exact absurd hf (by simp [Float64.isFinite])
  | fin M1 E1 =>
    rw [hval] at h1 h2
    simp only [Float64.toRat] at h0 h1 h2
    have hp1 : (0 : ℚ) < (2 : ℚ) ^ E1 := by positivity
    have hp2 : (0 : ℚ) < (2 : ℚ) ^ E2 := by positivity
    have hM2pos : 0 < M2 := by
      have : (0 : ℚ) < (M2 : ℚ) := pos_of_mul_pos_left h0 hp2.le
      exact_mod_cast this
    have hM1pos : 0 < M1 := by
      have : (0 : ℚ) < (M1 : ℚ) := pos_of_mul_pos_left (lt_trans h0 h1) hp1.le
      exact_mod_cast this
    -- the quotient is between 1 and 2 ^ 58
    obtain ⟨A, D, d1, d2, d3⟩ := Float64.div_fin_pos M1 E1 M2 E2 hM1pos.le hM2pos
    rw [d2]
    have e1 : (((2 ^ 52 : ℕ)) : ℚ) * (2 : ℚ) ^ (-52 : ℤ) = 1 := by norm_num [zpow_neg]
    have e58 : (((2 ^ 52 : ℕ)) : ℚ) * (2 : ℚ) ^ (6 : ℤ) = (2 : ℚ) ^ (58 : ℕ) := by norm_num
    have hq1 : (1 : ℚ) ≤ (A : ℚ) / D := by
      rw [d3, le_div_iff₀ h0]
      linarith
    have hq2 : (A : ℚ) / D ≤ (2 : ℚ) ^ (58 : ℕ) := by
      rw [d3, div_le_iff₀ h0]
      exact h2
    obtain ⟨M3, E3, q1, q2, q3⟩ := Float64.round_false_le A D (2 ^ 52) 6 d1 (by norm_num)
      (by norm_num) (by norm_num) (by norm_num) (by rw [e58]; exact hq2)
    have q4 : (1 : ℚ) ≤ (M3 : ℚ) * (2 : ℚ) ^ E3 := by
      rcases Float64.round_false_ge A D (2 ^ 52) (-52) d1 (by norm_num) (by norm_num)
        (by norm_num) (by rw [e1]; exact hq1) with hi | ⟨M, E, g1, _, g3⟩
      · rw [hi] at q1
        exact absurd q1 (by simp)
      · rw [g1] at q1
        simp only [Float64.fin.injEq] at q1
        rw [← q1.1, ← q1.2, ← e1]
        exact g3
    rw [e58] at q3
    rw [q1, Float64.ofInt_20]
    -- the product is between 20 and 20 * 2 ^ 58
    obtain ⟨A2, D2, m1, m2, m3⟩ := Float64.mul_fin_nonneg M3 E3 5629499534213120 (-48) q2
      (by norm_num)
    rw [m2]
    have e20 : ((5629499534213120 : ℤ) : ℚ) * (2 : ℚ) ^ (-48 : ℤ) = 20 := by
      norm_num [zpow_neg]
    have e20n : ((5629499534213120 : ℕ) : ℚ) * (2 : ℚ) ^ (-48 : ℤ) = 20 := by
      norm_num [zpow_neg]
    have e20b : ((5629499534213120 : ℕ) : ℚ) * (2 : ℚ) ^ (10 : ℤ) = 20 * (2 : ℚ) ^ (58 : ℕ) := by
      norm_num
    rw [e20] at m3
    obtain ⟨M4, E4, z1, z2, z3⟩ := Float64.round_false_le A2 D2 5629499534213120 10 m1
      (by norm_num) (by norm_num) (by norm_num) (by norm_num) (by
        rw [e20b, m3]
        linarith)
    have z4 : (20 : ℚ) ≤ (M4 : ℚ) * (2 : ℚ) ^ E4 := by
      rcases Float64.round_false_ge A2 D2 5629499534213120 (-48) m1 (by norm_num) (by norm_num)
        (by norm_num) (by rw [e20n, m3]; linarith) with hi | ⟨M, E, g1, _, g3⟩
      · rw [hi] at z1
        exact absurd z1 (by simp)
      · rw [g1] at z1
        simp only [Float64.fin.injEq] at z1
        rw [← z1.1, ← z1.2, ← e20n]
        exact g3
    rw [e20b] at z3
    rw [z1]
    obtain ⟨u1, u2, u3⟩ := Float64.toInt_fin_of_le M4 E4 z2 (20 * 2 ^ 58)
      (by unfold maxInt64; norm_num) (by
        have e : (((20 * 2 ^ 58 : ℤ)) : ℚ) = 20 * (2 : ℚ) ^ (58 : ℕ) := by norm_num
        rw [e]
        exact z3)
    rw [u1]
    have u4 : (20 : ℤ) ≤ ⌊(M4 : ℚ) * (2 : ℚ) ^ E4⌋ := by
      rw [Int.le_floor]
      push_cast
      exact z4
    omega

/-- C11: `generateBarChart` returns 20 glyphs, `k` filled glyphs followed by
`20 - k` track glyphs, where `k` is the conversion to `int` of
`(value / maxValue) * 20` computed in `float64`, clamped to 0..20: the floor of
that product clamped to 0..20 whenever the product is finite and below `2 ^ 63`.
The value is the total count for a count habit and the total hours otherwise;
`maxValue` is `dailyGoal * 7`, or 10 when that is 0. When the value is finite
and half of `maxValue` the bar is 10 filled and 10 track glyphs; when `maxValue`
is positive and the value is finite, above `maxValue` and at most `2 ^ 58` times
`maxValue`, the bar is 20 filled glyphs. -/
theorem generateBarChart_shape (habit : Habit) (totalTime : Float64) (totalCount : Int)
    (dailyGoal : Int) :
    0 ≤ barLength habit totalTime totalCount dailyGoal ∧
    barLength habit totalTime totalCount dailyGoal ≤ 20 ∧
    generateBarChart habit totalTime totalCount dailyGoal
      = ⟨List.replicate (barLength habit totalTime totalCount dailyGoal).toNat '█' ++
          List.replicate (20 - (barLength habit totalTime totalCount dailyGoal).toNat) '░'⟩ ∧
    (generateBarChart habit totalTime totalCount dailyGoal).length = 20 ∧
    (∀ M E : ℤ, barScaled habit totalTime totalCount dailyGoal = Float64.fin M E →
      (M : ℚ) * (2 : ℚ) ^ E < (2 : ℚ) ^ (63 : ℕ) →
      barLength habit totalTime totalCount dailyGoal
        = max 0 (min 20 ⌊(M : ℚ) * (2 : ℚ) ^ E⌋)) ∧
    ((barValue habit totalTime totalCount).isFinite = true →
      (barValue habit totalTime totalCount).toRat * 2 = (barMaxValue dailyGoal).toRat →
      generateBarChart habit totalTime totalCount dailyGoal = "██████████░░░░░░░░░░") ∧
    ((barValue habit totalTime totalCount).isFinite = true →
      0 < (barMaxValue dailyGoal).toRat →
      (barMaxValue dailyGoal).toRat < (barValue habit totalTime totalCount).toRat →
      (barValue habit totalTime totalCount).toRat
        ≤ (2 : ℚ) ^ (58 : ℕ) * (barMaxValue dailyGoal).toRat →
      generateBarChart habit totalTime totalCount dailyGoal = "████████████████████") := by
  have hk := barLength_eq habit totalTime totalCount dailyGoal
  have hg := generateBarChart_eq habit totalTime totalCount dailyGoal
  have h0 : 0 ≤ barLength habit totalTime totalCount dailyGoal := by omega
  have h20 : barLength habit totalTime totalCount dailyGoal ≤ 20 := by omega
  refine ⟨h0, h20, hg, ?_, ?_, ?_, ?_⟩
  · rw [hg]
    show (List.replicate _ '█' ++ List.replicate _ '░').length = 20
    rw [List.length_append, List.length_replicate, List.length_replicate]
    omega
  · exact fun M E h hv => barLength_floor habit totalTime totalCount dailyGoal M E h hv
  · intro hf hh
    rw [hg, barLength_half habit totalTime totalCount dailyGoal hf hh]
    rfl
  · intro hf a b c
    rw [hg, barLength_full habit totalTime totalCount dailyGoal hf a b c]
    rfl

/-- Witness for C11: a count habit with the daily goal 3 and 7 counts in the
week: the scaled value is `7 / 21 * 20`, and 6 glyphs are filled. -/
theorem generateBarChart_shape_witness :
    generateBarChart ⟨1, "water", "", "", 3, "count", ⟨0, 0⟩⟩ (Float64.ofInt 0) 7 3
      = "██████░░░░░░░░░░░░░░" ∧
    generateBarChart ⟨1, "water", "", "", 3, "count", ⟨0, 0⟩⟩ (Float64.ofInt 0) 42 6
      = "████████████████████" :=
  ⟨(generateBarChart_shape ⟨1, "water", "", "", 3, "count", ⟨0, 0⟩⟩ (Float64.ofInt 0) 7
      3).2.2.1.trans (by decide),
    (generateBarChart_shape ⟨1, "water", "", "", 3, "count", ⟨0, 0⟩⟩ (Float64.ofInt 0) 42
      6).2.2.1.trans (by decide)⟩

/-- Counterexample for C11: with the daily goal -1 the full scale is -7, the
value 7 is above it, and no glyph is filled; with the count `2 ^ 62` and the
full scale 10 the product is `2 ^ 63`, outside the range of `int`, and no glyph
is filled either. -/
theorem generateBarChart_above_scale_not_filled :
    generateBarChart ⟨1, "water", "", "", -1, "count", ⟨0, 0⟩⟩ (Float64.ofInt 0) 7 (-1)
      = "░░░░░░░░░░░░░░░░░░░░" ∧
    Float64.lt (barMaxValue (-1))
      (barValue ⟨1, "water", "", "", -1, "count", ⟨0, 0⟩⟩ (Float64.ofInt 0) 7) = true ∧
    generateBarChart ⟨1, "water", "", "", 0, "count", ⟨0, 0⟩⟩ (Float64.ofInt 0)
        4611686018427387904 0
      = "░░░░░░░░░░░░░░░░░░░░" ∧
    Float64.lt (barMaxValue 0)
      (barValue ⟨1, "water", "", "", 0, "count", ⟨0, 0⟩⟩ (Float64.ofInt 0)
        4611686018427387904) = true := by
  decide

/-! ## Theorems: the store -/

/-- The names of the table of count habits. -/
theorem countBasedHabits_lookup (name : String) :
    (name ∈ ["water", "medicine", "vitamins", "pills", "steps", "pushups", "squats", "pullups"] ∧
      (countBasedHabits.lookup name).getD false = true ∧
      (∃ goal, goalMap.lookup name = some goal ∧ 0 < goal)) ∨
    (name ∉ ["water", "medicine", "vitamins", "pills", "steps", "pushups", "squats", "pullups"] ∧
      (countBasedHabits.lookup name).getD false = false ∧ goalMap.lookup name = none) := by
  by_cases h1 : name = "water"
  · subst h1; left; exact ⟨by decide, by decide, 8, by decide, by decide⟩
  by_cases h2 : name = "medicine"
  · subst h2; left; exact ⟨by decide, by decide, 1, by decide, by decide⟩
  by_cases h3 : name = "vitamins"
  · subst h3; left; exact ⟨by decide, by decide, 1, by decide, by decide⟩
  by_cases h4 : name = "pills"
  · subst h4; left; exact ⟨by decide, by decide, 1, by decide, by decide⟩
  by_cases h5 : name = "steps"
  · subst h5; left; exact ⟨by decide, by decide, 10000, by decide, by decide⟩
  by_cases h6 : name = "pushups"
  · subst h6; left; exact ⟨by decide, by decide, 20, by decide, by decide⟩
  by_cases h7 : name = "squats"
  · subst h7; left; exact ⟨by decide, by decide, 50, by decide, by decide⟩
  by_cases h8 : name = "pullups"
  · subst h8; left; exact ⟨by decide, by decide, 10, by decide, by decide⟩
  right
  have b1 : (name == "water") = false := by simpa using h1
  have b2 : (name == "medicine") = false := by simpa using h2
  have b3 : (name == "vitamins") = false := by simpa using h3
  have b4 : (name == "pills") = false := by simpa using h4
  have b5 : (name == "steps") = false := by simpa using h5
  have b6 : (name == "pushups") = false := by simpa using h6
  have b7 : (name == "squats") = false := by simpa using h7
  have b8 : (name == "pullups") = false := by simpa using h8
  refine ⟨by simp [h1, h2, h3, h4, h5, h6, h7, h8], ?_, ?_⟩
  · simp [countBasedHabits, List.lookup, b1, b2, b3, b4, b5, b6, b7, b8]
  · simp [goalMap, List.lookup, b1, b2, b3, b4, b5, b6, b7, b8]

/-- C21: for every habit name the smart defaults agree: the default goal type
is "count" exactly when `IsCountBased` of the default duration is true, exactly
when the default duration is "1x", exactly when the default daily goal is
positive; "water" gets the goal type "count", the goal 8 and the default "1x";
every name outside the table gets the goal type "duration", the goal 0 and the
default "30m"; and `ParseDuration` accepts every default duration. -/
theorem smart_defaults_agree (name : String) :
    (getDefaultGoalType name = "count" ↔ IsCountBased (getDefaultDuration name) = true) ∧
    (IsCountBased (getDefaultDuration name) = true ↔ getDefaultDuration name = "1x") ∧
    (getDefaultDuration name = "1x" ↔ 0 < getDefaultGoal name) ∧
    (getDefaultGoalType "water" = "count" ∧ getDefaultGoal "water" = 8 ∧
      getDefaultDuration "water" = "1x") ∧
    (name ∉ ["water", "medicine", "vitamins", "pills", "steps", "pushups", "squats", "pullups"] →
      getDefaultGoalType name = "duration" ∧ getDefaultGoal name = 0 ∧
      getDefaultDuration name = "30m") ∧
    (ParseDuration (getDefaultDuration name)).2 = none := by
  unfold getDefaultGoalType getDefaultDuration getDefaultGoal
  rcases countBasedHabits_lookup name with ⟨_, h2, goal, h3, h4⟩ | ⟨h1, h2, h3⟩
  · rw [h2, h3]
    simp only [if_true]
    refine ⟨by decide, by decide, ?_, by decide, ?_, by decide⟩
    · simp [h4]
    · intro hn
      rename_i hmem
      exact absurd hmem hn
  · rw [h2, h3]
    simp only [Bool.false_eq_true, if_false]
    exact ⟨by decide, by decide, by decide, by decide, fun _ => by simp, by decide⟩

/-- C22: `Store.AddLog` returns no error; the new list of logs is the previous
list followed by one entry with the given habit id, habit name, duration, count
and notes and with ID = previous length + 1; every earlier entry is unchanged
at its position, and the habits and the config are unchanged. -/
theorem AddLog_appends_one_entry (s : Store) (now : Time) (habitID : Int)
    (habitName duration : String) (count : Int) (notes : String) :
    (s.AddLog now habitID habitName duration count notes).1 = none ∧
    (s.AddLog now habitID habitName duration count notes).2.logs
      = s.logs ++ [⟨(s.logs.length : Int) + 1, habitID, habitName, duration, count, now, notes⟩] ∧
    (s.AddLog now habitID habitName duration count notes).2.logs.length = s.logs.length + 1 ∧
    (∀ i, i < s.logs.length →
      (s.AddLog now habitID habitName duration count notes).2.logs[i]? = s.logs[i]?) ∧
    (s.AddLog now habitID habitName duration count notes).2.habits = s.habits ∧
    (s.AddLog now habitID habitName duration count notes).2.config = s.config ∧
    (s.AddLog now habitID habitName duration count notes).2.dataPath = s.dataPath := by
  refine ⟨rfl, rfl, ?_, ?_, rfl, rfl, rfl⟩
  · simp [Store.AddLog]
  · intro i hi
    simp only [Store.AddLog]
    rw [List.getElem?_append_left hi]

theorem mapSet_of_lookup_none {β : Type} (m : List (String × β)) (key : String) (value : β)
    (h : m.lookup key = none) : mapSet m key value = m ++ [(key, value)] := by
  unfold mapSet
  simp [h]

theorem lookup_append_singleton {β : Type} (m : List (String × β)) (key other : String)
    (value : β) :
    (m ++ [(key, value)]).lookup other
      = match m.lookup other with
        | some v => some v
        | none => if other = key then some value else none := by
  induction m with
  | nil =>
    by_cases h : other = key
    · simp [List.lookup, h]
    · have : (other == key) = false := by simpa using h
      simp [List.lookup, h, this]
  | cons kv rest ih =>
    obtain ⟨k, v⟩ := kv
    by_cases hk : other = k
    · simp [List.lookup, hk]
    · have : (other == k) = false := by simpa using hk
      simp only [List.cons_append, List.lookup, this]
      exact ih

theorem GetOrCreateHabit_of_lookup_some (s : Store) (now : Time) (name : String) (habit : Habit)
    (h : s.habits.lookup name = some habit) : s.GetOrCreateHabit now name = (habit, none, s) := by
  simp [Store.GetOrCreateHabit, h]

/-- C26: `Store.GetOrCreateHabit` returns no error. When the name is a key of
the habit map it returns the stored habit and leaves the store unchanged, so a
second call with the same name returns the same habit and changes nothing. When
the name is new, the habit map gets one more entry at its end, stored under the
name, with Name equal to the key and ID = previous number of habits + 1; the
other habits are still found under their names, and the logs and the config are
unchanged. -/
theorem GetOrCreateHabit_gets_or_creates (s : Store) (now : Time) (name : String) :
    (s.GetOrCreateHabit now name).2.1 = none ∧
    (∀ habit, s.habits.lookup name = some habit →
      (s.GetOrCreateHabit now name).1 = habit ∧ (s.GetOrCreateHabit now name).2.2 = s) ∧
    (∀ later : Time,
      ((s.GetOrCreateHabit now name).2.2.GetOrCreateHabit later name).1
        = (s.GetOrCreateHabit now name).1 ∧
      ((s.GetOrCreateHabit now name).2.2.GetOrCreateHabit later name).2.2
        = (s.GetOrCreateHabit now name).2.2) ∧
    (s.habits.lookup name = none →
      (s.GetOrCreateHabit now name).2.2.habits
        = s.habits ++ [(name, (s.GetOrCreateHabit now name).1)] ∧
      (s.GetOrCreateHabit now name).2.2.habits.length = s.habits.length + 1 ∧
      (s.GetOrCreateHabit now name).2.2.habits.lookup name
        = some (s.GetOrCreateHabit now name).1 ∧
      (s.GetOrCreateHabit now name).1.Name = name ∧
      (s.GetOrCreateHabit now name).1.ID = (s.habits.length : Int) + 1 ∧
      (∀ other, other ≠ name →
        (s.GetOrCreateHabit now name).2.2.habits.lookup other = s.habits.lookup other)) ∧
    (s.GetOrCreateHabit now name).2.2.logs = s.logs ∧
    (s.GetOrCreateHabit now name).2.2.config = s.config ∧
    (s.GetOrCreateHabit now name).2.2.dataPath = s.dataPath := by
  have hsome : ∀ habit, s.habits.lookup name = some habit →
      s.GetOrCreateHabit now name = (habit, none, s) :=
    fun habit h => GetOrCreateHabit_of_lookup_some s now name habit h
  have hnone : s.habits.lookup name = none →
      s.GetOrCreateHabit now name
        = (⟨(s.habits.length : Int) + 1, name, getDefaultEmoji name, getDefaultDuration name,
            getDefaultGoal name, getDefaultGoalType name, now⟩, none,
          { s with habits := s.habits ++ [(name, ⟨(s.habits.length : Int) + 1, name,
            getDefaultEmoji name, getDefaultDuration name, getDefaultGoal name,
            getDefaultGoalType name, now⟩)] }) := by
    intro h
    simp [Store.GetOrCreateHabit, h, mapSet_of_lookup_none]
  have hfound : (s.GetOrCreateHabit now name).2.2.habits.lookup name
      = some (s.GetOrCreateHabit now name).1 := by
    cases h : s.habits.lookup name with
    | some habit => rw [hsome habit h]; exact h
    | none =>
      rw [hnone h]
      simp only
      rw [lookup_append_singleton, h]
      simp
  refine ⟨?_, ?_, ?_, ?_, ?_, ?_, ?_⟩
  · cases h : s.habits.lookup name with
    | some habit => rw [hsome habit h]
    | none => rw [hnone h]
  · intro habit h
    rw [hsome habit h]
    exact ⟨rfl, rfl⟩
  · intro later
    have h2 : (s.GetOrCreateHabit now name).2.2.GetOrCreateHabit later name
        = ((s.GetOrCreateHabit now name).1, none, (s.GetOrCreateHabit now name).2.2) :=
      GetOrCreateHabit_of_lookup_some _ later name _ hfound
    rw [h2]
    exact ⟨rfl, rfl⟩
  · intro h
    rw [hnone h]
    refine ⟨rfl, by simp, ?_, rfl, rfl, ?_⟩
    · simp only
      rw [lookup_append_singleton, h]
      simp
    · intro other ho
      simp only
      rw [lookup_append_singleton]
      cases s.habits.lookup other with
      | some v => rfl
      | none => simp [ho]
  · cases h : s.habits.lookup name with
    | some habit => rw [hsome habit h]
    | none => rw [hnone h]
  · cases h : s.habits.lookup name with
    | some habit => rw [hsome habit h]
    | none => rw [hnone h]
  · cases h : s.habits.lookup name with
    | some habit => rw [hsome habit h]
    | none => rw [hnone h]

/-! ## Theorems: the reminder -/

theorem joinLoop_pos (i : Nat) (hi : 0 < i) : ∀ (names : List String) (result : String),
    joinLoop i result names = String.intercalate.go result ", " names := by
  intro names
  induction names generalizing i with
  | nil => intro result; rfl
  | cons habit rest ih =>
    intro result
    rw [joinLoop, String.intercalate.go, if_pos hi]
    exact ih (i + 1) (Nat.succ_pos i) _

/-- The loop of `joinHabits` joins the names with ", ". -/
theorem joinLoop_zero (names : List String) :
    joinLoop 0 "" names = ", ".intercalate names := by
  cases names with
  | nil => rfl
  | cons habit rest =>
    rw [joinLoop, String.intercalate, if_neg (by decide), joinLoop_pos 1 (by decide)]
    have : ("" : String) ++ habit = habit := by
      apply String.ext
      simp [String.data_append]
    rw [this]

/-- C23: `joinHabits` returns "none" for the empty list, the name for one name,
the two names around " and " for two names, and for three or more names all but
the last joined by ", ", then " and " and the last name; the functions
`joinHabits` of package `cmd` and `joinHabitsDaemon` return the same string on
every list. -/
theorem joinHabits_forms (habits : List String) :
    joinHabits [] = "none" ∧
    (∀ a, joinHabits [a] = a) ∧
    (∀ a b, joinHabits [a, b] = a ++ " and " ++ b) ∧
    (∀ (init : List String) (last : String), 2 ≤ init.length →
      joinHabits (init ++ [last]) = ", ".intercalate init ++ (" and " ++ last)) ∧
    joinHabits ["a", "b", "c", "d"] = "a, b, c and d" ∧
    cmdJoinHabits habits = joinHabits habits ∧
    joinHabitsDaemon habits = joinHabits habits := by
  refine ⟨rfl, fun a => rfl, fun a b => rfl, ?_, by decide, rfl, rfl⟩
  intro init last hlen
  unfold joinHabits
  have h0 : ¬ ((init ++ [last]).length = 0) := by simp
  have h1 : ¬ ((init ++ [last]).length = 1) := by
    simp only [List.length_append, List.length_singleton]
    omega
  have h2 : ¬ ((init ++ [last]).length = 2) := by
    simp only [List.length_append, List.length_singleton]
    omega
  simp only [h0, h1, h2, if_false]
  have h3 : (init ++ [last]).take ((init ++ [last]).length - 1) = init := by
    simp
  have h4 : (init ++ [last]).getD ((init ++ [last]).length - 1) "" = last := by
    simp
  rw [h3, h4, joinLoop_zero]

theorem GetAllHabits_eq (s : Store) : s.GetAllHabits = s.habits.map (fun kv => kv.2) := by
  unfold Store.GetAllHabits
  have key : ∀ (l : List (String × Habit)) (acc : List Habit),
      l.foldl (fun habits kv => habits ++ [kv.2]) acc = acc ++ l.map (fun kv => kv.2) := by
    intro l
    induction l with
    | nil => intro acc; simp
    | cons x xs ih => intro acc; simp [ih]
  rw [key]
  simp

/-- The loop of the reminder lists the names of the habits that pass its
test, in the order of the habits. -/
theorem pendingHabits_eq (s : Store) (now : Time) :
    pendingHabits s now
      = (s.GetAllHabits.filter (fun habit =>
          listedAsPending habit (s.GetLogsByHabit habit.Name
            (now.Truncate (24 * Time.Hour)) ((now.Truncate (24 * Time.Hour)).AddDays 1)))).map
          (fun habit => habit.Name) := by
  unfold pendingHabits
  have key : ∀ (l : List Habit) (acc : List String),
      l.foldl (fun pendingHabits habit =>
        if habit.DailyGoal = 0 then pendingHabits
        else
          if currentProgress habit (s.GetLogsByHabit habit.Name
              (now.Truncate (24 * Time.Hour)) ((now.Truncate (24 * Time.Hour)).AddDays 1))
              < habit.DailyGoal then pendingHabits ++ [habit.Name]
          else pendingHabits) acc
        = acc ++ (l.filter (fun habit =>
          listedAsPending habit (s.GetLogsByHabit habit.Name
            (now.Truncate (24 * Time.Hour)) ((now.Truncate (24 * Time.Hour)).AddDays 1)))).map
          (fun habit => habit.Name) := by
    intro l
    induction l with
    | nil => intro acc; simp
    | cons x xs ih =>
      intro acc
      rw [List.foldl_cons, ih]
      unfold listedAsPending
      by_cases h0 : x.DailyGoal = 0
      · simp [h0, List.filter_cons]
      · by_cases h1 : currentProgress x (s.GetLogsByHabit x.Name
            (now.Truncate (24 * Time.Hour)) ((now.Truncate (24 * Time.Hour)).AddDays 1))
            < x.DailyGoal
        · simp [h0, h1, List.filter_cons]
        · simp [h0, h1, List.filter_cons]
  have := key s.GetAllHabits []
  simpa using this

/-- The progress of the reminder for a count habit: the wrapped sum of the
counts. -/
theorem currentProgress_count (habit : Habit) (logs : List Log) (h : habit.GoalType = "count") :
    currentProgress habit logs = wrapInt64 (countSum logs) := by
  unfold currentProgress
  simp only [h, if_true]
  have key : ∀ (l : List Log) (c : Int),
      l.foldl (fun currentProgress log => wrapInt64 (currentProgress + log.Count)) (wrapInt64 c)
        = wrapInt64 (c + countSum l) := by
    intro l
    induction l with
    | nil => intro c; simp [countSum]
    | cons x xs ih =>
      intro c
      simp only [List.foldl_cons]
      rw [wrapInt64_add_wrap, ih]
      simp only [countSum, List.map_cons, List.sum_cons]
      rw [add_assoc]
  have h0 : (0 : Int) = wrapInt64 0 := by decide
  rw [h0, key, zero_add]

/-- The progress of the reminder for a habit that is not a count habit: 30 for
each log with a duration text, wrapped. -/
theorem currentProgress_duration (habit : Habit) (logs : List Log)
    (h : habit.GoalType ≠ "count") :
    currentProgress habit logs
      = wrapInt64 (30 * ((logs.filter (fun log => decide (log.Duration ≠ ""))).length : Int)) := by
  unfold currentProgress
  simp only [h, if_false]
  have key : ∀ (l : List Log) (c : Int),
      l.foldl (fun currentProgress log =>
        if log.Duration ≠ "" then wrapInt64 (currentProgress + 30) else currentProgress)
        (wrapInt64 c)
        = wrapInt64 (c + 30 * ((l.filter (fun log => decide (log.Duration ≠ ""))).length : Int)) := by
    intro l
    induction l with
    | nil => intro c; simp
    | cons x xs ih =>
      intro c
      by_cases hx : x.Duration = ""
      · simp only [List.foldl_cons, hx, ne_eq, not_true_eq_false, if_false, List.filter_cons,
          decide_False, Bool.false_eq_true]
        exact ih c
      · simp only [List.foldl_cons, ne_eq, hx, not_false_eq_true, if_true, List.filter_cons,
          decide_True, List.length_cons, Nat.cast_add, Nat.cast_one]
        rw [wrapInt64_add_wrap, ih]
        congr 1
        ring
  have h0 : (0 : Int) = wrapInt64 0 := by decide
  rw [h0, key, zero_add]

theorem countSum_nonneg (logs : List Log) (hpos : ∀ log ∈ logs, 0 ≤ log.Count) :
    0 ≤ countSum logs := by
  unfold countSum
  apply List.sum_nonneg
  intro c hcm
  obtain ⟨log, hl, rfl⟩ := List.mem_map.mp hcm
  exact hpos log hl

/-- The goal test of the aggregator on a count habit with exact totals. -/
theorem IsGoalReached_count_iff (habit : Habit) (logs : List Log)
    (hc : habit.GoalType = "count") (hg : 0 < habit.DailyGoal) (hg2 : habit.DailyGoal ≤ 2 ^ 53)
    (hpos : ∀ log ∈ logs, 0 ≤ log.Count) (hsum : countSum logs ≤ 2 ^ 53) :
    IsGoalReached habit logs = true ↔ habit.DailyGoal ≤ countSum logs := by
  have hne : habit.DailyGoal ≠ 0 := by omega
  obtain ⟨S, hS⟩ := Int.eq_ofNat_of_zero_le (countSum_nonneg logs hpos)
  obtain ⟨g, hgn⟩ := Int.eq_ofNat_of_zero_le hg.le
  unfold IsGoalReached
  rw [CalculateDailyProgress_eq habit logs hne]
  unfold accumulatedTotal progressOf
  simp only [hc, if_true, mul_one]
  rw [sumFloat64_counts logs hpos hsum, hS, hgn]
  rw [Float64.progress_ge_100_iff S g (by omega) (by omega) (by omega)]
  omega

/-- C24: the reminder does not use the goal computation of the aggregator. For
a count habit with `0 < DailyGoal ≤ 2 ^ 53` and non-negative counts with a sum of
at most `2 ^ 53` the habit is listed as pending exactly when `IsGoalReached` is
false. For a habit that is not a count habit the reminder counts 30 for every
log with a duration text and compares that number with the goal: with the goal
2 and one log of "1h" the habit is not listed although `IsGoalReached` is false,
and with the goal 40 and one log of "50h" it is listed although `IsGoalReached`
is true. -/
theorem reminder_does_not_use_IsGoalReached (habit : Habit) (logs : List Log) :
    (habit.GoalType = "count" → 0 < habit.DailyGoal → habit.DailyGoal ≤ 2 ^ 53 →
      (∀ log ∈ logs, 0 ≤ log.Count) → countSum logs ≤ 2 ^ 53 →
      (listedAsPending habit logs = true ↔ IsGoalReached habit logs = false)) ∧
    (habit.GoalType ≠ "count" → habit.DailyGoal ≠ 0 →
      (listedAsPending habit logs = true ↔
        wrapInt64 (30 * ((logs.filter (fun log => decide (log.Duration ≠ ""))).length : Int))
          < habit.DailyGoal)) ∧
    (listedAsPending ⟨1, "read", "", "30m", 2, "duration", ⟨0, 0⟩⟩
        [⟨1, 1, "read", "1h", 0, ⟨0, 0⟩, ""⟩] = false ∧
      IsGoalReached ⟨1, "read", "", "30m", 2, "duration", ⟨0, 0⟩⟩
        [⟨1, 1, "read", "1h", 0, ⟨0, 0⟩, ""⟩] = false) ∧
    (listedAsPending ⟨1, "read", "", "30m", 40, "duration", ⟨0, 0⟩⟩
        [⟨1, 1, "read", "50h", 0, ⟨0, 0⟩, ""⟩] = true ∧
      IsGoalReached ⟨1, "read", "", "30m", 40, "duration", ⟨0, 0⟩⟩
        [⟨1, 1, "read", "50h", 0, ⟨0, 0⟩, ""⟩] = true) ∧
    (pendingHabits ⟨"", [("read", ⟨1, "read", "", "30m", 2, "duration", ⟨0, 0⟩⟩)],
        [⟨1, 1, "read", "1h", 0, ⟨3600000000000, 0⟩, ""⟩], []⟩ ⟨7200000000000, 0⟩ = [] ∧
      IsGoalReached ⟨1, "read", "", "30m", 2, "duration", ⟨0, 0⟩⟩
        (Store.GetLogsByHabit ⟨"", [("read", ⟨1, "read", "", "30m", 2, "duration", ⟨0, 0⟩⟩)],
          [⟨1, 1, "read", "1h", 0, ⟨3600000000000, 0⟩, ""⟩], []⟩ "read"
          (Time.Truncate ⟨7200000000000, 0⟩ (24 * Time.Hour))
          ((Time.Truncate ⟨7200000000000, 0⟩ (24 * Time.Hour)).AddDays 1)) = false) := by
  refine ⟨?_, ?_, by decide, by decide, by decide⟩
  · intro hc hg hg2 hpos hsum
    have hne : habit.DailyGoal ≠ 0 := by omega
    have h1 := IsGoalReached_count_iff habit logs hc hg hg2 hpos hsum
    have h2 := countSum_nonneg logs hpos
    unfold listedAsPending
    rw [currentProgress_count habit logs hc,
      wrapInt64_of_inRange _ (by unfold minInt64; omega) (by unfold maxInt64; omega)]
    simp only [hne, if_false, decide_eq_true_eq]
    rw [← Bool.not_eq_true, h1]
    omega
  · intro hd hne
    unfold listedAsPending
    rw [currentProgress_duration habit logs hd]
    simp only [hne, if_false, decide_eq_true_eq]

/-! ## Theorems: counts stored as durations -/

/-- Function `ParseDuration` on the decimal text of a count followed by
"x". -/
theorem ParseDuration_toString_x (n : Nat) (h1 : 1 ≤ n) (h2 : n < 2 ^ 63) :
    ParseDuration (toString n ++ "x") = (⟨n, 0, true⟩, none) := by
  obtain ⟨hd, hv⟩ := toString_digits n
  have e : toString n ++ "x" = ⟨[] ++ ((toString n).data ++ ['x']) ++ []⟩ := by
    apply String.ext
    simp [String.data_append]
  rw [e, ParseDuration_count _ _ _ (by simp) (by simp) (by simp)
    (head?_append_of_IsDigits _ _ hd _ (fun c hc => (isDigit_props c hc).1)) (by simp; decide)
    (by rw [HasSuffix_append]; rfl),
    parseCount_x _ hd (by rw [hv]; exact h1) (by rw [hv]; omega), hv]

theorem GetTotalHours_count (n : Nat) (h : n ≤ 2 ^ 53) :
    GetTotalHours ⟨n, 0, true⟩ = Float64.ofInt (n : Int) := by
  unfold GetTotalHours
  have h0 : Float64.div (Float64.ofInt 0) (Float64.ofInt 60) = Float64.ofInt ((0 : Nat) : Int) := by
    decide
  simp only
  rw [h0, Float64.add_ofInt n 0 h (by norm_num)]
  rfl

/-- Hours of a log whose duration text is a count followed by "x": the
count. -/
theorem parsedHours_toString_x (log : Log) (n : Nat) (h1 : 1 ≤ n) (h2 : n ≤ 2 ^ 53)
    (hd : log.Duration = toString n ++ "x") :
    parsedHours log = some (Float64.ofInt (n : Int)) := by
  have hne : log.Duration ≠ "" := by
    rw [hd]
    intro h
    have := congrArg String.data h
    simp [String.data_append] at this
  unfold parsedHours
  rw [if_pos hne, hd, ParseDuration_toString_x n h1 (lt_of_le_of_lt h2 (by norm_num))]
  simp only
  rw [GetTotalHours_count n h2]

theorem sumFloat64_append_singleton (xs : List Float64) (x : Float64) :
    sumFloat64 (xs ++ [x]) = Float64.add (sumFloat64 xs) x := by
  unfold sumFloat64
  rw [List.foldl_append]
  rfl

/-- C27: for a habit whose goal type is not "count" and a count `n` with
`1 ≤ n ≤ 2 ^ 53`, a log whose duration text is the decimal text of `n` followed
by "x" is parsed successfully as `n` hours, whatever its Count field is: added
after other logs, it adds `float64(n)`, which is exactly `n`, to the TotalTime of
`calculateHabitSummary` when it lies in the window (and nothing otherwise) and
to the total of `CalculateDailyProgress`; the TotalCount stays 0. -/
theorem count_text_counts_as_hours (habit : Habit) (logs : List Log) (log : Log) (n : Nat)
    (startDate endDate : Time) (hg : habit.GoalType ≠ "count") (h1 : 1 ≤ n) (h2 : n ≤ 2 ^ 53)
    (hd : log.Duration = toString n ++ "x") :
    ParseDuration log.Duration = (⟨n, 0, true⟩, none) ∧
    parsedHours log = some (Float64.ofInt (n : Int)) ∧
    (Float64.ofInt (n : Int)).isFinite = true ∧ (Float64.ofInt (n : Int)).toRat = (n : ℚ) ∧
    (calculateHabitSummary habit (logs ++ [log]) startDate endDate).TotalTime
      = (if insideWindow startDate endDate log = true then
          Float64.add (calculateHabitSummary habit logs startDate endDate).TotalTime
            (Float64.ofInt (n : Int))
        else (calculateHabitSummary habit logs startDate endDate).TotalTime) ∧
    (calculateHabitSummary habit (logs ++ [log]) startDate endDate).TotalCount = 0 ∧
    dailyTotal habit (logs ++ [log])
      = Float64.add (dailyTotal habit logs) (Float64.ofInt (n : Int)) := by
  have hp := parsedHours_toString_x log n h1 h2 hd
  obtain ⟨M, E, e1, e2, e3⟩ := Float64.ofInt_exact n h2
  refine ⟨?_, hp, ?_, ?_, ?_, ?_, ?_⟩
  · rw [hd]
    exact ParseDuration_toString_x n h1 (lt_of_le_of_lt h2 (by norm_num))
  · rw [e1]
    rfl
  · rw [e1]
    exact e3
  · simp only [calculateHabitSummary, weekLogs_eq_filter, weekTotals_duration _ _ hg,
      List.filter_append, List.filter_cons, List.filter_nil]
    by_cases hw : insideWindow startDate endDate log = true
    · simp only [hw, if_true, List.filterMap_append, List.filterMap_cons, hp,
        List.filterMap_nil]
      exact sumFloat64_append_singleton _ _
    · simp only [hw, Bool.false_eq_true, if_false, List.append_nil]
  · simp only [calculateHabitSummary, weekLogs_eq_filter, weekTotals_duration _ _ hg]
  · rw [dailyTotal_eq, dailyTotal_eq]
    unfold accumulatedTotal
    simp only [hg, if_false, List.filterMap_append, List.filterMap_cons, hp, List.filterMap_nil]
    exact sumFloat64_append_singleton _ _

/-- Witness for C27: a duration habit with a log of "2h" and a log of "3x" with
the Count field 3 has 5 hours in all. -/
theorem count_text_counts_as_hours_witness :
    dailyTotal ⟨1, "read", "", "30m", 1, "duration", ⟨0, 0⟩⟩
        ([⟨1, 1, "read", "2h", 0, ⟨5, 0⟩, ""⟩] ++ [⟨2, 1, "read", "3x", 3, ⟨6, 0⟩, ""⟩])
      = Float64.add (dailyTotal ⟨1, "read", "", "30m", 1, "duration", ⟨0, 0⟩⟩
          [⟨1, 1, "read", "2h", 0, ⟨5, 0⟩, ""⟩]) (Float64.ofInt ((3 : Nat) : Int)) :=
  (count_text_counts_as_hours ⟨1, "read", "", "30m", 1, "duration", ⟨0, 0⟩⟩
    [⟨1, 1, "read", "2h", 0, ⟨5, 0⟩, ""⟩] ⟨2, 1, "read", "3x", 3, ⟨6, 0⟩, ""⟩ 3 ⟨0, 0⟩ ⟨10, 0⟩
    (by decide) (by norm_num) (by norm_num) (by decide)).2.2.2.2.2.2

/-- Counterexample for C27: the count `2 ^ 53 + 1` contributes
`2 ^ 52 * 2 ^ 1 = 2 ^ 53` hours, and the count `2 ^ 63` is rejected by the parser
and contributes nothing. -/
theorem count_text_out_of_range :
    dailyTotal ⟨1, "read", "", "30m", 1, "duration", ⟨0, 0⟩⟩
        [⟨1, 1, "read", "9007199254740993x", 0, ⟨5, 0⟩, ""⟩]
      = Float64.fin 4503599627370496 1 ∧
    Float64.ofInt 9007199254740992 = Float64.fin 4503599627370496 1 ∧
    dailyTotal ⟨1, "read", "", "30m", 1, "duration", ⟨0, 0⟩⟩
        [⟨1, 1, "read", "9223372036854775808x", 0, ⟨5, 0⟩, ""⟩]
      = Float64.ofInt 0 := by
  decide

/-! ## Theorems: the log command -/

theorem FormatDuration_ne_empty (duration : ParsedDuration) : FormatDuration duration ≠ "" := by
  unfold FormatDuration
  split_ifs
  · decide
  · intro h
    have := congrArg String.data h
    simp at this
  · intro h
    have := congrArg String.data h
    simp at this
  · intro h
    have := congrArg String.data h
    simp at this

theorem getLast?_append_of_ne_nil (a b : List Char) (hb : b ≠ []) :
    (a ++ b).getLast? = b.getLast? := by
  rw [List.getLast?_append]
  cases hl : b.getLast? with
  | none =>
    rw [List.getLast?_eq_none_iff] at hl
    exact absurd hl hb
  | some c => rfl

/-- A text of the grammar of durations ends in a digit, in `h` or in `m`. -/
theorem durationGrammar_last (t : List Char) (h : durationGrammar t) :
    ∀ c ∈ t.getLast?, c.isDigit = true ∨ c = 'h' ∨ c = 'm' := by
  obtain ⟨a, b, c, d, rfl, ha, hb, hc, hd⟩ := h
  have hdig : ∀ (ds : List Char), IsDigits ds → ∀ x ∈ ds.getLast?, x.isDigit = true ∨ x = 'h' ∨ x = 'm' :=
    fun ds hds x hx => Or.inl (hds.2 x (List.mem_of_getLast?_eq_some hx))
  have hA : ∀ x ∈ a.getLast?, x.isDigit = true ∨ x = 'h' ∨ x = 'm' := by
    rcases ha with rfl | ha | ⟨i, f, rfl, _, hf⟩
    · simp
    · exact hdig a ha
    · intro x hx
      rw [show i ++ '.' :: f = (i ++ ['.']) ++ f by simp,
        getLast?_append_of_ne_nil _ _ hf.1] at hx
      exact hdig f hf x hx
  have hB : ∀ x ∈ (a ++ b).getLast?, x.isDigit = true ∨ x = 'h' ∨ x = 'm' := by
    rcases hb with rfl | rfl
    · simpa using hA
    · intro x hx
      rw [getLast?_append_of_ne_nil _ _ (by simp)] at hx
      simp at hx
      exact Or.inr (Or.inl hx.symm)
  have hC : ∀ x ∈ (a ++ b ++ c).getLast?, x.isDigit = true ∨ x = 'h' ∨ x = 'm' := by
    rcases hc with rfl | hc
    · simpa using hB
    · intro x hx
      rw [getLast?_append_of_ne_nil _ _ hc.1] at hx
      exact hdig c hc x hx
  rcases hd with rfl | rfl
  · simpa using hC
  · intro x hx
    rw [getLast?_append_of_ne_nil _ _ (by simp)] at hx
    simp at hx
    exact Or.inr (Or.inr hx.symm)

/-- When the lower-cased text ends in a suffix, the last character of the text
lower-cases to the last character of the suffix. -/
theorem HasSuffix_ToLower_last (t u : List Char) (d : Char)
    (h : HasSuffix (ToLower t) (u ++ [d]) = true) :
    ∃ c, t.getLast? = some c ∧ toLowerRune c = d := by
  unfold HasSuffix at h
  rw [List.isSuffixOf_iff_suffix] at h
  obtain ⟨x, hx⟩ := h
  rcases List.eq_nil_or_concat t with rfl | ⟨t2, c, rfl⟩
  · simp [ToLower] at hx
  · rw [List.concat_eq_append] at hx ⊢
    refine ⟨c, by simp, ?_⟩
    rw [ToLower_append, ← List.append_assoc] at hx
    have := List.append_inj_right' hx rfl
    simp only [ToLower, List.map_cons, List.map_nil, List.cons.injEq, and_true] at this
    exact this.symm

/-- A text that `IsCountBased` takes for a count and that `ParseDuration`
accepts is parsed as a positive count. -/
theorem ParseDuration_count_based_pos (input : String) (hc : IsCountBased input = true)
    (hok : (ParseDuration input).2 = none) :
    0 < (ParseDuration input).1.Hours ∧ (ParseDuration input).1.Minutes = 0 := by
  unfold IsCountBased at hc
  unfold ParseDuration at hok ⊢
  dsimp only at hc hok ⊢
  by_cases h0 : TrimSpace input.data = []
  · rw [if_pos h0] at hok
    exact absurd hok (by simp)
  · rw [if_neg h0] at hok ⊢
    by_cases hg : (HasSuffix (TrimSpace input.data) ['x'] ||
        HasSuffix (TrimSpace input.data) "times".data) = true
    · rw [if_pos hg] at hok ⊢
      rcases parseCount_cases (TrimSpace input.data) with h | ⟨count, hpos, h⟩
      · rw [h] at hok
        exact absurd hok (by simp)
      · rw [h]
        exact ⟨hpos, rfl⟩
    · exfalso
      rw [if_neg hg] at hok
      have he := parseTimeDuration_error_iff (TrimSpace input.data)
      have hgr : durationGrammar (TrimSpace input.data) := by
        by_contra hn
        have h1 := he.1.mpr hn
        rcases hp : parseTimeDuration (TrimSpace input.data) with ⟨hours, minutes, _ | err⟩
        · rw [hp] at h1
          exact h1 rfl
        · rw [hp] at hok
          simp at hok
      have hlast := durationGrammar_last _ hgr
      have hlow : ∃ c, (TrimSpace input.data).getLast? = some c ∧
          (toLowerRune c = 'x' ∨ toLowerRune c = 's') := by
        rw [Bool.or_eq_true] at hc
        rcases hc with hx | hx
        · obtain ⟨c, h1, h2⟩ := HasSuffix_ToLower_last _ [] 'x' hx
          exact ⟨c, h1, Or.inl h2⟩
        · obtain ⟨c, h1, h2⟩ := HasSuffix_ToLower_last _ "time".data 's' hx
          exact ⟨c, h1, Or.inr h2⟩
      obtain ⟨c, h1, h2⟩ := hlow
      rcases hlast c h1 with hd | rfl | rfl
      · have hp := isDigit_props c hd
        rw [hp.2.1] at h2
        rcases h2 with h2 | h2
        · exact hp.2.2.2.2.2.1 h2
        · exact hp.2.2.2.2.2.2.1 h2
      · revert h2
        decide
      · revert h2
        decide

theorem IsCountBased_ne_empty (input : String) (h : IsCountBased input = true) : input ≠ "" := by
  intro h0
  subst h0
  revert h
  decide

/-- C25: the pair of duration and count that `runLog` passes to `Store.AddLog`.
With an amount argument the pair has a non-empty duration and the count 0, or
an empty duration and a positive count. Without one, a habit whose default
duration is count-based gets both: the default duration, which is not empty,
and a positive count; a habit with another default duration gets that default
and the count 0. On an empty store, logging "water" without an amount stores a
log with the duration "1x" and the count 1, while logging "water" with the
amount "1x" stores the empty duration and the count 1. -/
theorem runLog_amount_pair (habit : Habit) (rest : List String) (duration : String)
    (count : Int) (isCountBased : Bool) :
    (rest ≠ [] → logAmount habit rest = .ok (duration, count, isCountBased) →
      (duration ≠ "" ∧ count = 0) ∨ (duration = "" ∧ 0 < count)) ∧
    (rest = [] → IsCountBased habit.DefaultDuration = true →
      logAmount habit rest = .ok (duration, count, isCountBased) →
      duration = habit.DefaultDuration ∧ duration ≠ "" ∧ 0 < count) ∧
    (rest = [] → IsCountBased habit.DefaultDuration = false →
      logAmount habit rest = .ok (habit.DefaultDuration, 0, false)) ∧
    runLog ⟨"", [], [], []⟩ ⟨0, 0⟩ ⟨1, 0⟩ "water" [] ""
      = (none, ⟨"", [("water", ⟨1, "water", getDefaultEmoji "water", "1x", 8, "count", ⟨0, 0⟩⟩)],
          [⟨1, 1, "water", "1x", 1, ⟨1, 0⟩, ""⟩], []⟩) ∧
    runLog ⟨"", [], [], []⟩ ⟨0, 0⟩ ⟨1, 0⟩ "water" ["1x"] ""
      = (none, ⟨"", [("water", ⟨1, "water", getDefaultEmoji "water", "1x", 8, "count", ⟨0, 0⟩⟩)],
          [⟨1, 1, "water", "", 1, ⟨1, 0⟩, ""⟩], []⟩) := by
  refine ⟨?_, ?_, ?_, by decide, by decide⟩
  · intro hne h
    cases rest with
    | nil => exact absurd rfl hne
    | cons arg1 tl =>
      simp only [logAmount] at h
      by_cases hc : IsCountBased ⟨TrimSpace arg1.data⟩ = true
      · rw [if_pos hc] at h
        rcases hp : ParseDuration ⟨TrimSpace arg1.data⟩ with ⟨parsed, _ | err⟩
        · rw [hp] at h
          simp only [Except.ok.injEq, Prod.mk.injEq] at h
          have hpos := ParseDuration_count_based_pos _ hc (by rw [hp])
          rw [hp] at hpos
          right
          exact ⟨h.1.symm, by rw [← h.2.1]; exact hpos.1⟩
        · rw [hp] at h
          simp at h
      · rw [if_neg hc] at h
        rcases hp : ParseDuration ⟨TrimSpace arg1.data⟩ with ⟨parsed, _ | err⟩
        · rw [hp] at h
          simp only [Except.ok.injEq, Prod.mk.injEq] at h
          left
          exact ⟨by rw [← h.1]; exact FormatDuration_ne_empty parsed, h.2.1.symm⟩
        · rw [hp] at h
          simp at h
  · intro hr hc h
    subst hr
    simp only [logAmount, hc, if_true] at h
    rcases hp : ParseDuration habit.DefaultDuration with ⟨parsed, _ | err⟩
    · rw [hp] at h
      simp only [Except.ok.injEq, Prod.mk.injEq] at h
      have hpos := ParseDuration_count_based_pos _ hc (by rw [hp])
      rw [hp] at hpos
      exact ⟨h.1.symm, by rw [← h.1]; exact IsCountBased_ne_empty _ hc,
        by rw [← h.2.1]; exact hpos.1⟩
    · rw [hp] at h
      simp at h
  · intro hr hc
    subst hr
    simp [logAmount, hc]

end Lazytrack
